import Mathlib

/-!
Verification of the `mslex` windows command-line splitting/quoting library.

The development shallowly embeds `src/mslex/__init__.py` (and the old
near-duplicate `src/mslex.py`, in namespace `M010`).  Strings are modelled
as `List Char`.  Python's `\s` character class is modelled on its ASCII
range (space, tab, newline, carriage return, vertical tab, form feed);
Unicode-only whitespace is not modelled.  Errors raised by the Python code
(`MSLexError` with a message naming the offending string) are modelled as
an `Except` value carrying the same string that the code interpolates into
the message.  Recursions that are not structural use an explicit fuel
argument (always instantiated with the input length, which is shown to be
adequate), so that every definition evaluates by kernel reduction.
-/

namespace Mslex

/-- Python `\s` (ASCII range), as used by the `(\s+)` alternative of the
tokenizer regex `(\s+)|(\\*)(\"+)|(.[^\s\\\"]*)`. -/
def isSpace (c : Char) : Bool :=
  c = ' ' || c = '\t' || c = '\n' || c = '\r' || c = '\x0b' || c = '\x0c'

/-- a backslash, as matched by `\\` in the tokenizer regex -/
def isSlash (c : Char) : Bool := c = '\\'

/-- a double quote, as matched by `\"` in the tokenizer regex -/
def isQuote (c : Char) : Bool := c = '\"'

/-- a character matched by `[^\s\\\"]`, i.e. one that continues the
`(.[^\s\\\"]*)` text-run alternative of the tokenizer regex -/
def isPlain (c : Char) : Bool := !(isSpace c || isSlash c || isQuote c)

/-- One run produced by `re.finditer(r"(\s+)|(\\*)(\"+)|(.[^\s\\\"]*)", s)`:
a whitespace run, a backslash run followed by a quote run (`nq ≥ 1` by
construction), or a text run. -/
inductive Run : Type
  | ws (t : List Char)
  | sq (ns nq : Nat)
  | txt (t : List Char)
deriving DecidableEq

/-- The source text covered by a run. -/
def runText : Run → List Char
  | .ws t => t
  | .sq ns nq => List.replicate ns '\\' ++ List.replicate nq '\"'
  | .txt t => t

/-- `re.finditer(r"(\s+)|(\\*)(\"+)|(.[^\s\\\"]*)", s)`, fuelled.

At each position the regex engine matches, in order: a maximal whitespace
run; a (possibly empty) backslash run followed by a nonempty quote run
(the backslash run can never give back characters, because shortening it
leaves a backslash, not a quote, in front of `\"+`); otherwise one
arbitrary character followed by the maximal run of characters that are
neither whitespace, backslash nor quote.  (The leading `.` of the third
alternative cannot be a newline, but a newline is whitespace and is taken
by the first alternative, so this makes no difference.) -/
def tokenizeF : Nat → List Char → List Run
  | 0, _ => []
  | _ + 1, [] => []
  | fuel + 1, c :: cs =>
    if isSpace c then
      Run.ws ((c :: cs).takeWhile isSpace) :: tokenizeF fuel ((c :: cs).dropWhile isSpace)
    else
      let ns := ((c :: cs).takeWhile isSlash).length
      let rest := (c :: cs).drop ns
      if rest.head? = some '\"' then
        let nq := (rest.takeWhile isQuote).length
        Run.sq ns nq :: tokenizeF fuel (rest.drop nq)
      else
        Run.txt (c :: cs.takeWhile isPlain) :: tokenizeF fuel (cs.dropWhile isPlain)

/-- The token scanner shared by both splitters. -/
def tokenize (l : List Char) : List Run := tokenizeF l.length l

/-- Python `str.lstrip()` (no argument): drop leading whitespace. -/
def lstrip (l : List Char) : List Char := l.dropWhile isSpace

/-- The `elif quotes:` branch of `_iter_arg_msvcrt`: emit `n_slashes // 2`
backslashes, then `magic_sum // 3` quotes where
`magic_sum = n_quotes + quote_mode + 2 * slashes_odd`, and set the new
quote mode to `magic_sum % 3 == 1`. -/
def msvcrtSQ (qm : Bool) (ns nq : Nat) : List Char × Bool :=
  let magic := nq + (if qm then 1 else 0) + 2 * (ns % 2)
  (List.replicate (ns / 2) '\\' ++ List.replicate (magic / 3) '\"', magic % 3 = 1)

/-- The `while quotes:` loop of `_iter_arg_ucrt`: while quote mode is on
and at least two quotes remain, emit one literal quote and consume two;
otherwise consume one quote and flip quote mode. -/
def ucrtQuotes : Bool → Nat → List Char × Bool
  | qm, 0 => ([], qm)
  | qm, 1 => ([], !qm)
  | qm, n + 2 =>
    if qm then
      let r := ucrtQuotes qm n
      ('\"' :: r.1, r.2)
    else
      ucrtQuotes (!qm) (n + 1)

/-- The `elif quotes:` branch of `_iter_arg_ucrt`: emit `n_slashes // 2`
backslashes; if the backslash count is odd, emit one literal quote and
consume one quote from the run without toggling quote mode; then run the
`while quotes:` loop on the remaining quotes. -/
def ucrtSQ (qm : Bool) (ns nq : Nat) : List Char × Bool :=
  if ns % 2 = 1 then
    let r := ucrtQuotes qm (nq - 1)
    (List.replicate (ns / 2) '\\' ++ '\"' :: r.1, r.2)
  else
    let r := ucrtQuotes qm nq
    (List.replicate (ns / 2) '\\' ++ r.1, r.2)

/-- `_iter_arg_msvcrt` / `_iter_arg_ucrt`, abstracted over the
slash-quote-run policy `h`.  Consumes runs from the shared stream until a
whitespace run is seen with quote mode off (that run is consumed and the
remaining stream is returned), or the stream is exhausted.  Returns the
text of one argument together with the unconsumed remainder of the
stream. -/
def iterArg (h : Bool → Nat → Nat → List Char × Bool) : Bool → List Run → List Char × List Run
  | _, [] => ([], [])
  | qm, Run.ws t :: rest =>
    if qm then
      let r := iterArg h qm rest
      (t ++ r.1, r.2)
    else
      ([], rest)
  | qm, Run.sq ns nq :: rest =>
    let o := h qm ns nq
    let r := iterArg h o.2 rest
    (o.1 ++ r.1, r.2)
  | qm, Run.txt t :: rest =>
    let r := iterArg h qm rest
    (t ++ r.1, r.2)

/-- The outer loop of `split_msvcrt` / `split_ucrt`: each iteration pulls
one run as the peek and scans one argument; fuelled by the number of
runs. -/
def splitRunsF (h : Bool → Nat → Nat → List Char × Bool) : Nat → List Run → List (List Char)
  | 0, _ => []
  | _ + 1, [] => []
  | fuel + 1, r :: rs =>
    let a := iterArg h false (r :: rs)
    a.1 :: splitRunsF h fuel a.2

/-- `split_msvcrt`: split like `msvcrt.dll` / `CommandLineToArgvW`. -/
def split_msvcrt (s : List Char) : List (List Char) :=
  splitRunsF msvcrtSQ (tokenize (lstrip s)).length (tokenize (lstrip s))

/-- `split_ucrt`: split like a modern C runtime. -/
def split_ucrt (s : List Char) : List (List Char) :=
  splitRunsF ucrtSQ (tokenize (lstrip s)).length (tokenize (lstrip s))

/-- The two raise sites of the library, carrying the string that the code
interpolates (via `repr`) into the error message. -/
inductive MSLexError : Type
  | metacharacter (s : List Char)
  | ambiguity (s : List Char)
deriving DecidableEq

instance {ε α : Type} [DecidableEq ε] [DecidableEq α] : DecidableEq (Except ε α) := fun x y =>
  match x, y with
  | .ok a, .ok b =>
    if h : a = b then .isTrue (by rw [h]) else .isFalse (by intro he; cases he; exact h rfl)
  | .error a, .error b =>
    if h : a = b then .isTrue (by rw [h]) else .isFalse (by intro he; cases he; exact h rfl)
  | .ok _, .error _ => .isFalse (by intro he; cases he)
  | .error _, .ok _ => .isFalse (by intro he; cases he)

/-- A character of the `cmd_meta` character class
`([\"\^\&\|\<\>\(\)\%\!])` (note: no whitespace). -/
def isCmdMeta (c : Char) : Bool :=
  c = '\"' || c = '^' || c = '&' || c = '|' || c = '<' || c = '>' ||
    c = '(' || c = ')' || c = '%' || c = '!'

/-- A character of the `cmd_meta_or_space` class `[\s\"\^\&\|\<\>\(\)\%\!]`. -/
def isCmdMetaOrSpace (c : Char) : Bool := isSpace c || isCmdMeta c

/-- A character of the `cmd_meta_inside_quotes` class `([\"\%\!])`. -/
def isCmdMetaInsideQuotes (c : Char) : Bool := c = '\"' || c = '%' || c = '!'

/-- a character matched by `[^\^\"]`, i.e. one that continues a text run
of the `strip_carets_like_cmd` scanner regex `(\^.?)|(\")|([^\^\"]+)` -/
def isCaretText (c : Char) : Bool := !(c = '^' || c = '\"')

/-- prefix an `Except`-carried list with `pre` -/
def econs (pre : List Char) : Except MSLexError (List Char) → Except MSLexError (List Char)
  | .ok t => .ok (pre ++ t)
  | .error e => .error e

/-- The generator inside `strip_carets_like_cmd`, scanning
`(\^.?)|(\")|([^\^\"]+)` runs with the shell quote-mode state, fuelled.
`s0` is the whole input, carried into error messages.  A caret directly
before a newline or at the end of the input forms a one-character escape
run (the regex `.` does not match a newline). -/
def stripCaretsF (s0 : List Char) (check : Bool) : Nat → Bool → List Char → Except MSLexError (List Char)
  | 0, _, _ => .ok []
  | _ + 1, _, [] => .ok []
  | fuel + 1, qm, c :: cs =>
    if c = '^' then
      match cs with
      | [] =>
        if qm then econs ['^'] (stripCaretsF s0 check fuel qm [])
        else stripCaretsF s0 check fuel qm []
      | d :: cs2 =>
        if d = '\n' then
          if qm then econs ['^'] (stripCaretsF s0 check fuel qm cs)
          else stripCaretsF s0 check fuel qm cs
        else if qm then
          if d = '\"' then econs ['^', d] (stripCaretsF s0 check fuel false cs2)
          else if check && (d = '!' || d = '%') then .error (.metacharacter s0)
          else econs ['^', d] (stripCaretsF s0 check fuel qm cs2)
        else
          econs [d] (stripCaretsF s0 check fuel qm cs2)
    else if c = '\"' then
      econs ['\"'] (stripCaretsF s0 check fuel (!qm) cs)
    else
      let t := (c :: cs).takeWhile isCaretText
      if check && t.any (fun x => if qm then isCmdMetaInsideQuotes x else isCmdMeta x) then
        .error (.metacharacter s0)
      else
        econs t (stripCaretsF s0 check fuel qm ((c :: cs).dropWhile isCaretText))

/-- `strip_carets_like_cmd`: interpret caret escaping like `cmd.exe`. -/
def strip_carets_like_cmd (s : List Char) (check : Bool) : Except MSLexError (List Char) :=
  stripCaretsF s check s.length false s

/-- `re.search(cmd_meta, s)` succeeds -/
def hasCmdMeta (s : List Char) : Bool := s.any isCmdMeta

/-- The working string used by `split`: the caret-stripped string when
`like_cmd` is set and the raw string contains a `cmd_meta` character,
otherwise the raw string itself. -/
def splitWorking (s : List Char) (like_cmd check : Bool) : Except MSLexError (List Char) :=
  if like_cmd && hasCmdMeta s then strip_carets_like_cmd s check else .ok s

/-- `split(s, like_cmd, check, ucrt)`: the splitter façade.  With `ucrt`
unspecified it runs both splitters on the working string and raises if
they disagree; with `ucrt` pinned it returns the pinned splitter's result
directly. -/
def split (s : List Char) (like_cmd check : Bool) (ucrt : Option Bool) : Except MSLexError (List (List Char)) :=
  match splitWorking s like_cmd check with
  | .error e => .error e
  | .ok w =>
    match ucrt with
    | none =>
      if split_ucrt w = split_msvcrt w then .ok (split_ucrt w)
      else .error (.ambiguity w)
    | some true => .ok (split_ucrt w)
    | some false => .ok (split_msvcrt w)

/-- a character matched by `[^\\\"]`, continuing the text alternative of
the `_escape_quotes` regex `(\\*)(\"+)|(\\+|[^\\\"]+)` -/
def isEscText (c : Char) : Bool := !(c = '\\' || c = '\"')

/-- `_escape_quotes`, fuelled: for every maximal backslash run immediately
followed by quotes, double the backslashes and emit `\"` for each quote;
backslash runs not followed by a quote and all other text pass through
unchanged. -/
def escapeQuotesF : Nat → List Char → List Char
  | 0, _ => []
  | _ + 1, [] => []
  | fuel + 1, c :: cs =>
    let ns := ((c :: cs).takeWhile isSlash).length
    let rest := (c :: cs).drop ns
    if rest.head? = some '\"' then
      let nq := (rest.takeWhile isQuote).length
      List.replicate (2 * ns) '\\' ++ (List.replicate nq ['\\', '\"']).flatten ++
        escapeQuotesF fuel (rest.drop nq)
    else if 0 < ns then
      List.replicate ns '\\' ++ escapeQuotesF fuel rest
    else
      (c :: cs).takeWhile isEscText ++ escapeQuotesF fuel ((c :: cs).dropWhile isEscText)

/-- `_escape_quotes` -/
def escape_quotes (s : List Char) : List Char := escapeQuotesF s.length s

/-- Doubling of the maximal backslash run at the literal end of a string
(equivalently, appending one more copy of it): the effect of
`re.sub(r"(\\+)$", r"\1\1", s)` on strings that do not end in a newline. -/
def dtbPlain (l : List Char) : List Char :=
  l ++ List.replicate (l.reverse.takeWhile isSlash).length '\\'

/-- `re.sub(r"(\\+)$", r"\1\1", s)`: without `re.MULTILINE`, Python's `$`
matches at the end of the string and also just before a newline that is
the last character, so the maximal backslash run ending at either position
is doubled: the run at the literal end when the string does not end in
`'\n'`, and the run directly before the final `'\n'` when it does. -/
def doubleTrailingSlashes (l : List Char) : List Char :=
  if l.getLast? = some '\n' then dtbPlain l.dropLast ++ ['\n']
  else dtbPlain l

/-- `_wrap_in_quotes` -/
def wrap_in_quotes (l : List Char) : List Char :=
  '\"' :: doubleTrailingSlashes l ++ ['\"']

/-- The replacement function `f` of `_quote_for_cmd`, applied to a
quotable run (a maximal run free of `%`, `!` and `"`): wrap it in quotes
if it contains a `cmd_meta_or_space` character or ends in a backslash,
else keep it verbatim. -/
def quotablePiece (q : List Char) : List Char :=
  if q.any isCmdMetaOrSpace || q.reverse.head? = some '\\' then wrap_in_quotes q
  else q

/-- a character matched by `[^\%\!\"]`, continuing the quotable-run
alternative of the `_quote_for_cmd` regex `([^\%\!\"]+)|([\%\!])|"` -/
def isQuotable (c : Char) : Bool := !(c = '%' || c = '!' || c = '\"')

/-- `_quote_for_cmd`'s `re.sub`, fuelled: replace each quotable run via
`quotablePiece`, each `%`/`!` by a caret-escaped copy, and each quote by
`\^"`. -/
def quoteForCmdF : Nat → List Char → List Char
  | 0, _ => []
  | _ + 1, [] => []
  | fuel + 1, c :: cs =>
    if c = '%' || c = '!' then
      '^' :: c :: quoteForCmdF fuel cs
    else if c = '\"' then
      '\\' :: '^' :: '\"' :: quoteForCmdF fuel cs
    else
      quotablePiece ((c :: cs).takeWhile isQuotable) ++
        quoteForCmdF fuel ((c :: cs).dropWhile isQuotable)

/-- `_quote_for_cmd` -/
def quote_for_cmd (s : List Char) : List Char := quoteForCmdF s.length s

/-- `re.sub(cmd_meta, r"^\1", s)`: prefix every `cmd_meta` character with
a caret. -/
def caretEscapeAll (s : List Char) : List Char :=
  s.flatMap (fun c => if isCmdMeta c then ['^', c] else [c])

/-- `quote(s, for_cmd)` -/
def quote (s : List Char) (for_cmd : Bool) : List Char :=
  if s = [] then ['\"', '\"']
  else if for_cmd then
    if !(s.any isCmdMetaOrSpace) then s
    else
      let quoted := quote_for_cmd s
      if !(s.any (fun c => isSpace c || isQuote c)) then
        let alt := caretEscapeAll s
        if alt.length < quoted.length then alt else quoted
      else quoted
  else
    if !(s.any isSpace) then escape_quotes s
    else wrap_in_quotes (escape_quotes s)

/-- Spec-side model (for the C3 refinement identity) of the classical
"process one quote at a time" recurrence that the legacy splitter's
closed-form `magic` computation replaces: each quote toggles quote mode,
except that when quote mode is on and two quotes occur in a row the pair
yields one literal quote character (the first quote of the pair ends the
quoted span, the second is emitted literally). -/
def naiveQuoteLoop : Bool → Nat → List Char × Bool
  | qm, 0 => ([], qm)
  | qm, 1 => ([], !qm)
  | qm, n + 2 =>
    if qm then
      let r := naiveQuoteLoop false n
      ('\"' :: r.1, r.2)
    else
      naiveQuoteLoop true (n + 1)

/-- Spec-side model (for the C3 refinement identity) of the naive
treatment of one backslash-run-plus-quote-run: emit `n_slashes / 2`
literal backslashes; an odd backslash run escapes the first quote of the
run (one literal quote, no toggle); the remaining quotes go through the
one-quote-at-a-time recurrence. -/
def naiveSQ (qm : Bool) (ns nq : Nat) : List Char × Bool :=
  if ns % 2 = 1 && 1 ≤ nq then
    let r := naiveQuoteLoop qm (nq - 1)
    (List.replicate (ns / 2) '\\' ++ '\"' :: r.1, r.2)
  else
    let r := naiveQuoteLoop qm nq
    (List.replicate (ns / 2) '\\' ++ r.1, r.2)

/-- `join(split_command, for_cmd)`: quote every word and join on single
spaces. -/
def join (split_command : List (List Char)) (for_cmd : Bool) : List Char :=
  List.intercalate [' '] (split_command.map (fun w => quote w for_cmd))

end Mslex

namespace M010

/-- The slash-quote branch of `iter_arg` in the old implementation
`src/mslex.py` (version 0.1.0). -/
def iterArgSQ (qm : Bool) (ns nq : Nat) : List Char × Bool :=
  let magic := nq + (if qm then 1 else 0) + 2 * (ns % 2)
  (List.replicate (ns / 2) '\\' ++ List.replicate (magic / 3) '\"', magic % 3 = 1)

/-- `iter_arg` of `src/mslex.py`: scan one argument from the shared run
stream. -/
def iter_arg : Bool → List Mslex.Run → List Char × List Mslex.Run
  | _, [] => ([], [])
  | qm, Mslex.Run.ws t :: rest =>
    if qm then
      let r := iter_arg qm rest
      (t ++ r.1, r.2)
    else
      ([], rest)
  | qm, Mslex.Run.sq ns nq :: rest =>
    let o := iterArgSQ qm ns nq
    let r := iter_arg o.2 rest
    (o.1 ++ r.1, r.2)
  | qm, Mslex.Run.txt t :: rest =>
    let r := iter_arg qm rest
    (t ++ r.1, r.2)

/-- The loop of `iter_args` of `src/mslex.py`, fuelled by the number of
runs.  Its tokenizer regex `(\s+)|(\\*)(\"+)|(.[^\s\\\"]*)` and `lstrip`
call are character-for-character those of the current implementation, so
the shared `Mslex.tokenize`/`Mslex.lstrip` embed it. -/
def iterArgsF : Nat → List Mslex.Run → List (List Char)
  | 0, _ => []
  | _ + 1, [] => []
  | fuel + 1, r :: rs =>
    let a := iter_arg false (r :: rs)
    a.1 :: iterArgsF fuel a.2

/-- `split` of `src/mslex.py` (version 0.1.0). -/
def split (s : List Char) : List (List Char) :=
  iterArgsF (Mslex.tokenize (Mslex.lstrip s)).length (Mslex.tokenize (Mslex.lstrip s))

end M010

namespace Mslex

/-- Does the first character of the list satisfy `p`?  (`false` on `[]`.) -/
def headSat (p : Char → Bool) : List Char → Bool
  | [] => false
  | c :: _ => p c

/-- The runs the tokenizer produces on a stretch of text that contains no
backslash and no quote: alternating whitespace and plain-text runs. -/
def textRunsF : Nat → List Char → List Run
  | 0, _ => []
  | _ + 1, [] => []
  | fuel + 1, c :: cs =>
    if isSpace c then
      Run.ws ((c :: cs).takeWhile isSpace) :: textRunsF fuel ((c :: cs).dropWhile isSpace)
    else
      Run.txt (c :: cs.takeWhile isPlain) :: textRunsF fuel (cs.dropWhile isPlain)

/-- `textRunsF` at adequate fuel. -/
def textRuns (l : List Char) : List Run := textRunsF l.length l

/-- `Emits h qm runs out qm'` says: in front of any continuation, the run
list `runs`, entered with quote mode `qm`, contributes exactly the text
`out` to the current argument and hands quote mode `qm'` to the
continuation (in particular the argument does not end inside `runs`). -/
def Emits (h : Bool → Nat → Nat → List Char × Bool) (qm : Bool) (runs : List Run)
    (out : List Char) (qm' : Bool) : Prop :=
  ∀ suffix, iterArg h qm (runs ++ suffix) =
    (out ++ (iterArg h qm' suffix).1, (iterArg h qm' suffix).2)

/-- The handler equations shared by the two splitters' slash-quote-run
policies on the run shapes that `quote`/`join` output can produce.  Both
`msvcrtSQ` and `ucrtSQ` satisfy them. -/
def GoodSQ (h : Bool → Nat → Nat → List Char × Bool) : Prop :=
  (∀ a, h false (2 * a + 1) 1 = (List.replicate a '\\' ++ ['\"'], false)) ∧
  (∀ a, h true (2 * a + 1) 1 = (List.replicate a '\\' ++ ['\"'], true)) ∧
  (∀ a, h true (2 * a + 1) 2 = (List.replicate a '\\' ++ ['\"'], false)) ∧
  (∀ a, h true (2 * a) 1 = (List.replicate a '\\', false)) ∧
  (h false 0 2 = ([], false)) ∧
  (∀ a, h false (2 * a + 1) 2 = (List.replicate a '\\' ++ ['\"'], true)) ∧
  (∀ a, h false (2 * a) 1 = (List.replicate a '\\', true))

/-- Spec-side model (for the amended C5 error characterization) of "the
caret normalizer with check enabled fails": scanning the same
`(\^.?)|(\")|([^\^\"]+)` runs with the shell quote-mode state, a
violation is a two-character escape run `^%` or `^!` seen while quote
mode is on, or a text run containing a forbidden character — the
forbidden set is the `cmd_meta` class (quote, caret, ampersand, pipe,
angle brackets, parentheses, percent, bang — no whitespace) while quote
mode is off, and only quote, percent and bang while quote mode is on. -/
def cmdViolationF : Nat → Bool → List Char → Bool
  | 0, _, _ => false
  | _ + 1, _, [] => false
  | fuel + 1, qm, c :: cs =>
    if c = '^' then
      match cs with
      | [] => cmdViolationF fuel qm []
      | d :: cs2 =>
        if d = '\n' then cmdViolationF fuel qm cs
        else if qm then
          if d = '\"' then cmdViolationF fuel false cs2
          else if d = '!' || d = '%' then true
          else cmdViolationF fuel qm cs2
        else cmdViolationF fuel qm cs2
    else if c = '\"' then
      cmdViolationF fuel (!qm) cs
    else
      ((c :: cs).takeWhile isCaretText).any
          (fun x => if qm then isCmdMetaInsideQuotes x else isCmdMeta x) ||
        cmdViolationF fuel qm ((c :: cs).dropWhile isCaretText)

/-- `cmdViolationF` at adequate fuel, from the initial state. -/
def cmdViolation (s : List Char) : Bool := cmdViolationF s.length false s

/-- `stripCaretsF` at adequate fuel from an arbitrary quote-mode state:
the caret-stripping scanner as a function of the start state.  One
recursion step always consumes at least one character, so the input's
length is enough fuel. -/
def stripFrom (s0 : List Char) (check : Bool) (qm : Bool) (l : List Char) :
    Except MSLexError (List Char) :=
  stripCaretsF s0 check l.length qm l

/-- `StripOK qm x out qm'` says: the caret-stripping scanner, entered in
quote mode `qm` at the start of `x`, scans `x` to its exact end (no escape
run straddles the end of `x`), raises no metacharacter error, emits `out`,
and leaves quote mode `qm'`.  The text-chunk constructor does not require
maximal chunks: a text run may be split into consecutive chunks (and a
chunk may later merge with following text when `x` is embedded in a larger
string) without changing the scanner's output. -/
inductive StripOK : Bool → List Char → List Char → Bool → Prop
  | nil (qm : Bool) : StripOK qm [] [] qm
  | escF {c : Char} {x out : List Char} {qm' : Bool} (hc : ¬ (c = '\n')) :
      StripOK false x out qm' → StripOK false ('^' :: c :: x) (c :: out) qm'
  | escT {c : Char} {x out : List Char} {qm' : Bool} (hc : ¬ (c = '\n'))
      (hq : ¬ (c = '\"')) (hb : ¬ (c = '!')) (hp : ¬ (c = '%')) :
      StripOK true x out qm' → StripOK true ('^' :: c :: x) ('^' :: c :: out) qm'
  | escTQ {x out : List Char} {qm' : Bool} :
      StripOK false x out qm' → StripOK true ('^' :: '\"' :: x) ('^' :: '\"' :: out) qm'
  | escNl {qm : Bool} {x out : List Char} {qm' : Bool} :
      StripOK qm ('\n' :: x) out qm' →
      StripOK qm ('^' :: '\n' :: x) ((if qm then ['^'] else []) ++ out) qm'
  | quo {qm : Bool} {x out : List Char} {qm' : Bool} :
      StripOK (!qm) x out qm' → StripOK qm ('\"' :: x) ('\"' :: out) qm'
  | txt {qm : Bool} {x out : List Char} {qm' : Bool} (c : Char) (t : List Char)
      (hct : (c :: t).all isCaretText = true)
      (hchk : (c :: t).any
        (fun a => if qm then isCmdMetaInsideQuotes a else isCmdMeta a) = false) :
      StripOK qm x out qm' → StripOK qm ((c :: t) ++ x) ((c :: t) ++ out) qm'

/-- The caret-stripped form of `_quote_for_cmd`'s output, fuelled the same
way as `quoteForCmdF`: wrapped and verbatim quotable pieces pass through
the caret scanner unchanged, a `^%`/`^!` piece strips to the bare
substitution character, and a `\^\"` piece strips to `\\\"`. -/
def strippedQFCF : Nat → List Char → List Char
  | 0, _ => []
  | _ + 1, [] => []
  | fuel + 1, c :: cs =>
    if c = '%' || c = '!' then
      c :: strippedQFCF fuel cs
    else if c = '\"' then
      '\\' :: '\"' :: strippedQFCF fuel cs
    else
      quotablePiece ((c :: cs).takeWhile isQuotable) ++
        strippedQFCF fuel ((c :: cs).dropWhile isQuotable)

/-- `strippedQFCF` at adequate fuel. -/
def strippedQFC (s : List Char) : List Char := strippedQFCF s.length s

/-- The strings on which the extra `$` match site of
`doubleTrailingSlashes` fires: a backslash directly before a newline that
is the last character. -/
def endsSlashNl (l : List Char) : Bool :=
  (l.reverse.head? = some '\n') && headSat isSlash (l.reverse.drop 1)

/-- Fuelled scan of a word along the run structure of `_quote_for_cmd`'s
regex: `true` iff no maximal quotable run (maximal run free of `%`, `!`
and `"`) ends in a backslash directly followed by a newline that closes
the run.  On such a run the wrapped piece's `re.sub(r"(\\+)$", r"\1\1")`
doubles the backslashes before the trailing newline. -/
def goodPiecesF : Nat → List Char → Bool
  | 0, _ => true
  | _ + 1, [] => true
  | fuel + 1, c :: cs =>
    if c = '%' || c = '!' then
      goodPiecesF fuel cs
    else if c = '\"' then
      goodPiecesF fuel cs
    else
      !(endsSlashNl ((c :: cs).takeWhile isQuotable)) &&
        goodPiecesF fuel ((c :: cs).dropWhile isQuotable)

/-- `goodPiecesF` at adequate fuel. -/
def goodPieces (s : List Char) : Bool := goodPiecesF s.length s

/-- `Enc e v` says: the string `e` is a well-formed shell-mode encoding of
the word `v` as the caret-stripped `_quote_for_cmd` output produces it: a
concatenation of whitespace-free plain/backslash text segments (emitted
verbatim, not ending in a backslash), backslash-escaped quotes `\\\"`
(emitting a literal quote), quote-wrapped bodies `\"...\"` with doubled
trailing backslashes (emitting the body), and the merged shape of an
escaped quote directly followed by a wrapped body.  The side conditions
pin the character class at each junction so that the tokenizer's runs
decompose along the units. -/
inductive Enc : List Char → List Char → Prop
  | nil : Enc [] []
  | seg {e v : List Char} (u : List Char) (hne : u ≠ [])
      (hall : u.all (fun c => isPlain c || isSlash c) = true)
      (hlast : headSat isSlash u.reverse = false)
      (hhead : headSat isPlain e = false) :
      Enc e v → Enc (u ++ e) (u ++ v)
  | sq1 {e v : List Char} (hhead : headSat isQuote e = false) :
      Enc e v → Enc ('\\' :: '\"' :: e) ('\"' :: v)
  | wrapb {e v : List Char} (q : List Char) (hq : q ≠ [])
      (hqf : q.all (fun c => !(isQuote c)) = true)
      (hhead : headSat isQuote e = false) :
      Enc e v → Enc ('\"' :: (dtbPlain q ++ '\"' :: e)) (q ++ v)
  | sq1wrap {e v : List Char} (q : List Char) (hq : q ≠ [])
      (hqf : q.all (fun c => !(isQuote c)) = true)
      (hhead : headSat isQuote e = false) :
      Enc e v →
      Enc ('\\' :: '\"' :: '\"' :: (dtbPlain q ++ '\"' :: e))
        ('\"' :: (q ++ v))

end Mslex

namespace Mslex

theorem length_dropWhile_le (p : Char → Bool) (l : List Char) :
    (l.dropWhile p).length ≤ l.length :=
  (List.dropWhile_sublist p).length_le

theorem takeWhile_append_drop_length (p : Char → Bool) (l : List Char) :
    l.takeWhile p ++ l.drop (l.takeWhile p).length = l := by
  obtain ⟨t, ht⟩ := List.takeWhile_prefix (l := l) p
  have hd := List.drop_left (l.takeWhile p) t
  rw [ht] at hd
  rw [hd]
  exact ht

theorem head_quote_takeWhile {l : List Char} (h : l.head? = some '\"') :
    1 ≤ (l.takeWhile isQuote).length := by
  match l, h with
  | c :: cs, h =>
    have : c = '\"' := by simpa using h
    subst this
    rw [List.takeWhile_cons_of_pos (by simp [isQuote])]
    simp

theorem takeWhile_all_eq_replicate {p : Char → Bool} {d : Char}
    (hd : ∀ c, p c = true → c = d) (l : List Char) :
    l.takeWhile p = List.replicate (l.takeWhile p).length d := by
  apply List.eq_replicate_of_mem
  intro c hc
  exact hd c (List.all_takeWhile (l := l) (p := p) ▸ (List.all_eq_true.mp List.all_takeWhile c hc))

theorem isSlash_eq (c : Char) (h : isSlash c = true) : c = '\\' := by
  simpa [isSlash, decide_eq_true_eq] using h

theorem isQuote_eq (c : Char) (h : isQuote c = true) : c = '\"' := by
  simpa [isQuote, decide_eq_true_eq] using h

theorem tokenizeF_nil (f : Nat) : tokenizeF f [] = [] := by cases f <;> rfl

theorem tokenizeF_fuel :
    ∀ f g l, l.length ≤ f → l.length ≤ g → tokenizeF f l = tokenizeF g l := by
  intro f
  induction f with
  | zero =>
    intro g l hf _
    have : l = [] := List.length_eq_zero.mp (Nat.le_zero.mp hf)
    subst this
    simp [tokenizeF_nil]
  | succ f ih =>
    intro g l hf hg
    match l with
    | [] => simp [tokenizeF_nil]
    | c :: cs =>
      match g with
      | 0 => exact absurd hg (by simp)
      | g + 1 =>
        show tokenizeF (f + 1) (c :: cs) = tokenizeF (g + 1) (c :: cs)
        simp only [tokenizeF]
        split
        · -- whitespace branch
          have hlen : ((c :: cs).dropWhile isSpace).length ≤ cs.length := by
            rename_i hsp
            rw [List.dropWhile_cons_of_pos hsp]
            exact length_dropWhile_le _ _
          rw [ih g _ (le_trans hlen (Nat.le_of_succ_le_succ hf))
            (le_trans hlen (Nat.le_of_succ_le_succ hg))]
        · split
          · -- slash-quote branch
            rename_i hhead
            have hq1 := head_quote_takeWhile hhead
            have hlen :
                ((((c :: cs).drop ((c :: cs).takeWhile isSlash).length)).drop
                  ((((c :: cs).drop ((c :: cs).takeWhile isSlash).length)).takeWhile
                    isQuote).length).length ≤ cs.length := by
              rw [List.length_drop, List.length_drop]
              simp only [List.length_cons]
              omega
            rw [ih g _ (le_trans hlen (Nat.le_of_succ_le_succ hf))
              (le_trans hlen (Nat.le_of_succ_le_succ hg))]
          · -- text branch
            have hlen : (cs.dropWhile isPlain).length ≤ cs.length := length_dropWhile_le _ _
            rw [ih g _ (le_trans hlen (Nat.le_of_succ_le_succ hf))
              (le_trans hlen (Nat.le_of_succ_le_succ hg))]

theorem tokenize_eq_fuel {f : Nat} {l : List Char} (h : l.length ≤ f) :
    tokenize l = tokenizeF f l :=
  tokenizeF_fuel _ _ _ le_rfl h

theorem tokenize_nil : tokenize ([] : List Char) = [] := rfl

theorem tokenize_cons (c : Char) (cs : List Char) :
    tokenize (c :: cs) =
      if isSpace c then
        Run.ws ((c :: cs).takeWhile isSpace) :: tokenize ((c :: cs).dropWhile isSpace)
      else if ((c :: cs).drop ((c :: cs).takeWhile isSlash).length).head? = some '\"' then
        Run.sq ((c :: cs).takeWhile isSlash).length
            (((c :: cs).drop ((c :: cs).takeWhile isSlash).length).takeWhile isQuote).length ::
          tokenize (((c :: cs).drop ((c :: cs).takeWhile isSlash).length).drop
            (((c :: cs).drop ((c :: cs).takeWhile isSlash).length).takeWhile isQuote).length)
      else
        Run.txt (c :: cs.takeWhile isPlain) :: tokenize (cs.dropWhile isPlain) := by
  show tokenizeF (cs.length + 1) (c :: cs) = _
  simp only [tokenizeF]
  split
  · rename_i hsp
    rw [← tokenize_eq_fuel]
    rw [List.dropWhile_cons_of_pos hsp]
    exact length_dropWhile_le _ _
  · split
    · rw [← tokenize_eq_fuel]
      rename_i hhead
      have hq1 := head_quote_takeWhile hhead
      rw [List.length_drop, List.length_drop]
      simp only [List.length_cons]
      omega
    · rw [← tokenize_eq_fuel]
      exact length_dropWhile_le _ _

theorem takeWhile_not_head {p : Char → Bool} {X : List Char} (hX : headSat p X = false) :
    X.takeWhile p = [] := by
  match X, hX with
  | [], _ => rfl
  | c :: cs, hX => exact List.takeWhile_cons_of_neg (by simpa [headSat] using hX)

theorem takeWhile_replicate_append {p : Char → Bool} {d : Char} (hd : p d = true) (n : Nat)
    {X : List Char} (hX : headSat p X = false) :
    (List.replicate n d ++ X).takeWhile p = List.replicate n d := by
  rw [List.takeWhile_append_of_pos (by intro a ha; rwa [List.eq_of_mem_replicate ha]),
    takeWhile_not_head hX, List.append_nil]

theorem headSat_false_of_head? {p : Char → Bool} {X : List Char}
    (h : ∀ c, X.head? = some c → p c = false) : headSat p X = false := by
  match X with
  | [] => rfl
  | c :: cs => exact h c rfl

theorem tokenize_sq_append (m q : Nat) (X : List Char) (hq : 1 ≤ q)
    (hX : headSat isQuote X = false) :
    tokenize (List.replicate m '\\' ++ (List.replicate q '\"' ++ X)) =
      Run.sq m q :: tokenize X := by
  have hqX : (List.replicate q '\"' ++ X).takeWhile isQuote = List.replicate q '\"' :=
    takeWhile_replicate_append (by simp [isQuote]) q hX
  have hsl : (List.replicate m '\\' ++ (List.replicate q '\"' ++ X)).takeWhile isSlash
      = List.replicate m '\\' := by
    apply takeWhile_replicate_append (by simp [isSlash]) m
    match q, hq with
    | q + 1, _ => simp [headSat, isSlash, List.replicate_succ]
  have hdropm : (List.replicate m '\\' ++ (List.replicate q '\"' ++ X)).drop m
      = List.replicate q '\"' ++ X :=
    List.drop_left' (by simp)
  have hdropq : (List.replicate q '\"' ++ X).drop q = X := List.drop_left' (by simp)
  have hheadq : (List.replicate q '\"' ++ X).head? = some '\"' := by
    match q, hq with
    | q + 1, _ => simp [List.replicate_succ]
  obtain ⟨c, cs, hL, hc⟩ :
      ∃ c cs, List.replicate m '\\' ++ (List.replicate q '\"' ++ X) = c :: cs ∧
        isSpace c = false := by
    match m with
    | 0 =>
      match q, hq with
      | q + 1, _ =>
        exact ⟨'\"', List.replicate q '\"' ++ X, by simp [List.replicate_succ],
          by simp [isSpace]⟩
    | m + 1 =>
      exact ⟨'\\', List.replicate m '\\' ++ (List.replicate q '\"' ++ X),
        by simp [List.replicate_succ], by simp [isSpace]⟩
  rw [hL, tokenize_cons, ← hL]
  rw [if_neg (by simp [hc]), hsl]
  simp only [List.length_replicate]
  rw [hdropm, hheadq, if_pos rfl, hqX]
  simp only [List.length_replicate]
  rw [hdropq]


theorem dropWhile_not_head {p : Char → Bool} {X : List Char} (hX : headSat p X = false) :
    X.dropWhile p = X := by
  match X, hX with
  | [], _ => rfl
  | c :: cs, hX => exact List.dropWhile_cons_of_neg (by simpa [headSat] using hX)

theorem all_cons_head {p : Char → Bool} {c : Char} {t : List Char}
    (h : (c :: t).all p) : p c = true ∧ t.all p := by
  simpa using h

theorem isPlain_parts {c : Char} (h : isPlain c = true) :
    isSpace c = false ∧ isSlash c = false ∧ isQuote c = false := by
  simp only [isPlain, Bool.not_eq_true', Bool.or_eq_false_iff] at h
  exact ⟨h.1.1, h.1.2, h.2⟩

theorem tokenize_txt_append (c : Char) (t X : List Char) (hct : (c :: t).all isPlain = true)
    (hX : headSat isPlain X = false) :
    tokenize ((c :: t) ++ X) = Run.txt (c :: t) :: tokenize X := by
  obtain ⟨hc, ht⟩ := all_cons_head hct
  obtain ⟨hcs, hcsl, hcq⟩ := isPlain_parts hc
  have hne : ¬ (((c :: (t ++ X)).drop
      ((c :: (t ++ X)).takeWhile isSlash).length).head? = some '\x22') := by
    rw [List.takeWhile_cons_of_neg (by simp [hcsl])]
    simp only [List.length_nil, List.drop_zero, List.head?_cons]
    intro hh
    have : c = '\x22' := by injection hh
    subst this
    simp [isQuote] at hcq
  rw [List.cons_append, tokenize_cons]
  rw [if_neg (by simp [hcs]), if_neg hne]
  have htw : (t ++ X).takeWhile isPlain = t := by
    rw [List.takeWhile_append_of_pos (by intro a ha; exact (List.all_eq_true.mp ht) a ha),
      takeWhile_not_head hX, List.append_nil]
  have hdw : (t ++ X).dropWhile isPlain = X := by
    rw [List.dropWhile_append_of_pos (by intro a ha; exact (List.all_eq_true.mp ht) a ha),
      dropWhile_not_head hX]
  rw [htw, hdw]

theorem tokenize_ws_append (c : Char) (t X : List Char) (hct : (c :: t).all isSpace = true)
    (hX : headSat isSpace X = false) :
    tokenize ((c :: t) ++ X) = Run.ws (c :: t) :: tokenize X := by
  obtain ⟨hc, ht⟩ := all_cons_head hct
  rw [List.cons_append, tokenize_cons, if_pos hc]
  have htw : ((c :: t) ++ X).takeWhile isSpace = c :: t := by
    rw [List.takeWhile_append_of_pos (by
        intro a ha; exact (List.all_eq_true.mp hct) a ha),
      takeWhile_not_head hX, List.append_nil]
  have hdw : ((c :: t) ++ X).dropWhile isSpace = X := by
    rw [List.dropWhile_append_of_pos (by
        intro a ha; exact (List.all_eq_true.mp hct) a ha),
      dropWhile_not_head hX]
  rw [← List.cons_append, htw, hdw]


theorem head?_ne_quote {X : List Char} (hX : headSat isQuote X = false) :
    ¬ (X.head? = some '\"') := by
  match X, hX with
  | [], _ => simp
  | c :: cs, hX =>
    simp only [List.head?_cons]
    intro hh
    have : c = '\"' := by injection hh
    subst this
    simp [headSat, isQuote] at hX

theorem tokenize_slashes_append (n : Nat) (X : List Char)
    (hsl : headSat isSlash X = false) (hq : headSat isQuote X = false)
    (hp : headSat isPlain X = false) :
    tokenize (List.replicate n '\\' ++ X) =
      List.replicate n (Run.txt ['\\']) ++ tokenize X := by
  induction n with
  | zero => simp
  | succ n ih =>
    rw [List.replicate_succ, List.cons_append, tokenize_cons]
    rw [if_neg (by simp [isSpace]), ← List.cons_append, ← List.replicate_succ]
    have htsl : (List.replicate (n + 1) '\\' ++ X).takeWhile isSlash
        = List.replicate (n + 1) '\\' :=
      takeWhile_replicate_append (by simp [isSlash]) _ hsl
    rw [htsl]
    simp only [List.length_replicate]
    rw [List.drop_left' (by simp)]
    rw [if_neg (head?_ne_quote hq)]
    have htp : (List.replicate n '\\' ++ X).takeWhile isPlain = [] := by
      match n with
      | 0 => exact takeWhile_not_head hp
      | n + 1 =>
        rw [List.replicate_succ, List.cons_append]
        exact List.takeWhile_cons_of_neg (by simp [isPlain, isSlash])
    have hdp : (List.replicate n '\\' ++ X).dropWhile isPlain
        = List.replicate n '\\' ++ X := by
      match n with
      | 0 => exact dropWhile_not_head hp
      | n + 1 =>
        rw [List.replicate_succ, List.cons_append]
        exact List.dropWhile_cons_of_neg (by simp [isPlain, isSlash])
    rw [htp, hdp, ih]
    simp [List.replicate_succ]

theorem ne_slash_of {c : Char} (h : isSlash c = false) : ¬ (c = '\\') := by
  intro hh; subst hh; simp [isSlash] at h

theorem tokenize_slashes_txt_append (n : Nat) (c : Char) (p X : List Char)
    (hcp : (c :: p).all isPlain = true) (hX : headSat isPlain X = false) :
    tokenize (List.replicate (n + 1) '\\' ++ ((c :: p) ++ X)) =
      List.replicate n (Run.txt ['\\']) ++ Run.txt ('\\' :: c :: p) :: tokenize X := by
  obtain ⟨hc, hp'⟩ := all_cons_head hcp
  obtain ⟨hcs, hcsl, hcq⟩ := isPlain_parts hc
  induction n with
  | zero =>
    show tokenize ('\\' :: ((c :: p) ++ X)) = Run.txt ('\\' :: c :: p) :: tokenize X
    rw [tokenize_cons]
    rw [if_neg (by simp [isSpace])]
    have htsl : (('\\' :: ((c :: p) ++ X)) : List Char).takeWhile isSlash = ['\\'] := by
      rw [List.takeWhile_cons_of_pos (by simp [isSlash]), List.cons_append,
        List.takeWhile_cons_of_neg (by simp [hcsl])]
    rw [htsl]
    simp only [List.length_cons, List.length_nil, List.drop_succ_cons, List.drop_zero]
    rw [List.cons_append, if_neg (by
      simp only [List.head?_cons]
      intro hh
      have : c = '\x22' := by injection hh
      subst this
      simp [isQuote] at hcq)]
    have htw : (p ++ X).takeWhile isPlain = p := by
      rw [List.takeWhile_append_of_pos (by intro a ha; exact (List.all_eq_true.mp hp') a ha),
        takeWhile_not_head hX, List.append_nil]
    have hdw : (p ++ X).dropWhile isPlain = X := by
      rw [List.dropWhile_append_of_pos (by intro a ha; exact (List.all_eq_true.mp hp') a ha),
        dropWhile_not_head hX]
    rw [List.takeWhile_cons_of_pos (by simp [hc]), List.dropWhile_cons_of_pos (by simp [hc]),
      htw, hdw]
  | succ n ih =>
    rw [List.replicate_succ, List.cons_append, tokenize_cons]
    rw [if_neg (by simp [isSpace]), ← List.cons_append, ← List.replicate_succ]
    have htsl : (List.replicate (n + 2) '\\' ++ ((c :: p) ++ X)).takeWhile isSlash
        = List.replicate (n + 2) '\\' :=
      takeWhile_replicate_append (by simp [isSlash]) _ (by exact hcsl)
    rw [htsl]
    simp only [List.length_replicate]
    rw [List.drop_left' (by simp)]
    rw [List.cons_append, if_neg (by
      simp only [List.head?_cons]
      intro hh
      have : c = '\x22' := by injection hh
      subst this
      simp [isQuote] at hcq)]
    have htp : (List.replicate (n + 1) '\\' ++ (c :: (p ++ X))).takeWhile isPlain = [] := by
      rw [List.replicate_succ, List.cons_append]
      exact List.takeWhile_cons_of_neg (by simp [isPlain, isSlash])
    have hdp : (List.replicate (n + 1) '\\' ++ (c :: (p ++ X))).dropWhile isPlain
        = List.replicate (n + 1) '\\' ++ (c :: (p ++ X)) := by
      rw [List.replicate_succ, List.cons_append]
      exact List.dropWhile_cons_of_neg (by simp [isPlain, isSlash])
    rw [htp, hdp, ← List.cons_append, ih]
    simp [List.replicate_succ]


theorem headSat_dropWhile (p : Char → Bool) (l : List Char) :
    headSat p (l.dropWhile p) = false := by
  have h := List.head?_dropWhile_not p l
  match hd : l.dropWhile p with
  | [] => rfl
  | c :: cs =>
    rw [hd] at h
    simpa [headSat] using h

theorem takeWhile_append_not_head {p : Char → Bool} {a b : List Char}
    (hb : headSat p b = false) : (a ++ b).takeWhile p = a.takeWhile p := by
  rw [List.takeWhile_append, takeWhile_not_head hb]
  split
  · rename_i h
    have : a.takeWhile p = a :=
      List.IsPrefix.eq_of_length (List.takeWhile_prefix p) h
    rw [this, List.append_nil]
  · rfl

theorem dropWhile_append_not_head {p : Char → Bool} {a b : List Char}
    (hb : headSat p b = false) : (a ++ b).dropWhile p = a.dropWhile p ++ b := by
  rw [List.dropWhile_append]
  split
  · rename_i h
    rw [List.isEmpty_iff] at h
    rw [h, List.nil_append, dropWhile_not_head hb]
  · rfl

theorem textRunsF_nil (f : Nat) : textRunsF f [] = [] := by cases f <;> rfl

theorem textRunsF_fuel :
    ∀ f g l, l.length ≤ f → l.length ≤ g → textRunsF f l = textRunsF g l := by
  intro f
  induction f with
  | zero =>
    intro g l hf _
    have : l = [] := List.length_eq_zero.mp (Nat.le_zero.mp hf)
    subst this
    simp [textRunsF_nil]
  | succ f ih =>
    intro g l hf hg
    match l with
    | [] => simp [textRunsF_nil]
    | c :: cs =>
      match g with
      | 0 => exact absurd hg (by simp)
      | g + 1 =>
        show textRunsF (f + 1) (c :: cs) = textRunsF (g + 1) (c :: cs)
        simp only [textRunsF]
        split
        · rename_i hsp
          have hlen : ((c :: cs).dropWhile isSpace).length ≤ cs.length := by
            rw [List.dropWhile_cons_of_pos hsp]
            exact length_dropWhile_le _ _
          rw [ih g _ (le_trans hlen (Nat.le_of_succ_le_succ hf))
            (le_trans hlen (Nat.le_of_succ_le_succ hg))]
        · have hlen : (cs.dropWhile isPlain).length ≤ cs.length := length_dropWhile_le _ _
          rw [ih g _ (le_trans hlen (Nat.le_of_succ_le_succ hf))
            (le_trans hlen (Nat.le_of_succ_le_succ hg))]

theorem textRuns_cons (c : Char) (cs : List Char) :
    textRuns (c :: cs) =
      if isSpace c then
        Run.ws ((c :: cs).takeWhile isSpace) :: textRuns ((c :: cs).dropWhile isSpace)
      else
        Run.txt (c :: cs.takeWhile isPlain) :: textRuns (cs.dropWhile isPlain) := by
  show textRunsF (cs.length + 1) (c :: cs) = _
  simp only [textRunsF]
  split
  · rename_i hsp
    have hlen : ((c :: cs).dropWhile isSpace).length ≤ cs.length := by
      rw [List.dropWhile_cons_of_pos hsp]
      exact length_dropWhile_le _ _
    rw [textRunsF_fuel cs.length ((c :: cs).dropWhile isSpace).length _ hlen le_rfl]
    rfl
  · rw [textRunsF_fuel cs.length (cs.dropWhile isPlain).length _ (length_dropWhile_le _ _) le_rfl]
    rfl


theorem all_of_sublist {p : Char → Bool} {l l' : List Char} (hs : List.Sublist l' l)
    (h : l.all p = true) : l'.all p = true := by
  rw [List.all_eq_true] at h ⊢
  intro a ha
  exact h a (hs.subset ha)

theorem slashQuote_head_facts {X : List Char}
    (hX : headSat (fun c => isSlash c || isQuote c) X = true) :
    headSat isSpace X = false ∧ headSat isPlain X = false := by
  match X, hX with
  | c :: cs, hX =>
    simp only [headSat, Bool.or_eq_true] at hX
    rcases hX with h | h
    · have : c = '\\' := by simpa [isSlash] using h
      subst this
      constructor <;> simp [headSat, isSpace, isPlain, isSlash]
    · have : c = '\"' := by simpa [isQuote] using h
      subst this
      constructor <;> simp [headSat, isSpace, isPlain, isQuote]

theorem tokenize_text_seg :
    ∀ n (t X : List Char), t.length ≤ n → t.all isEscText = true →
      headSat (fun c => isSlash c || isQuote c) X = true →
      tokenize (t ++ X) = textRuns t ++ tokenize X := by
  intro n
  induction n with
  | zero =>
    intro t X ht _ _
    have : t = [] := List.length_eq_zero.mp (Nat.le_zero.mp ht)
    subst this
    simp [textRuns, textRunsF_nil]
  | succ n ih =>
    intro t X ht hall hX
    obtain ⟨hXs, hXp⟩ := slashQuote_head_facts hX
    match t with
    | [] => simp [textRuns, textRunsF_nil]
    | c :: cs =>
      by_cases hsp : isSpace c = true
      · -- leading whitespace run
        have hw : (c :: cs).takeWhile isSpace = c :: cs.takeWhile isSpace :=
          List.takeWhile_cons_of_pos hsp
        have hr : (c :: cs).dropWhile isSpace = cs.dropWhile isSpace :=
          List.dropWhile_cons_of_pos hsp
        have hsplit : (c :: cs.takeWhile isSpace) ++ cs.dropWhile isSpace = c :: cs := by
          rw [← hw]
          conv_rhs => rw [← List.takeWhile_append_dropWhile (p := isSpace) (l := c :: cs)]
          rw [hr]
        have hhead : headSat isSpace (cs.dropWhile isSpace ++ X) = false := by
          match hd : cs.dropWhile isSpace with
          | [] => simpa using hXs
          | d :: ds =>
            have := headSat_dropWhile isSpace cs
            rw [hd] at this
            simpa [headSat] using this
        have hallw : (c :: cs.takeWhile isSpace).all isSpace = true := by
          rw [← hw]
          exact List.all_takeWhile
        calc tokenize ((c :: cs) ++ X)
            = tokenize ((c :: cs.takeWhile isSpace) ++ (cs.dropWhile isSpace ++ X)) := by
              rw [← List.append_assoc, hsplit]
          _ = Run.ws (c :: cs.takeWhile isSpace) :: tokenize (cs.dropWhile isSpace ++ X) :=
              tokenize_ws_append _ _ _ hallw hhead
          _ = Run.ws (c :: cs.takeWhile isSpace) ::
                (textRuns (cs.dropWhile isSpace) ++ tokenize X) := by
              rw [ih (cs.dropWhile isSpace) X
                (le_trans (length_dropWhile_le _ _) (Nat.le_of_succ_le_succ ht))
                (all_of_sublist (List.dropWhile_sublist _) (all_cons_head hall).2) hX]
          _ = textRuns (c :: cs) ++ tokenize X := by
              rw [textRuns_cons, if_pos hsp, hw, hr]
              simp
      · -- leading plain-text run
        have hc : isPlain c = true := by
          have := (all_cons_head hall).1
          simp only [isEscText, Bool.not_eq_true', Bool.or_eq_false_iff] at this
          simp [isPlain, isSpace, isSlash, isQuote] at *
          tauto
        have hsplit : (c :: cs.takeWhile isPlain) ++ cs.dropWhile isPlain = c :: cs := by
          rw [List.cons_append, List.takeWhile_append_dropWhile isPlain cs]
        have hhead : headSat isPlain (cs.dropWhile isPlain ++ X) = false := by
          match hd : cs.dropWhile isPlain with
          | [] => simpa using hXp
          | d :: ds =>
            have := headSat_dropWhile isPlain cs
            rw [hd] at this
            simpa [headSat] using this
        have hallp : (c :: cs.takeWhile isPlain).all isPlain = true := by
          simp only [List.all_cons, hc, Bool.true_and]
          exact List.all_takeWhile
        calc tokenize ((c :: cs) ++ X)
            = tokenize ((c :: cs.takeWhile isPlain) ++ (cs.dropWhile isPlain ++ X)) := by
              rw [← List.append_assoc, hsplit]
          _ = Run.txt (c :: cs.takeWhile isPlain) :: tokenize (cs.dropWhile isPlain ++ X) :=
              tokenize_txt_append _ _ _ hallp hhead
          _ = Run.txt (c :: cs.takeWhile isPlain) ::
                (textRuns (cs.dropWhile isPlain) ++ tokenize X) := by
              rw [ih (cs.dropWhile isPlain) X
                (le_trans (length_dropWhile_le _ _) (Nat.le_of_succ_le_succ ht))
                (all_of_sublist (List.dropWhile_sublist _) (all_cons_head hall).2) hX]
          _ = textRuns (c :: cs) ++ tokenize X := by
              rw [textRuns_cons, if_neg hsp]
              simp


theorem emits_nil (h : Bool → Nat → Nat → List Char × Bool) (qm : Bool) :
    Emits h qm [] [] qm := by
  intro suffix
  simp

theorem emits_append {h : Bool → Nat → Nat → List Char × Bool} {qm qm1 qm2 : Bool}
    {r1 r2 : List Run} {o1 o2 : List Char}
    (h1 : Emits h qm r1 o1 qm1) (h2 : Emits h qm1 r2 o2 qm2) :
    Emits h qm (r1 ++ r2) (o1 ++ o2) qm2 := by
  intro suffix
  rw [List.append_assoc, h1 (r2 ++ suffix), h2 suffix, List.append_assoc]

theorem emits_txt (h : Bool → Nat → Nat → List Char × Bool) (qm : Bool) (t : List Char) :
    Emits h qm [Run.txt t] t qm := by
  intro suffix
  simp [iterArg]

theorem emits_ws_true (h : Bool → Nat → Nat → List Char × Bool) (t : List Char) :
    Emits h true [Run.ws t] t true := by
  intro suffix
  simp [iterArg]

theorem emits_sq {h : Bool → Nat → Nat → List Char × Bool} {qm qm' : Bool} {ns nq : Nat}
    {o : List Char} (he : h qm ns nq = (o, qm')) :
    Emits h qm [Run.sq ns nq] o qm' := by
  intro suffix
  simp [iterArg, he]

theorem emits_replicate_slash (h : Bool → Nat → Nat → List Char × Bool) (qm : Bool) (n : Nat) :
    Emits h qm (List.replicate n (Run.txt ['\\'])) (List.replicate n '\\') qm := by
  induction n with
  | zero => exact emits_nil h qm
  | succ n ih =>
    rw [List.replicate_succ, List.replicate_succ]
    exact emits_append  (emits_txt h qm ['\\']) ih

theorem emits_textRuns (h : Bool → Nat → Nat → List Char × Bool) :
    ∀ n (t : List Char), t.length ≤ n → Emits h true (textRuns t) t true := by
  intro n
  induction n with
  | zero =>
    intro t ht
    have : t = [] := List.length_eq_zero.mp (Nat.le_zero.mp ht)
    subst this
    exact emits_nil h true
  | succ n ih =>
    intro t ht
    match t with
    | [] => exact emits_nil h true
    | c :: cs =>
      rw [textRuns_cons]
      by_cases hsp : isSpace c = true
      · rw [if_pos hsp]
        have hsplit : (c :: cs).takeWhile isSpace ++ (c :: cs).dropWhile isSpace = c :: cs :=
          List.takeWhile_append_dropWhile isSpace (c :: cs)
        have hlen : ((c :: cs).dropWhile isSpace).length ≤ n := by
          rw [List.dropWhile_cons_of_pos hsp]
          exact le_trans (length_dropWhile_le _ _) (Nat.le_of_succ_le_succ ht)
        have := emits_append  (emits_ws_true h ((c :: cs).takeWhile isSpace))
          (ih ((c :: cs).dropWhile isSpace) hlen)
        rwa [hsplit] at this
      · rw [if_neg hsp]
        have hsplit : (c :: cs.takeWhile isPlain) ++ cs.dropWhile isPlain = c :: cs := by
          rw [List.cons_append, List.takeWhile_append_dropWhile isPlain cs]
        have hlen : (cs.dropWhile isPlain).length ≤ n :=
          le_trans (length_dropWhile_le _ _) (Nat.le_of_succ_le_succ ht)
        have := emits_append  (emits_txt h true (c :: cs.takeWhile isPlain))
          (ih (cs.dropWhile isPlain) hlen)
        rwa [hsplit] at this

theorem textRuns_all_plain (c : Char) (cs : List Char) (h : (c :: cs).all isPlain = true) :
    textRuns (c :: cs) = [Run.txt (c :: cs)] := by
  obtain ⟨hc, hcs⟩ := all_cons_head h
  rw [textRuns_cons, if_neg (by simp [(isPlain_parts hc).1])]
  rw [List.takeWhile_eq_self_iff.mpr ?_, List.dropWhile_eq_nil_iff.mpr ?_]
  · rw [textRuns, textRunsF_nil]
  · intro a ha
    exact List.all_eq_true.mp hcs a ha
  · intro a ha
    exact List.all_eq_true.mp hcs a ha

theorem goodSQ_msvcrt : GoodSQ msvcrtSQ := by
  refine ⟨?_, ?_, ?_, ?_, ?_, ?_, ?_⟩ <;>
    first
      | (intro a
         have h1 : (2 * a + 1) / 2 = a := by omega
         have h2 : (2 * a + 1) % 2 = 1 := by omega
         have h3 : (2 * a) / 2 = a := by omega
         have h4 : (2 * a) % 2 = 0 := by omega
         simp [msvcrtSQ, h1, h2, h3, h4, List.replicate_succ])
      | simp [msvcrtSQ]

theorem goodSQ_ucrt : GoodSQ ucrtSQ := by
  refine ⟨?_, ?_, ?_, ?_, ?_, ?_, ?_⟩ <;>
    first
      | (intro a
         have h1 : (2 * a + 1) / 2 = a := by omega
         have h2 : (2 * a + 1) % 2 = 1 := by omega
         have h3 : (2 * a) / 2 = a := by omega
         have h4 : (2 * a) % 2 = 0 := by omega
         simp [ucrtSQ, ucrtQuotes, h1, h2, h3, h4])
      | simp [ucrtSQ, ucrtQuotes]


theorem escapeQuotesF_nil (f : Nat) : escapeQuotesF f [] = [] := by cases f <;> rfl

theorem escapeQuotesF_fuel :
    ∀ f g l, l.length ≤ f → l.length ≤ g → escapeQuotesF f l = escapeQuotesF g l := by
  intro f
  induction f with
  | zero =>
    intro g l hf _
    have : l = [] := List.length_eq_zero.mp (Nat.le_zero.mp hf)
    subst this
    simp [escapeQuotesF_nil]
  | succ f ih =>
    intro g l hf hg
    match l with
    | [] => simp [escapeQuotesF_nil]
    | c :: cs =>
      match g with
      | 0 => exact absurd hg (by simp)
      | g + 1 =>
        show escapeQuotesF (f + 1) (c :: cs) = escapeQuotesF (g + 1) (c :: cs)
        simp only [escapeQuotesF]
        split
        · rename_i hhead
          have hq1 := head_quote_takeWhile hhead
          have hlen :
              ((((c :: cs).drop ((c :: cs).takeWhile isSlash).length)).drop
                ((((c :: cs).drop ((c :: cs).takeWhile isSlash).length)).takeWhile
                  isQuote).length).length ≤ cs.length := by
            rw [List.length_drop, List.length_drop]
            simp only [List.length_cons]
            omega
          rw [ih g _ (le_trans hlen (Nat.le_of_succ_le_succ hf))
            (le_trans hlen (Nat.le_of_succ_le_succ hg))]
        · split
          · rename_i hns
            have hlen : ((c :: cs).drop ((c :: cs).takeWhile isSlash).length).length
                ≤ cs.length := by
              rw [List.length_drop]
              simp only [List.length_cons]
              omega
            rw [ih g _ (le_trans hlen (Nat.le_of_succ_le_succ hf))
              (le_trans hlen (Nat.le_of_succ_le_succ hg))]
          · have hc : isEscText c = true := by
              rename_i hq hns
              simp only [Nat.not_lt, Nat.le_zero, List.length_eq_zero] at hns
              have hsl : isSlash c = false := by
                by_contra hcc
                rw [Bool.not_eq_false] at hcc
                rw [List.takeWhile_cons_of_pos hcc] at hns
                simp at hns
              rw [hns] at hq
              simp only [List.length_nil, List.drop_zero, List.head?_cons] at hq
              have h1 : ¬ (c = '\\') := ne_slash_of hsl
              have h2 : ¬ (c = '\x22') := by
                intro hh
                exact hq (by rw [hh])
              simp [isEscText, h1, h2]
            have hlen : ((c :: cs).dropWhile isEscText).length ≤ cs.length := by
              rw [List.dropWhile_cons_of_pos hc]
              exact length_dropWhile_le _ _
            rw [ih g _ (le_trans hlen (Nat.le_of_succ_le_succ hf))
              (le_trans hlen (Nat.le_of_succ_le_succ hg))]

theorem escape_quotes_eq_fuel {f : Nat} {l : List Char} (h : l.length ≤ f) :
    escape_quotes l = escapeQuotesF f l :=
  escapeQuotesF_fuel _ _ _ le_rfl h

theorem escape_quotes_nil : escape_quotes [] = [] := rfl


theorem escape_quotes_cons (c : Char) (cs : List Char) :
    escape_quotes (c :: cs) =
      if ((c :: cs).drop ((c :: cs).takeWhile isSlash).length).head? = some '\"' then
        List.replicate (2 * ((c :: cs).takeWhile isSlash).length) '\\' ++
          ((List.replicate
              (((c :: cs).drop ((c :: cs).takeWhile isSlash).length).takeWhile isQuote).length
              ['\\', '\"']).flatten ++
            escape_quotes (((c :: cs).drop ((c :: cs).takeWhile isSlash).length).drop
              (((c :: cs).drop ((c :: cs).takeWhile isSlash).length).takeWhile isQuote).length))
      else if 0 < ((c :: cs).takeWhile isSlash).length then
        List.replicate ((c :: cs).takeWhile isSlash).length '\\' ++
          escape_quotes ((c :: cs).drop ((c :: cs).takeWhile isSlash).length)
      else
        (c :: cs).takeWhile isEscText ++ escape_quotes ((c :: cs).dropWhile isEscText) := by
  show escapeQuotesF (cs.length + 1) (c :: cs) = _
  simp only [escapeQuotesF]
  split
  · rename_i hhead
    have hq1 := head_quote_takeWhile hhead
    have hle : (((c :: cs).drop ((c :: cs).takeWhile isSlash).length).drop
        (((c :: cs).drop ((c :: cs).takeWhile isSlash).length).takeWhile isQuote).length).length
        ≤ cs.length := by
      rw [List.length_drop, List.length_drop]
      simp only [List.length_cons]
      omega
    rw [← escape_quotes_eq_fuel hle]
    rw [List.append_assoc]
  · split
    · rename_i hq hns
      have hle : ((c :: cs).drop ((c :: cs).takeWhile isSlash).length).length
          ≤ cs.length := by
        rw [List.length_drop]
        simp only [List.length_cons]
        omega
      rw [← escape_quotes_eq_fuel hle]
    · rename_i hq hns
      have hc : isEscText c = true := by
        simp only [Nat.not_lt, Nat.le_zero, List.length_eq_zero] at hns
        have hsl : isSlash c = false := by
          by_contra hcc
          rw [Bool.not_eq_false] at hcc
          rw [List.takeWhile_cons_of_pos hcc] at hns
          simp at hns
        rw [hns] at hq
        simp only [List.length_nil, List.drop_zero, List.head?_cons] at hq
        have h1 : ¬ (c = '\\') := ne_slash_of hsl
        have h2 : ¬ (c = '\"') := by
          intro hh
          exact hq (by rw [hh])
        simp [isEscText, h1, h2]
      have hle : ((c :: cs).dropWhile isEscText).length ≤ cs.length := by
        rw [List.dropWhile_cons_of_pos hc]
        exact length_dropWhile_le _ _
      rw [← escape_quotes_eq_fuel hle]

theorem escape_quotes_sq_run (ns nq : Nat) (v' : List Char) (hq : 1 ≤ nq)
    (hv : headSat isQuote v' = false) :
    escape_quotes (List.replicate ns '\\' ++ (List.replicate nq '\"' ++ v')) =
      List.replicate (2 * ns) '\\' ++
        ((List.replicate nq ['\\', '\"']).flatten ++ escape_quotes v') := by
  have hqX : (List.replicate nq '\"' ++ v').takeWhile isQuote = List.replicate nq '\"' :=
    takeWhile_replicate_append (by simp [isQuote]) nq hv
  have hsl : (List.replicate ns '\\' ++ (List.replicate nq '\"' ++ v')).takeWhile isSlash
      = List.replicate ns '\\' := by
    apply takeWhile_replicate_append (by simp [isSlash]) ns
    match nq, hq with
    | nq + 1, _ => simp [headSat, isSlash, List.replicate_succ]
  have hdropm : (List.replicate ns '\\' ++ (List.replicate nq '\"' ++ v')).drop ns
      = List.replicate nq '\"' ++ v' :=
    List.drop_left' (by simp)
  have hdropq : (List.replicate nq '\"' ++ v').drop nq = v' := List.drop_left' (by simp)
  have hheadq : (List.replicate nq '\"' ++ v').head? = some '\"' := by
    match nq, hq with
    | nq + 1, _ => simp [List.replicate_succ]
  obtain ⟨c, cs, hL⟩ :
      ∃ c cs, List.replicate ns '\\' ++ (List.replicate nq '\"' ++ v') = c :: cs := by
    match ns with
    | 0 =>
      match nq, hq with
      | nq + 1, _ =>
        exact ⟨'\"', List.replicate nq '\"' ++ v', by simp [List.replicate_succ]⟩
    | ns + 1 =>
      exact ⟨'\\', List.replicate ns '\\' ++ (List.replicate nq '\"' ++ v'),
        by simp [List.replicate_succ]⟩
  rw [hL, escape_quotes_cons, ← hL]
  rw [hsl]
  simp only [List.length_replicate]
  rw [hdropm, hheadq, if_pos rfl, hqX]
  simp only [List.length_replicate]
  rw [hdropq]

theorem escape_quotes_slash_run (ns : Nat) (v' : List Char) (hns : 1 ≤ ns)
    (hsl : headSat isSlash v' = false) (hqv : headSat isQuote v' = false) :
    escape_quotes (List.replicate ns '\\' ++ v') =
      List.replicate ns '\\' ++ escape_quotes v' := by
  have htsl : (List.replicate ns '\\' ++ v').takeWhile isSlash = List.replicate ns '\\' :=
    takeWhile_replicate_append (by simp [isSlash]) ns hsl
  have hdropm : (List.replicate ns '\\' ++ v').drop ns = v' := List.drop_left' (by simp)
  obtain ⟨c, cs, hL⟩ : ∃ c cs, List.replicate ns '\\' ++ v' = c :: cs := by
    match ns, hns with
    | ns + 1, _ =>
      exact ⟨'\\', List.replicate ns '\\' ++ v', by simp [List.replicate_succ]⟩
  rw [hL, escape_quotes_cons, ← hL]
  rw [htsl]
  simp only [List.length_replicate]
  rw [hdropm]
  rw [if_neg (head?_ne_quote hqv), if_pos (by omega)]

theorem escape_quotes_text_run (c : Char) (t v' : List Char)
    (hct : (c :: t).all isEscText = true) (hv : headSat isEscText v' = false) :
    escape_quotes ((c :: t) ++ v') = (c :: t) ++ escape_quotes v' := by
  obtain ⟨hc, ht⟩ := all_cons_head hct
  have hcsl : isSlash c = false := by
    simp only [isEscText, Bool.not_eq_true', Bool.or_eq_false_iff] at hc
    simp only [isSlash]
    simpa using hc.1
  have hcq : isQuote c = false := by
    simp only [isEscText, Bool.not_eq_true', Bool.or_eq_false_iff] at hc
    simp only [isQuote]
    simpa using hc.2
  rw [List.cons_append, escape_quotes_cons]
  rw [List.takeWhile_cons_of_neg (by simp [hcsl])]
  simp only [List.length_nil, List.drop_zero, List.head?_cons]
  rw [if_neg (by
    intro hh
    have : c = '\"' := by injection hh
    subst this
    simp [isQuote] at hcq)]
  rw [if_neg (by simp)]
  have htw : (t ++ v').takeWhile isEscText = t := by
    rw [List.takeWhile_append_of_pos (by intro a ha; exact (List.all_eq_true.mp ht) a ha),
      takeWhile_not_head hv, List.append_nil]
  have hdw : (t ++ v').dropWhile isEscText = v' := by
    rw [List.dropWhile_append_of_pos (by intro a ha; exact (List.all_eq_true.mp ht) a ha),
      dropWhile_not_head hv]
  rw [List.takeWhile_cons_of_pos hc, List.dropWhile_cons_of_pos hc, htw, hdw]


theorem headSat_append_left {p : Char → Bool} {a b : List Char} (h : a ≠ []) :
    headSat p (a ++ b) = headSat p a := by
  match a, h with
  | c :: cs, _ => rfl

theorem headSat_replicate_slash_append {n : Nat} (hn : 1 ≤ n) (b : List Char) :
    headSat isSlash (List.replicate n '\\' ++ b) = true := by
  match n, hn with
  | n + 1, _ => simp [List.replicate_succ, headSat, isSlash]

theorem escape_quotes_head_slash {v : List Char}
    (hv : headSat (fun c => isSlash c || isQuote c) v = true) :
    headSat isSlash (escape_quotes v) = true := by
  match v, hv with
  | d :: ds, hv =>
    simp only [headSat, Bool.or_eq_true] at hv
    rw [escape_quotes_cons]
    split
    · rename_i hhead
      have hq1 := head_quote_takeWhile hhead
      rcases hv with h | h
      · -- leading backslash: the doubled backslash run is nonempty
        have hns : 1 ≤ ((d :: ds).takeWhile isSlash).length := by
          rw [List.takeWhile_cons_of_pos h]
          simp
        exact headSat_replicate_slash_append (by omega) _
      · -- leading quote: output starts with the backslash of a `\"` pair
        have hns : ((d :: ds).takeWhile isSlash).length = 0 := by
          have : d = '\"' := isQuote_eq d h
          subst this
          rw [List.takeWhile_cons_of_neg (by simp [isSlash])]
          rfl
        have hq2 : 1 ≤ ((d :: ds).takeWhile isQuote).length := by
          rw [hns] at hq1
          simpa using hq1
        rw [hns]
        simp only [Nat.mul_zero, List.replicate_zero, List.nil_append]
        match hk : ((d :: ds).takeWhile isQuote).length, hq2 with
        | k + 1, _ =>
          simp [List.replicate_succ, headSat, isSlash]
    · split
      · rename_i hq hns
        exact headSat_replicate_slash_append (by omega) _
      · rename_i hq hns
        -- impossible: the head is a backslash or a quote
        exfalso
        simp only [Nat.not_lt, Nat.le_zero, List.length_eq_zero] at hns
        rcases hv with h | h
        · rw [List.takeWhile_cons_of_pos h] at hns
          simp at hns
        · rw [hns] at hq
          have : d = '\"' := isQuote_eq d h
          subst this
          simp at hq


theorem drop_length_takeWhile (p : Char → Bool) (l : List Char) :
    l.drop (l.takeWhile p).length = l.dropWhile p := by
  have h1 := takeWhile_append_drop_length p l
  have h2 := List.takeWhile_append_dropWhile p l
  have := h1.trans h2.symm
  exact List.append_cancel_left this

theorem isPlain_of_escText_nonspace {a : Char} (h1 : isEscText a = true)
    (h2 : isSpace a = false) : isPlain a = true := by
  simp only [isEscText, Bool.not_eq_true', Bool.or_eq_false_iff] at h1
  simp [isPlain, isSlash, isQuote, h2, h1.1, h1.2]

theorem nonspace_head_facts {tail : List Char}
    (h : headSat (fun c => !(isSpace c)) tail = false) :
    headSat isQuote tail = false ∧ headSat isSlash tail = false ∧
      headSat isPlain tail = false := by
  match tail with
  | [] => exact ⟨rfl, rfl, rfl⟩
  | d :: ds =>
    simp only [headSat, Bool.not_eq_true'] at h
    refine ⟨?_, ?_, ?_⟩
    · simp only [headSat, isQuote]
      by_contra hc
      rw [Bool.not_eq_false, decide_eq_true_eq] at hc
      subst hc
      simp [isSpace] at h
    · simp only [headSat, isSlash]
      by_contra hc
      rw [Bool.not_eq_false, decide_eq_true_eq] at hc
      subst hc
      simp [isSpace] at h
    · simp [headSat, isPlain, h]

theorem headSat_isQuote_of_head? {l : List Char} (h : ¬ (l.head? = some '\"')) :
    headSat isQuote l = false := by
  match l with
  | [] => rfl
  | d :: ds =>
    simp only [headSat, isQuote]
    simp only [List.head?_cons] at h
    by_contra hc
    rw [Bool.not_eq_false, decide_eq_true_eq] at hc
    subst hc
    exact h rfl

theorem not_escText_slash_or_quote {d : Char} (h : isEscText d = false) :
    (isSlash d || isQuote d) = true := by
  simp only [isEscText, Bool.not_eq_false'] at h
  simpa [isSlash, isQuote] using h

theorem headSat_isPlain_false_of_slash {l : List Char} (h : headSat isSlash l = true) :
    headSat isPlain l = false := by
  match l, h with
  | d :: ds, h =>
    have : d = '\\' := isSlash_eq d h
    subst this
    simp [headSat, isPlain, isSlash]

theorem escape_quotes_ne_nil_of_head_slash {v : List Char}
    (h : headSat isSlash (escape_quotes v) = true) : escape_quotes v ≠ [] := by
  intro hh
  rw [hh] at h
  simp [headSat] at h

theorem escape_quotes_head_not_quote {v : List Char} (hv : headSat isQuote v = false) :
    headSat isQuote (escape_quotes v) = false := by
  match v with
  | [] => rfl
  | d :: ds =>
    by_cases hd : isEscText d = true
    · have hrun := escape_quotes_text_run d (ds.takeWhile isEscText) (ds.dropWhile isEscText)
        (by simp only [List.all_cons, hd, Bool.true_and]; exact List.all_takeWhile)
        (headSat_dropWhile isEscText ds)
      rw [List.cons_append] at hrun
      rw [List.takeWhile_append_dropWhile] at hrun
      rw [hrun]
      simpa [headSat] using hv
    · have hsl : isSlash d = true := by
        have := not_escText_slash_or_quote (by simpa using hd)
        simp only [Bool.or_eq_true] at this
        rcases this with h | h
        · exact h
        · exfalso
          simp only [headSat] at hv
          rw [h] at hv
          simp at hv
      have := escape_quotes_head_slash (v := d :: ds) (by simp [headSat, hsl])
      match hq : escape_quotes (d :: ds), this with
      | e :: es, this =>
        have : e = '\\' := isSlash_eq e this
        subst this
        simp [headSat, isQuote]

theorem tokenize_escaped_quotes :
    ∀ (k : Nat) (X : List Char), headSat isQuote X = false →
      tokenize ((List.replicate k ['\\', '\"']).flatten ++ X) =
        List.replicate k (Run.sq 1 1) ++ tokenize X := by
  intro k
  induction k with
  | zero => intro X _; simp
  | succ k ih =>
    intro X hX
    rw [List.replicate_succ, List.flatten_cons, List.append_assoc]
    have hX' : headSat isQuote ((List.replicate k ['\\', '\"']).flatten ++ X) = false := by
      match k with
      | 0 => simpa using hX
      | k + 1 => simp [List.replicate_succ, headSat, isQuote]
    have : (['\\', '\"'] : List Char) ++ ((List.replicate k ['\\', '\"']).flatten ++ X)
        = List.replicate 1 '\\' ++ (List.replicate 1 '\"' ++
          ((List.replicate k ['\\', '\"']).flatten ++ X)) := by simp
    rw [this, tokenize_sq_append 1 1 _ le_rfl hX', ih X hX]
    simp [List.replicate_succ]

theorem emits_escaped_quotes {h : Bool → Nat → Nat → List Char × Bool} (hg : GoodSQ h) :
    ∀ k, Emits h false (List.replicate k (Run.sq 1 1)) (List.replicate k '\"') false := by
  intro k
  induction k with
  | zero => exact emits_nil h false
  | succ k ih =>
    rw [List.replicate_succ, List.replicate_succ]
    have h11 : h false 1 1 = (['\"'], false) := by
      have := hg.1 0
      simpa using this
    exact emits_append  (emits_sq h11) ih


theorem escape_quotes_ne_nil {v : List Char} (hv : v ≠ []) : escape_quotes v ≠ [] := by
  match v, hv with
  | d :: ds, _ =>
    by_cases hd : isEscText d = true
    · have hrun := escape_quotes_text_run d (ds.takeWhile isEscText) (ds.dropWhile isEscText)
        (by simp only [List.all_cons, hd, Bool.true_and]; exact List.all_takeWhile)
        (headSat_dropWhile isEscText ds)
      rw [List.cons_append, List.takeWhile_append_dropWhile] at hrun
      rw [hrun]
      simp
    · have := escape_quotes_head_slash (v := d :: ds) (by
        simpa [headSat] using not_escText_slash_or_quote (by simpa using hd))
      exact escape_quotes_ne_nil_of_head_slash this

theorem headSat_isPlain_escape_tail {v' tail : List Char}
    (hv : headSat isEscText v' = false) (htp : headSat isPlain tail = false) :
    headSat isPlain (escape_quotes v' ++ tail) = false := by
  match v' with
  | [] => simpa [escape_quotes_nil] using htp
  | d :: ds =>
    have hdf : isEscText d = false := by simpa [headSat] using hv
    have hslash := escape_quotes_head_slash (v := d :: ds) (by
      simpa [headSat] using not_escText_slash_or_quote hdf)
    rw [headSat_append_left (escape_quotes_ne_nil_of_head_slash hslash)]
    exact headSat_isPlain_false_of_slash hslash

theorem headSat_isQuote_escape_tail {v' tail : List Char}
    (hvq : headSat isQuote v' = false) (htq : headSat isQuote tail = false) :
    headSat isQuote (escape_quotes v' ++ tail) = false := by
  match v' with
  | [] => simpa [escape_quotes_nil] using htq
  | d :: ds =>
    rw [headSat_append_left (escape_quotes_ne_nil (by simp))]
    exact escape_quotes_head_not_quote hvq


theorem replicate_append_cons (n : Nat) (a : Char) (Y : List Char) :
    List.replicate n a ++ (a :: Y) = List.replicate (n + 1) a ++ Y := by
  induction n with
  | zero => simp [List.replicate_succ]
  | succ n ih => simp [List.replicate_succ, ih]

theorem slashquote_decomp (l : List Char)
    (hqh : (l.drop (l.takeWhile isSlash).length).head? = some '\"') :
    ∃ ns nq v'', l = List.replicate ns '\\' ++ (List.replicate nq '\"' ++ v'') ∧ 1 ≤ nq ∧
      headSat isQuote v'' = false ∧ l.length = ns + nq + v''.length ∧
      ns = (l.takeWhile isSlash).length := by
  have h1 := takeWhile_append_drop_length isSlash l
  have h2 := takeWhile_all_eq_replicate isSlash_eq l
  have h3 := takeWhile_append_drop_length isQuote (l.drop (l.takeWhile isSlash).length)
  have h4 := takeWhile_all_eq_replicate isQuote_eq (l.drop (l.takeWhile isSlash).length)
  refine ⟨(l.takeWhile isSlash).length,
    ((l.drop (l.takeWhile isSlash).length).takeWhile isQuote).length,
    (l.drop (l.takeWhile isSlash).length).drop
      ((l.drop (l.takeWhile isSlash).length).takeWhile isQuote).length,
    ?_, head_quote_takeWhile hqh, ?_, ?_, rfl⟩
  · conv_lhs => rw [← h1]
    rw [h2]
    simp only [List.length_replicate]
    congr 1
    conv_lhs => rw [← h3]
    rw [h4]
    simp only [List.length_replicate]
  · rw [drop_length_takeWhile]
    exact headSat_dropWhile isQuote _
  · rw [List.length_drop, List.length_drop]
    have hle1 : (l.takeWhile isSlash).length ≤ l.length :=
      (List.takeWhile_prefix isSlash).length_le
    have hle2 := head_quote_takeWhile hqh
    have hle3 : ((l.drop (l.takeWhile isSlash).length).takeWhile isQuote).length ≤
        (l.drop (l.takeWhile isSlash).length).length :=
      (List.takeWhile_prefix isQuote).length_le
    rw [List.length_drop] at hle3
    omega

theorem slashrun_decomp (l : List Char) (hsl : headSat isSlash l = true) :
    ∃ ns, l = List.replicate ns '\\' ++ l.dropWhile isSlash ∧ 1 ≤ ns ∧
      l.length = ns + (l.dropWhile isSlash).length := by
  have h1 := takeWhile_append_drop_length isSlash l
  have h2 := takeWhile_all_eq_replicate isSlash_eq l
  refine ⟨(l.takeWhile isSlash).length, ?_, ?_, ?_⟩
  · conv_lhs => rw [← h1]
    rw [h2]
    simp only [List.length_replicate]
    rw [drop_length_takeWhile]
  · match l, hsl with
    | d :: ds, hsl =>
      have : d = '\\' := isSlash_eq d (by simpa [headSat] using hsl)
      subst this
      rw [List.takeWhile_cons_of_pos (by simp [isSlash])]
      simp
  · have := congrArg List.length h1
    rw [List.length_append] at this
    rw [drop_length_takeWhile] at this
    omega


theorem unquoted_word_runs :
    ∀ n (v tail : List Char), v.length ≤ n → v.all (fun c => !(isSpace c)) = true →
      headSat (fun c => !(isSpace c)) tail = false →
      ∃ runs, tokenize (escape_quotes v ++ tail) = runs ++ tokenize tail ∧
        ∀ h, GoodSQ h → Emits h false runs v false := by
  intro n
  induction n with
  | zero =>
    intro v tail hlen _ _
    have : v = [] := List.length_eq_zero.mp (Nat.le_zero.mp hlen)
    subst this
    exact ⟨[], by simp [escape_quotes_nil], fun h _ => emits_nil h false⟩
  | succ n ih =>
    intro v tail hlen hall htail
    match v with
    | [] => exact ⟨[], by simp [escape_quotes_nil], fun h _ => emits_nil h false⟩
    | c :: cs =>
      obtain ⟨htq, htsl, htp⟩ := nonspace_head_facts htail
      by_cases hd : isEscText c = true
      · -- leading text run
        have hsplit : (c :: cs.takeWhile isEscText) ++ cs.dropWhile isEscText = c :: cs := by
          rw [List.cons_append, List.takeWhile_append_dropWhile]
        have htall : (c :: cs.takeWhile isEscText).all isEscText = true := by
          simp only [List.all_cons, hd, Bool.true_and]
          exact List.all_takeWhile
        have hesc : escape_quotes (c :: cs) =
            (c :: cs.takeWhile isEscText) ++ escape_quotes (cs.dropWhile isEscText) := by
          conv_lhs => rw [← hsplit]
          exact escape_quotes_text_run c _ _ htall (headSat_dropWhile isEscText cs)
        have hplain : (c :: cs.takeWhile isEscText).all isPlain = true := by
          have hsub : List.Sublist (c :: cs.takeWhile isEscText) (c :: cs) :=
            List.Sublist.cons₂ c (List.takeWhile_sublist _)
          have hns := all_of_sublist hsub hall
          rw [List.all_eq_true] at htall hns ⊢
          intro a ha
          exact isPlain_of_escText_nonspace (htall a ha)
            (by have := hns a ha; simpa using this)
        have hXp : headSat isPlain (escape_quotes (cs.dropWhile isEscText) ++ tail) = false :=
          headSat_isPlain_escape_tail (headSat_dropWhile isEscText cs) htp
        obtain ⟨runs', hrt, hre⟩ := ih (cs.dropWhile isEscText) tail
          (le_trans (length_dropWhile_le _ _) (Nat.le_of_succ_le_succ hlen))
          (all_of_sublist (List.dropWhile_sublist _) (all_cons_head hall).2) htail
        refine ⟨Run.txt (c :: cs.takeWhile isEscText) :: runs', ?_, ?_⟩
        · rw [hesc, List.append_assoc, tokenize_txt_append _ _ _ hplain hXp, hrt]
          simp
        · intro h hg
          have e1 := emits_txt h false (c :: cs.takeWhile isEscText)
          have e2 := hre h hg
          have := emits_append  e1 e2
          rw [hsplit] at this
          simpa using this
      · -- leading backslash or quote
        by_cases hqh : ((c :: cs).drop ((c :: cs).takeWhile isSlash).length).head? = some '\"'
        · -- a slash-quote block
          obtain ⟨ns, nq, v'', hdec, hq1, hq3, hlen2, _⟩ := slashquote_decomp (c :: cs) hqh
          obtain ⟨k, rfl⟩ : ∃ k, nq = k + 1 := ⟨nq - 1, by omega⟩
          have hesc : escape_quotes (c :: cs) = List.replicate (2 * ns) '\\' ++
              ((List.replicate (k + 1) ['\\', '\"']).flatten ++ escape_quotes v'') := by
            rw [hdec]
            exact escape_quotes_sq_run ns (k + 1) v'' hq1 hq3
          have hXq : headSat isQuote (escape_quotes v'' ++ tail) = false :=
            headSat_isQuote_escape_tail hq3 htq
          have hX1 : headSat isQuote
              ((List.replicate k ['\\', '\"']).flatten ++ (escape_quotes v'' ++ tail))
              = false := by
            match k with
            | 0 => simpa using hXq
            | k + 1 => simp [List.replicate_succ, headSat, isQuote]
          obtain ⟨runs'', hrt, hre⟩ := ih v'' tail (by omega)
            (by
              have hsub : List.Sublist v'' (c :: cs) := by
                rw [hdec]
                exact ((List.sublist_append_right _ _).trans
                  (List.sublist_append_right _ _))
              exact all_of_sublist hsub hall) htail
          refine ⟨Run.sq (2 * ns + 1) 1 ::
            (List.replicate k (Run.sq 1 1) ++ runs''), ?_, ?_⟩
          · rw [hesc, List.append_assoc]
            rw [List.replicate_succ, List.flatten_cons]
            have hre1 : (List.replicate (2 * ns) '\\' : List Char) ++
                (['\\', '\"'] ++ (List.replicate k ['\\', '\"']).flatten ++
                  (escape_quotes v'' ++ tail)) =
                List.replicate (2 * ns + 1) '\\' ++ (List.replicate 1 '\"' ++
                  ((List.replicate k ['\\', '\"']).flatten ++ (escape_quotes v'' ++ tail))) := by
              rw [← replicate_append_cons (2 * ns) '\\']
              simp
            rw [List.append_assoc, hre1, tokenize_sq_append (2 * ns + 1) 1 _ le_rfl hX1,
              tokenize_escaped_quotes k _ hXq, hrt]
            simp
          · intro h hg
            have e1 : Emits h false [Run.sq (2 * ns + 1) 1]
                (List.replicate ns '\\' ++ ['\"']) false :=
              emits_sq (by have := hg.1 ns; simpa using this)
            have e2 := emits_escaped_quotes hg k
            have e3 := hre h hg
            have e23 := emits_append e2 e3
            have := emits_append  e1 e23
            have htext : (List.replicate ns '\\' ++ ['\"']) ++
                (List.replicate k '\"' ++ v'') = c :: cs := by
              rw [hdec, List.append_assoc]
              simp [List.replicate_succ]
            rw [htext] at this
            simpa using this
        · -- a pure backslash run (not followed by a quote)
          have hcsl : isSlash c = true := by
            have hor := not_escText_slash_or_quote (by simpa using hd)
            simp only [Bool.or_eq_true] at hor
            rcases hor with hh | hh
            · exact hh
            · exfalso
              have : c = '\"' := isQuote_eq c hh
              subst this
              rw [List.takeWhile_cons_of_neg (by simp [isSlash])] at hqh
              simp at hqh
          obtain ⟨ns, hdec, hns1, hlen2⟩ := slashrun_decomp (c :: cs)
            (by simp [headSat, hcsl])
          have hrq : headSat isQuote ((c :: cs).dropWhile isSlash) = false := by
            apply headSat_isQuote_of_head?
            rw [← drop_length_takeWhile]
            exact hqh
          have hrsl : headSat isSlash ((c :: cs).dropWhile isSlash) = false :=
            headSat_dropWhile isSlash (c :: cs)
          have hesc : escape_quotes (c :: cs) = List.replicate ns '\\' ++
              escape_quotes ((c :: cs).dropWhile isSlash) := by
            conv_lhs => rw [hdec]
            exact escape_quotes_slash_run ns _ hns1 hrsl hrq
          match hrest : (c :: cs).dropWhile isSlash with
          | [] =>
            -- the whole word is a backslash run
            rw [hrest] at hdec
            rw [List.append_nil] at hdec
            refine ⟨List.replicate ns (Run.txt ['\\']), ?_, ?_⟩
            · rw [hesc, hrest, escape_quotes_nil, List.append_nil,
                tokenize_slashes_append ns tail htsl htq htp]
            · intro h hg
              have := emits_replicate_slash h false ns
              rw [← hdec] at this
              exact this
          | d :: ds =>
            have hd2 : isEscText d = true := by
              rw [hrest] at hrq hrsl
              simp only [headSat] at hrq hrsl
              have h1 : ¬ (d = '\\') := ne_slash_of hrsl
              have h2 : ¬ (d = '\"') := by
                intro hh
                rw [hh] at hrq
                simp [isQuote] at hrq
              simp [isEscText, h1, h2]
            have hsplit2 : (d :: ds.takeWhile isEscText) ++ ds.dropWhile isEscText
                = d :: ds := by
              rw [List.cons_append, List.takeWhile_append_dropWhile]
            have htall2 : (d :: ds.takeWhile isEscText).all isEscText = true := by
              simp only [List.all_cons, hd2, Bool.true_and]
              exact List.all_takeWhile
            have hesc2 : escape_quotes (d :: ds) =
                (d :: ds.takeWhile isEscText) ++ escape_quotes (ds.dropWhile isEscText) := by
              conv_lhs => rw [← hsplit2]
              exact escape_quotes_text_run d _ _ htall2 (headSat_dropWhile isEscText ds)
            have hallrest : (d :: ds).all (fun c => !(isSpace c)) = true := by
              rw [← hrest]
              exact all_of_sublist (List.dropWhile_sublist _) hall
            have hplain2 : (d :: ds.takeWhile isEscText).all isPlain = true := by
              have hsub : List.Sublist (d :: ds.takeWhile isEscText) (d :: ds) :=
                List.Sublist.cons₂ d (List.takeWhile_sublist _)
              have hns2 := all_of_sublist hsub hallrest
              rw [List.all_eq_true] at htall2 hns2 ⊢
              intro a ha
              exact isPlain_of_escText_nonspace (htall2 a ha)
                (by have := hns2 a ha; simpa using this)
            have hXp : headSat isPlain
                (escape_quotes (ds.dropWhile isEscText) ++ tail) = false :=
              headSat_isPlain_escape_tail (headSat_dropWhile isEscText ds) htp
            obtain ⟨ns', rfl⟩ : ∃ k, ns = k + 1 := ⟨ns - 1, by omega⟩
            have hlen3 : (ds.dropWhile isEscText).length ≤ n := by
              have h1 : (d :: ds).length = (c :: cs).length - (ns' + 1) := by
                rw [← hrest]; omega
              have h2 : (ds.dropWhile isEscText).length ≤ ds.length :=
                length_dropWhile_le _ _
              simp only [List.length_cons] at h1 hlen ⊢
              omega
            obtain ⟨runs', hrt, hre⟩ := ih (ds.dropWhile isEscText) tail hlen3
              (all_of_sublist (List.dropWhile_sublist _) (all_cons_head hallrest).2) htail
            refine ⟨List.replicate ns' (Run.txt ['\\']) ++
              (Run.txt ('\\' :: d :: ds.takeWhile isEscText) :: runs'), ?_, ?_⟩
            · rw [hesc, hrest, hesc2, List.append_assoc, List.append_assoc,
                tokenize_slashes_txt_append ns' d _ _ hplain2 hXp, hrt]
              simp
            · intro h hg
              have e1 := emits_replicate_slash h false ns'
              have e2 := emits_txt h false ('\\' :: d :: ds.takeWhile isEscText)
              have e3 := hre h hg
              have e23 := emits_append  e2 e3
              have := emits_append e1 e23
              have htext : List.replicate ns' '\\' ++
                  (('\\' :: d :: ds.takeWhile isEscText) ++ ds.dropWhile isEscText)
                  = c :: cs := by
                conv_rhs => rw [hdec, hrest]
                simp [List.replicate_succ', List.append_assoc]
              rw [htext] at this
              exact this


theorem headSat_reverse_false_of_getLast? {p : Char → Bool} {l : List Char}
    (h : ∀ c, l.getLast? = some c → p c = false) : headSat p l.reverse = false := by
  match hr : l.reverse with
  | [] => rfl
  | c :: cs =>
    have h1 : l.reverse.head? = l.getLast? := List.head?_reverse l
    rw [hr] at h1
    simp only [List.head?_cons] at h1
    simp only [headSat]
    exact h c h1.symm

theorem headSat_isSlash_reverse_of_escText {x : List Char} (h : x.all isEscText = true) :
    headSat isSlash x.reverse = false := by
  match hr : x.reverse with
  | [] => rfl
  | c :: cs =>
    have hc : c ∈ x := by
      have : c ∈ x.reverse := by rw [hr]; simp
      simpa using this
    have := List.all_eq_true.mp h c hc
    simp only [isEscText, Bool.not_eq_true', Bool.or_eq_false_iff] at this
    simp only [headSat, isSlash]
    simpa using this.1

theorem dtb_append_left {x y : List Char} (hx : headSat isSlash x.reverse = false) :
    dtbPlain (x ++ y) = x ++ dtbPlain y := by
  unfold dtbPlain
  rw [List.reverse_append, takeWhile_append_not_head hx, List.append_assoc]

theorem dtb_no_trailing {x : List Char} (hx : headSat isSlash x.reverse = false) :
    dtbPlain x = x := by
  unfold dtbPlain
  rw [takeWhile_not_head hx]
  simp

theorem dtb_replicate_slash (n : Nat) :
    dtbPlain (List.replicate n '\\') = List.replicate (2 * n) '\\' := by
  unfold dtbPlain
  rw [List.reverse_replicate]
  rw [List.takeWhile_eq_self_iff.mpr (by intro a ha; rw [List.eq_of_mem_replicate ha]; simp [isSlash])]
  rw [List.length_replicate, ← List.replicate_add]
  congr 1
  omega

theorem dtb_nil : dtbPlain [] = [] := rfl

theorem endsSlashNl_nil : endsSlashNl [] = false := rfl

theorem endsSlashNl_single (x : Char) : endsSlashNl [x] = false := by
  simp [endsSlashNl, headSat]

theorem endsSlashNl_append_ge2 {A B : List Char} (hB : 2 ≤ B.length) :
    endsSlashNl (A ++ B) = endsSlashNl B := by
  match hr : B.reverse with
  | [] =>
    rw [List.reverse_eq_nil_iff] at hr
    subst hr
    simp at hB
  | [x] =>
    have h1 : B.length = 1 := by
      rw [← List.length_reverse, hr]
      rfl
    exact absurd hB (by rw [h1]; decide)
  | x :: d :: rest =>
    unfold endsSlashNl
    rw [List.reverse_append, hr]
    simp [headSat]

theorem endsSlashNl_concat_single {A : List Char} (y : Char) :
    endsSlashNl (A ++ [y]) = (y = '\n' && headSat isSlash A.reverse) := by
  unfold endsSlashNl
  rw [List.reverse_append]
  simp

theorem endsSlashNl_of_head_ne {l : List Char} (h : ¬ (l.reverse.head? = some '\n')) :
    endsSlashNl l = false := by
  have h2 : ¬ (l.getLast? = some '\n') := by
    rw [← List.head?_reverse]
    exact h
  unfold endsSlashNl
  simp [h2]

theorem endsSlashNl_replicate_slash (k : Nat) :
    endsSlashNl (List.replicate k '\\') = false := by
  apply endsSlashNl_of_head_ne
  rw [List.reverse_replicate]
  match k with
  | 0 => simp
  | k + 1 =>
    rw [List.replicate_succ]
    simp

theorem endsSlashNl_of_decomp {A v w : List Char} (hd : A ++ v = w)
    (hw : endsSlashNl w = false) : endsSlashNl v = false := by
  match v with
  | [] => rfl
  | [x] => exact endsSlashNl_single x
  | x1 :: x2 :: xs =>
    rw [← hd, endsSlashNl_append_ge2 (by simp only [List.length_cons]; omega)] at hw
    exact hw

theorem headSat_reverse_of_all {p : Char → Bool} {l : List Char} (h0 : l ≠ [])
    (hall : l.all p = true) : headSat p l.reverse = true := by
  match hr : l.reverse with
  | [] => exact absurd (List.reverse_eq_nil_iff.mp hr) h0
  | d :: ds =>
    have hdm : d ∈ l := List.mem_reverse.mp (by rw [hr]; exact List.mem_cons_self _ _)
    have hpd := List.all_eq_true.mp hall d hdm
    simp [headSat, hpd]

theorem headSat_drop_takeWhile (p : Char → Bool) (l : List Char) :
    headSat p (l.drop (l.takeWhile p).length) = false := by
  have h1 : (l.takeWhile p ++ l.dropWhile p).drop (l.takeWhile p).length = l.dropWhile p :=
    List.drop_left _ _
  rw [List.takeWhile_append_dropWhile] at h1
  rw [h1]
  exact headSat_dropWhile p l

/-- `doubleTrailingSlashes` agrees with the plain end-of-string doubling on
every string that does not end in a backslash directly followed by a final
newline. -/
theorem dtb_eq_plain {l : List Char} (h : endsSlashNl l = false) :
    doubleTrailingSlashes l = dtbPlain l := by
  unfold doubleTrailingSlashes
  split
  · rename_i hl
    have hrev : l.reverse.head? = some '\n' := by
      rw [List.head?_reverse]
      exact hl
    match hr : l.reverse with
    | [] =>
      rw [hr] at hrev
      simp at hrev
    | x :: rest =>
      have hx : x = '\n' := by
        rw [hr] at hrev
        simpa using hrev
      subst hx
      have hld : l = rest.reverse ++ ['\n'] := by
        rw [← List.reverse_reverse l, hr]
        simp
      have hdl : l.dropLast = rest.reverse := by
        rw [hld]
        simp
      have hrs : headSat isSlash rest = false := by
        unfold endsSlashNl at h
        rw [hr] at h
        simpa using h
      have h1 : dtbPlain rest.reverse = rest.reverse := by
        unfold dtbPlain
        rw [List.reverse_reverse, takeWhile_not_head hrs]
        simp
      have h2 : dtbPlain l = l := by
        unfold dtbPlain
        rw [hr, List.takeWhile_cons_of_neg (by simp [isSlash])]
        simp
      rw [hdl, h1, h2]
      exact hld.symm
  · rfl

theorem endsSlashNl_sq_shape (ns : Nat) {nq : Nat} (hq : 1 ≤ nq) (EV : List Char)
    (hEV : endsSlashNl EV = false) :
    endsSlashNl (List.replicate ns '\\' ++
      ((List.replicate nq (['\\', '\"'] : List Char)).flatten ++ EV)) = false := by
  obtain ⟨m, rfl⟩ : ∃ m, nq = m + 1 := ⟨nq - 1, by omega⟩
  have hflat : (List.replicate (m + 1) (['\\', '\"'] : List Char)).flatten =
      (List.replicate m (['\\', '\"'] : List Char)).flatten ++ ['\\', '\"'] := by
    rw [List.replicate_succ', List.flatten_append]
    simp
  rw [hflat]
  match EV, hEV with
  | [], _ =>
    rw [List.append_nil, ← List.append_assoc,
      endsSlashNl_append_ge2 (by decide)]
    decide
  | [y], _ =>
    rw [← List.append_assoc, ← List.append_assoc, endsSlashNl_concat_single]
    have hrev : headSat isSlash ((List.replicate ns '\\' ++
        (List.replicate m (['\\', '\"'] : List Char)).flatten) ++
          ['\\', '\"']).reverse = false := by
      rw [List.reverse_append, headSat_append_left (by decide : (['\\', '\"'] :
        List Char).reverse ≠ [])]
      decide
    rw [hrev]
    simp
  | y1 :: y2 :: ys, hEV =>
    rw [← List.append_assoc,
      endsSlashNl_append_ge2 (by simp only [List.length_cons]; omega)]
    exact hEV

theorem endsSlashNl_escape : ∀ (n : Nat) (w : List Char), w.length ≤ n →
    endsSlashNl w = false → endsSlashNl (escape_quotes w) = false := by
  intro n
  induction n with
  | zero =>
    intro w hlen _
    have : w = [] := List.length_eq_zero.mp (Nat.le_zero.mp hlen)
    subst this
    rfl
  | succ n ih =>
    intro w hlen hw
    match w with
    | [] => rfl
    | c :: cs =>
      simp only [List.length_cons, Nat.add_le_add_iff_right] at hlen
      rw [escape_quotes_cons]
      by_cases hhead :
          ((c :: cs).drop ((c :: cs).takeWhile isSlash).length).head? = some '\"'
      · rw [if_pos hhead]
        have hq1 := head_quote_takeWhile hhead
        have hdec1 := takeWhile_append_drop_length isSlash (c :: cs)
        have hdec2 := takeWhile_append_drop_length isQuote
          ((c :: cs).drop ((c :: cs).takeWhile isSlash).length)
        have hdecomp : ((c :: cs).takeWhile isSlash ++
            ((c :: cs).drop ((c :: cs).takeWhile isSlash).length).takeWhile isQuote) ++
            (((c :: cs).drop ((c :: cs).takeWhile isSlash).length).drop
              (((c :: cs).drop ((c :: cs).takeWhile isSlash).length).takeWhile
                isQuote).length) = c :: cs := by
          rw [List.append_assoc, hdec2, hdec1]
        have hv2 : endsSlashNl
            (((c :: cs).drop ((c :: cs).takeWhile isSlash).length).drop
              (((c :: cs).drop ((c :: cs).takeWhile isSlash).length).takeWhile
                isQuote).length) = false := endsSlashNl_of_decomp hdecomp hw
        have hlen2 : ((((c :: cs).drop ((c :: cs).takeWhile isSlash).length)).drop
            ((((c :: cs).drop ((c :: cs).takeWhile isSlash).length)).takeWhile
              isQuote).length).length ≤ n := by
          rw [List.length_drop, List.length_drop]
          simp only [List.length_cons]
          omega
        exact endsSlashNl_sq_shape _ hq1 _ (ih _ hlen2 hv2)
      · rw [if_neg hhead]
        by_cases hns : 0 < ((c :: cs).takeWhile isSlash).length
        · rw [if_pos hns]
          have hdec1 := takeWhile_append_drop_length isSlash (c :: cs)
          have hsl' : headSat isSlash
              ((c :: cs).drop ((c :: cs).takeWhile isSlash).length) = false :=
            headSat_drop_takeWhile isSlash (c :: cs)
          match hv : (c :: cs).drop ((c :: cs).takeWhile isSlash).length with
          | [] =>
            rw [escape_quotes_nil, List.append_nil]
            exact endsSlashNl_replicate_slash _
          | d :: ds =>
            rw [hv] at hdec1 hsl'
            have hqv : headSat isQuote (d :: ds) = false := by
              have hne : ¬ (d = '\"') := by
                intro he
                subst he
                exact hhead (by rw [hv]; rfl)
              simp [headSat, isQuote, hne]
            have hv' : endsSlashNl (d :: ds) = false :=
              endsSlashNl_of_decomp hdec1 hw
            have hlen' : (d :: ds).length ≤ n := by
              rw [← hv, List.length_drop]
              simp only [List.length_cons]
              omega
            match hE : escape_quotes (d :: ds) with
            | [] => exact absurd hE (escape_quotes_ne_nil (by simp))
            | [y] =>
              have hdsl : isSlash d = false := by simpa [headSat] using hsl'
              have hdq : isQuote d = false := by simpa [headSat] using hqv
              have hdt : isEscText d = true := by
                have h1 : ¬ (d = '\\') := by
                  intro he
                  subst he
                  simp [isSlash] at hdsl
                have h2 : ¬ (d = '\"') := by
                  intro he
                  subst he
                  simp [isQuote] at hdq
                simp [isEscText, h1, h2]
              have hct : (d :: ds.takeWhile isEscText).all isEscText = true := by
                rw [List.all_cons, hdt, Bool.true_and]
                exact List.all_takeWhile
              have htrun := escape_quotes_text_run d (ds.takeWhile isEscText)
                (ds.dropWhile isEscText) hct (headSat_dropWhile isEscText ds)
              have hsplit2 : (d :: ds.takeWhile isEscText) ++ ds.dropWhile isEscText
                  = d :: ds := by
                rw [List.cons_append, List.takeWhile_append_dropWhile]
              rw [hsplit2, hE, List.cons_append] at htrun
              injection htrun with hy1 hy2
              have h0 : ds.takeWhile isEscText = [] ∧
                  escape_quotes (ds.dropWhile isEscText) = [] :=
                List.append_eq_nil.mp hy2.symm
              have hds : ds = [] := by
                have h00 : ds.dropWhile isEscText = [] := by
                  by_contra hne0
                  exact (escape_quotes_ne_nil hne0) h0.2
                have h3 := List.takeWhile_append_dropWhile isEscText ds
                rw [h0.1, h00] at h3
                simpa using h3.symm
              subst hds
              subst hy1
              rw [endsSlashNl_concat_single]
              have hnd : ¬ (y = '\n') := by
                intro he
                subst he
                have hbad : endsSlashNl (c :: cs) = true := by
                  rw [← hdec1, endsSlashNl_concat_single]
                  have hne0 : (c :: cs).takeWhile isSlash ≠ [] := by
                    intro hz
                    rw [hz] at hns
                    simp at hns
                  rw [headSat_reverse_of_all hne0 List.all_takeWhile]
                  simp
                rw [hw] at hbad
                simp at hbad
              simp [hnd]
            | y1 :: y2 :: ys =>
              have hEV := ih (d :: ds) hlen' hv'
              rw [hE] at hEV
              rw [endsSlashNl_append_ge2 (by simp only [List.length_cons]; omega)]
              exact hEV
        · rw [if_neg hns]
          have hc : isEscText c = true := by
            simp only [Nat.not_lt, Nat.le_zero, List.length_eq_zero] at hns
            have hsl0 : isSlash c = false := by
              by_contra hcc
              rw [Bool.not_eq_false] at hcc
              rw [List.takeWhile_cons_of_pos hcc] at hns
              simp at hns
            rw [hns] at hhead
            simp only [List.length_nil, List.drop_zero, List.head?_cons] at hhead
            have h1 : ¬ (c = '\\') := ne_slash_of hsl0
            have h2 : ¬ (c = '\"') := by
              intro hh
              exact hhead (by rw [hh])
            simp [isEscText, h1, h2]
          have hde : (c :: cs).dropWhile isEscText = cs.dropWhile isEscText :=
            List.dropWhile_cons_of_pos hc
          have hv' : endsSlashNl ((c :: cs).dropWhile isEscText) = false :=
            endsSlashNl_of_decomp (List.takeWhile_append_dropWhile isEscText (c :: cs)) hw
          have hlen' : ((c :: cs).dropWhile isEscText).length ≤ n := by
            rw [hde]
            exact le_trans (length_dropWhile_le _ _) hlen
          match hE : escape_quotes ((c :: cs).dropWhile isEscText) with
          | [] =>
            have hv0 : (c :: cs).dropWhile isEscText = [] := by
              by_contra hne0
              exact (escape_quotes_ne_nil hne0) hE
            rw [List.append_nil]
            have h3 := List.takeWhile_append_dropWhile isEscText (c :: cs)
            rw [hv0, List.append_nil] at h3
            rw [h3]
            exact hw
          | [y] =>
            rw [endsSlashNl_concat_single]
            have hts : headSat isSlash ((c :: cs).takeWhile isEscText).reverse = false := by
              match hr : ((c :: cs).takeWhile isEscText).reverse with
              | [] => rfl
              | e :: es =>
                have hem : e ∈ (c :: cs).takeWhile isEscText :=
                  List.mem_reverse.mp (by rw [hr]; exact List.mem_cons_self _ _)
                have he := List.all_eq_true.mp List.all_takeWhile e hem
                have hene : ¬ (e = '\\') := by
                  intro hee
                  subst hee
                  simp [isEscText] at he
                simp [headSat, isSlash, hene]
            rw [hts]
            simp
          | y1 :: y2 :: ys =>
            have hEV := ih _ hlen' hv'
            rw [hE] at hEV
            rw [endsSlashNl_append_ge2 (by simp only [List.length_cons]; omega)]
            exact hEV

theorem endsSlashNl_escape_quotes {w : List Char} (h : endsSlashNl w = false) :
    endsSlashNl (escape_quotes w) = false :=
  endsSlashNl_escape w.length w le_rfl h

theorem flatten_pair_getLast (k : Nat) :
    ((List.replicate (k + 1) ['\\', '\"']).flatten).getLast? = some '\"' := by
  induction k with
  | zero => rfl
  | succ k ih =>
    rw [List.replicate_succ, List.flatten_cons]
    rw [List.getLast?_append]
    rw [ih]
    rfl

theorem flatten_pair_ne_nil (k : Nat) : (List.replicate (k + 1) ['\\', '\"']).flatten ≠ [] := by
  rw [List.replicate_succ, List.flatten_cons]
  simp

theorem tokenize_escaped_quotes_close :
    ∀ (k : Nat) (tail : List Char), headSat isQuote tail = false →
      tokenize ((List.replicate (k + 1) ['\\', '\"']).flatten ++ ('\"' :: tail)) =
        List.replicate k (Run.sq 1 1) ++ (Run.sq 1 2 :: tokenize tail) := by
  intro k
  induction k with
  | zero =>
    intro tail htail
    have : ((List.replicate 1 ['\\', '\"']).flatten : List Char) ++ ('\"' :: tail)
        = List.replicate 1 '\\' ++ (List.replicate 2 '\"' ++ tail) := by
      simp [List.replicate_succ]
    rw [this, tokenize_sq_append 1 2 tail (by omega) htail]
    simp
  | succ k ih =>
    intro tail htail
    rw [List.replicate_succ, List.flatten_cons, List.append_assoc]
    have hX : headSat isQuote
        ((List.replicate (k + 1) ['\\', '\"']).flatten ++ ('\"' :: tail)) = false := by
      rw [headSat_append_left (flatten_pair_ne_nil k)]
      rw [List.replicate_succ, List.flatten_cons]
      simp [headSat, isQuote]
    have : (['\\', '\"'] : List Char) ++
        ((List.replicate (k + 1) ['\\', '\"']).flatten ++ ('\"' :: tail))
        = List.replicate 1 '\\' ++ (List.replicate 1 '\"' ++
          ((List.replicate (k + 1) ['\\', '\"']).flatten ++ ('\"' :: tail))) := by
      simp
    rw [this, tokenize_sq_append 1 1 _ le_rfl hX, ih tail htail]
    simp [List.replicate_succ]

theorem emits_escaped_quotes_true {h : Bool → Nat → Nat → List Char × Bool} (hg : GoodSQ h) :
    ∀ k, Emits h true (List.replicate k (Run.sq 1 1)) (List.replicate k '\"') true := by
  intro k
  induction k with
  | zero => exact emits_nil h true
  | succ k ih =>
    rw [List.replicate_succ, List.replicate_succ]
    have h11 : h true 1 1 = (['\"'], true) := by
      have := hg.2.1 0
      simpa using this
    exact emits_append  (emits_sq h11) ih


theorem slashes_text_runs (ns : Nat) (d : Char) (t'' X : List Char) (hns : 1 ≤ ns)
    (hall : (d :: t'').all isEscText = true)
    (hX : headSat (fun c => isSlash c || isQuote c) X = true) :
    ∃ runs, tokenize (List.replicate ns '\\' ++ ((d :: t'') ++ X)) = runs ++ tokenize X ∧
      ∀ h : Bool → Nat → Nat → List Char × Bool,
        Emits h true runs (List.replicate ns '\\' ++ (d :: t'')) true := by
  obtain ⟨hXs, hXp⟩ := slashQuote_head_facts hX
  obtain ⟨hd, ht''⟩ := all_cons_head hall
  by_cases hsp : isSpace d = true
  · -- the text starts with whitespace: no merge with the backslash run
    have h1 : headSat isSlash ((d :: t'') ++ X) = false := by
      simp only [headSat]
      by_contra hc
      rw [Bool.not_eq_false] at hc
      have : d = '\\' := isSlash_eq d hc
      subst this
      simp [isSpace] at hsp
    have h2 : headSat isQuote ((d :: t'') ++ X) = false := by
      simp only [headSat]
      by_contra hc
      rw [Bool.not_eq_false] at hc
      have : d = '\"' := isQuote_eq d hc
      subst this
      simp [isSpace] at hsp
    have h3 : headSat isPlain ((d :: t'') ++ X) = false := by
      simp [headSat, isPlain, hsp]
    rw [tokenize_slashes_append ns _ h1 h2 h3]
    rw [tokenize_text_seg (d :: t'').length (d :: t'') X le_rfl hall hX]
    refine ⟨List.replicate ns (Run.txt ['\\']) ++ textRuns (d :: t''), by simp, ?_⟩
    intro h
    exact emits_append (emits_replicate_slash h true ns)
      (emits_textRuns h (d :: t'').length (d :: t'') le_rfl)
  · -- the text starts with a plain character: it merges with the last backslash
    have hdp : isPlain d = true := isPlain_of_escText_nonspace hd (by simpa using hsp)
    have hsplit : (d :: t''.takeWhile isPlain) ++ t''.dropWhile isPlain = d :: t'' := by
      rw [List.cons_append, List.takeWhile_append_dropWhile]
    have hplain : (d :: t''.takeWhile isPlain).all isPlain = true := by
      simp only [List.all_cons, hdp, Bool.true_and]
      exact List.all_takeWhile
    have hXr : headSat isPlain (t''.dropWhile isPlain ++ X) = false := by
      match hr : t''.dropWhile isPlain with
      | [] => simpa using hXp
      | e :: es =>
        have := headSat_dropWhile isPlain t''
        rw [hr] at this
        simpa [headSat] using this
    obtain ⟨ns', rfl⟩ : ∃ k, ns = k + 1 := ⟨ns - 1, by omega⟩
    have hcore : ((d :: t'') ++ X) = (d :: t''.takeWhile isPlain) ++
        (t''.dropWhile isPlain ++ X) := by
      rw [← hsplit, List.append_assoc]
    have hshape : (List.replicate (ns' + 1) '\\' ++ ((d :: t'') ++ X)) =
        List.replicate (ns' + 1) '\\' ++ ((d :: t''.takeWhile isPlain) ++
          (t''.dropWhile isPlain ++ X)) := by
      rw [hcore]
    rw [hshape, tokenize_slashes_txt_append ns' d _ _ hplain hXr]
    match hr : t''.dropWhile isPlain with
    | [] =>
      have hteq : t''.takeWhile isPlain = t'' := by
        have := List.takeWhile_append_dropWhile isPlain t''
        rw [hr, List.append_nil] at this
        exact this
      refine ⟨List.replicate ns' (Run.txt ['\\']) ++
        [Run.txt ('\\' :: d :: t''.takeWhile isPlain)], ?_, ?_⟩
      · simp
      · intro h
        have := emits_append (emits_replicate_slash h true ns')
          (emits_txt h true ('\\' :: d :: t''.takeWhile isPlain))
        have heq : List.replicate ns' '\\' ++ ('\\' :: d :: t''.takeWhile isPlain)
            = List.replicate (ns' + 1) '\\' ++ (d :: t'') := by
          rw [replicate_append_cons, hteq]
        rwa [heq] at this
    | e :: es =>
      have halles : (e :: es).all isEscText = true := by
        rw [← hr]
        exact all_of_sublist (List.dropWhile_sublist _) ht''
      rw [← hr, tokenize_text_seg (t''.dropWhile isPlain).length _ X le_rfl
        (by rw [hr]; exact halles) hX]
      refine ⟨List.replicate ns' (Run.txt ['\\']) ++
        (Run.txt ('\\' :: d :: t''.takeWhile isPlain) :: textRuns (t''.dropWhile isPlain)),
        by simp, ?_⟩
      intro h
      have e1 := emits_replicate_slash h true ns'
      have e2 := emits_txt h true ('\\' :: d :: t''.takeWhile isPlain)
      have e3 := emits_textRuns h (t''.dropWhile isPlain).length (t''.dropWhile isPlain) le_rfl
      have e23 := emits_append  e2 e3
      have := emits_append e1 e23
      have heq : List.replicate ns' '\\' ++
          (('\\' :: d :: t''.takeWhile isPlain) ++ t''.dropWhile isPlain)
          = List.replicate (ns' + 1) '\\' ++ (d :: t'') := by
        rw [← hsplit, List.cons_append, replicate_append_cons]
      rwa [heq] at this


theorem headSat_sq_dtb_tail {v' : List Char} (tail : List Char)
    (hv : headSat isEscText v' = false) :
    headSat (fun c => isSlash c || isQuote c)
      (dtbPlain (escape_quotes v') ++ ('\"' :: tail)) = true := by
  match v' with
  | [] => simp [escape_quotes_nil, dtb_nil, headSat, isSlash, isQuote]
  | d :: ds =>
    have hdf : isEscText d = false := by simpa [headSat] using hv
    have hslash := escape_quotes_head_slash (v := d :: ds) (by
      simpa [headSat] using not_escText_slash_or_quote hdf)
    have hne := escape_quotes_ne_nil_of_head_slash hslash
    unfold dtbPlain
    rw [List.append_assoc, headSat_append_left hne]
    match he : escape_quotes (d :: ds), hslash with
    | e :: es, hslash =>
      have : e = '\\' := isSlash_eq e hslash
      subst this
      simp [headSat, isSlash]

theorem headSat_isQuote_dtb_tail {v'' : List Char} (tail : List Char) (hne : v'' ≠ [])
    (hq : headSat isQuote v'' = false) :
    headSat isQuote (dtbPlain (escape_quotes v'') ++ ('\"' :: tail)) = false := by
  have hn := escape_quotes_ne_nil hne
  unfold dtbPlain
  rw [List.append_assoc, headSat_append_left hn]
  exact escape_quotes_head_not_quote hq


theorem escape_quotes_replicate_slash (n : Nat) :
    escape_quotes (List.replicate n '\\') = List.replicate n '\\' := by
  match n with
  | 0 => simp [escape_quotes_nil]
  | n + 1 =>
    have := escape_quotes_slash_run (n + 1) [] (by omega) rfl rfl
    rw [List.append_nil, escape_quotes_nil, List.append_nil] at this
    exact this

theorem quoted_body_runs :
    ∀ n (v tail : List Char), v.length ≤ n →
      headSat (fun c => !(isSpace c)) tail = false →
      ∃ runs, tokenize (dtbPlain (escape_quotes v) ++ ('\"' :: tail)) =
          runs ++ tokenize tail ∧
        ∀ h, GoodSQ h → Emits h true runs v false := by
  intro n
  induction n with
  | zero =>
    intro v tail hlen htail
    obtain ⟨htq, _, _⟩ := nonspace_head_facts htail
    have : v = [] := List.length_eq_zero.mp (Nat.le_zero.mp hlen)
    subst this
    refine ⟨[Run.sq 0 1], ?_, ?_⟩
    · rw [escape_quotes_nil, dtb_nil, List.nil_append]
      have : ('\"' :: tail : List Char) =
          List.replicate 0 '\\' ++ (List.replicate 1 '\"' ++ tail) := by simp
      rw [this, tokenize_sq_append 0 1 tail le_rfl htq]
      simp
    · intro h hg
      exact emits_sq (by have := hg.2.2.2.1 0; simpa using this)
  | succ n ih =>
    intro v tail hlen htail
    obtain ⟨htq, htsl, htp⟩ := nonspace_head_facts htail
    match v with
    | [] =>
      refine ⟨[Run.sq 0 1], ?_, ?_⟩
      · rw [escape_quotes_nil, dtb_nil, List.nil_append]
        have : ('\"' :: tail : List Char) =
            List.replicate 0 '\\' ++ (List.replicate 1 '\"' ++ tail) := by simp
        rw [this, tokenize_sq_append 0 1 tail le_rfl htq]
        simp
      · intro h hg
        exact emits_sq (by have := hg.2.2.2.1 0; simpa using this)
    | c :: cs =>
      by_cases hd : isEscText c = true
      · -- leading text run
        have hsplit : (c :: cs.takeWhile isEscText) ++ cs.dropWhile isEscText = c :: cs := by
          rw [List.cons_append, List.takeWhile_append_dropWhile]
        have htall : (c :: cs.takeWhile isEscText).all isEscText = true := by
          simp only [List.all_cons, hd, Bool.true_and]
          exact List.all_takeWhile
        have hesc : escape_quotes (c :: cs) =
            (c :: cs.takeWhile isEscText) ++ escape_quotes (cs.dropWhile isEscText) := by
          conv_lhs => rw [← hsplit]
          exact escape_quotes_text_run c _ _ htall (headSat_dropWhile isEscText cs)
        have hdtb : dtbPlain (escape_quotes (c :: cs)) =
            (c :: cs.takeWhile isEscText) ++
              dtbPlain (escape_quotes (cs.dropWhile isEscText)) := by
          rw [hesc]
          exact dtb_append_left (headSat_isSlash_reverse_of_escText htall)
        have hXsq := @headSat_sq_dtb_tail (cs.dropWhile isEscText) tail
          (headSat_dropWhile isEscText cs)
        obtain ⟨runs', hrt, hre⟩ := ih (cs.dropWhile isEscText) tail
          (le_trans (length_dropWhile_le _ _) (Nat.le_of_succ_le_succ hlen)) htail
        refine ⟨textRuns (c :: cs.takeWhile isEscText) ++ runs', ?_, ?_⟩
        · rw [hdtb, List.append_assoc,
            tokenize_text_seg (c :: cs.takeWhile isEscText).length _ _ le_rfl htall hXsq,
            hrt]
          simp
        · intro h hg
          have e1 := emits_textRuns h (c :: cs.takeWhile isEscText).length _ le_rfl
          have e2 := hre h hg
          have := emits_append e1 e2
          rwa [hsplit] at this
      · -- leading backslash or quote
        by_cases hqh : ((c :: cs).drop ((c :: cs).takeWhile isSlash).length).head? = some '\"'
        · -- slash-quote block
          obtain ⟨ns, nq, v'', hdec, hq1, hq3, hlen2, _⟩ := slashquote_decomp (c :: cs) hqh
          obtain ⟨k, rfl⟩ : ∃ k, nq = k + 1 := ⟨nq - 1, by omega⟩
          have hesc : escape_quotes (c :: cs) = List.replicate (2 * ns) '\\' ++
              ((List.replicate (k + 1) ['\\', '\"']).flatten ++ escape_quotes v'') := by
            rw [hdec]
            exact escape_quotes_sq_run ns (k + 1) v'' hq1 hq3
          have hxlast : ∀ e, (List.replicate (2 * ns) '\\' ++
              (List.replicate (k + 1) ['\\', '\"']).flatten).getLast? = some e →
              isSlash e = false := by
            intro e he
            rw [List.getLast?_append, flatten_pair_getLast k] at he
            have : e = '\"' := by
              simp only [Option.or] at he
              injection he with he2
              exact he2.symm
            subst this
            simp [isSlash]
          match v'' with
          | [] =>
            have hdtb : dtbPlain (escape_quotes (c :: cs)) =
                List.replicate (2 * ns) '\\' ++
                  (List.replicate (k + 1) ['\\', '\"']).flatten := by
              rw [hesc, escape_quotes_nil, List.append_nil]
              exact dtb_no_trailing (headSat_reverse_false_of_getLast? hxlast)
            match k with
            | 0 =>
              refine ⟨[Run.sq (2 * ns + 1) 2], ?_, ?_⟩
              · rw [hdtb]
                have hsh : (List.replicate (2 * ns) '\\' ++
                    (List.replicate 1 ['\\', '\"']).flatten) ++ ('\"' :: tail) =
                    List.replicate (2 * ns + 1) '\\' ++ (List.replicate 2 '\"' ++ tail) := by
                  rw [List.append_assoc, ← replicate_append_cons (2 * ns) '\\']
                  simp
                rw [hsh, tokenize_sq_append (2 * ns + 1) 2 tail (by omega) htq]
                simp
              · intro h hg
                have he := emits_sq (hg.2.2.1 ns)
                have htext : List.replicate ns '\\' ++ ['\"'] = c :: cs := by
                  rw [hdec]
                  simp
                rwa [htext] at he
            | k + 1 =>
              refine ⟨Run.sq (2 * ns + 1) 1 ::
                (List.replicate k (Run.sq 1 1) ++ [Run.sq 1 2]), ?_, ?_⟩
              · rw [hdtb]
                rw [List.replicate_succ, List.flatten_cons]
                have hsh : (List.replicate (2 * ns) '\\' ++
                    (['\\', '\"'] ++ (List.replicate (k + 1) ['\\', '\"']).flatten)) ++
                      ('\"' :: tail) =
                    List.replicate (2 * ns + 1) '\\' ++ (List.replicate 1 '\"' ++
                      ((List.replicate (k + 1) ['\\', '\"']).flatten ++ ('\"' :: tail))) := by
                  rw [List.append_assoc, ← replicate_append_cons (2 * ns) '\\']
                  simp
                have hX1 : headSat isQuote
                    ((List.replicate (k + 1) ['\\', '\"']).flatten ++ ('\"' :: tail))
                    = false := by
                  rw [List.replicate_succ, List.flatten_cons]
                  simp [headSat, isQuote]
                rw [hsh, tokenize_sq_append (2 * ns + 1) 1 _ le_rfl hX1,
                  tokenize_escaped_quotes_close k tail htq]
                simp
              · intro h hg
                have e1 : Emits h true [Run.sq (2 * ns + 1) 1]
                    (List.replicate ns '\\' ++ ['\"']) true := emits_sq (hg.2.1 ns)
                have e2 := emits_escaped_quotes_true hg k
                have e3 : Emits h true [Run.sq 1 2] ['\"'] false :=
                  emits_sq (by have := hg.2.2.1 0; simpa using this)
                have e23 := emits_append e2 e3
                have := emits_append e1 e23
                have htext : (List.replicate ns '\\' ++ ['\"']) ++
                    (List.replicate k '\"' ++ ['\"']) = c :: cs := by
                  rw [hdec]
                  simp [List.replicate_succ, ← List.replicate_succ']
                rwa [htext] at this
          | e :: es =>
            have hdtb : dtbPlain (escape_quotes (c :: cs)) =
                (List.replicate (2 * ns) '\\' ++
                  (List.replicate (k + 1) ['\\', '\"']).flatten) ++
                  dtbPlain (escape_quotes (e :: es)) := by
              rw [hesc, ← List.append_assoc]
              exact dtb_append_left (headSat_reverse_false_of_getLast? hxlast)
            have hXq : headSat isQuote
                (dtbPlain (escape_quotes (e :: es)) ++ ('\"' :: tail))
                = false := headSat_isQuote_dtb_tail tail (by simp) hq3
            have hlen'' : (e :: es).length ≤ n := by
              simp only [List.length_cons] at hlen2 hlen ⊢
              omega
            obtain ⟨runs'', hrt, hre⟩ := ih (e :: es) tail hlen'' htail
            refine ⟨Run.sq (2 * ns + 1) 1 ::
              (List.replicate k (Run.sq 1 1) ++ runs''), ?_, ?_⟩
            · rw [hdtb]
              rw [List.replicate_succ, List.flatten_cons]
              have hsh : ((List.replicate (2 * ns) '\\' ++
                  (['\\', '\"'] ++ (List.replicate k ['\\', '\"']).flatten)) ++
                    (dtbPlain (escape_quotes (e :: es)))) ++ ('\"' :: tail) =
                  List.replicate (2 * ns + 1) '\\' ++ (List.replicate 1 '\"' ++
                    ((List.replicate k ['\\', '\"']).flatten ++
                      (dtbPlain (escape_quotes (e :: es)) ++ ('\"' :: tail)))) := by
                rw [List.append_assoc, List.append_assoc,
                  ← replicate_append_cons (2 * ns) '\\']
                simp
              have hX1 : headSat isQuote
                  ((List.replicate k ['\\', '\"']).flatten ++
                    (dtbPlain (escape_quotes (e :: es)) ++ ('\"' :: tail)))
                  = false := by
                match k with
                | 0 => simpa using hXq
                | k + 1 => simp [List.replicate_succ, headSat, isQuote]
              rw [hsh, tokenize_sq_append (2 * ns + 1) 1 _ le_rfl hX1,
                tokenize_escaped_quotes k _ hXq, hrt]
              simp
            · intro h hg
              have e1 : Emits h true [Run.sq (2 * ns + 1) 1]
                  (List.replicate ns '\\' ++ ['\"']) true := emits_sq (hg.2.1 ns)
              have e2 := emits_escaped_quotes_true hg k
              have e3 := hre h hg
              have e23 := emits_append e2 e3
              have := emits_append e1 e23
              have htext : (List.replicate ns '\\' ++ ['\"']) ++
                  (List.replicate k '\"' ++ (e :: es)) = c :: cs := by
                rw [hdec, List.append_assoc]
                simp [List.replicate_succ]
              rwa [htext] at this
        · -- pure backslash run
          have hcsl : isSlash c = true := by
            have hor := not_escText_slash_or_quote (by simpa using hd)
            simp only [Bool.or_eq_true] at hor
            rcases hor with hh | hh
            · exact hh
            · exfalso
              have : c = '\"' := isQuote_eq c hh
              subst this
              rw [List.takeWhile_cons_of_neg (by simp [isSlash])] at hqh
              simp at hqh
          obtain ⟨ns, hdec, hns1, hlen2⟩ := slashrun_decomp (c :: cs)
            (by simp [headSat, hcsl])
          have hrq : headSat isQuote ((c :: cs).dropWhile isSlash) = false := by
            apply headSat_isQuote_of_head?
            rw [← drop_length_takeWhile]
            exact hqh
          have hrsl : headSat isSlash ((c :: cs).dropWhile isSlash) = false :=
            headSat_dropWhile isSlash (c :: cs)
          match hrest : (c :: cs).dropWhile isSlash with
          | [] =>
            rw [hrest, List.append_nil] at hdec
            have hescr : escape_quotes (c :: cs) = List.replicate ns '\\' := by
              rw [hdec]
              exact escape_quotes_replicate_slash ns
            refine ⟨[Run.sq (2 * ns) 1], ?_, ?_⟩
            · rw [hescr, dtb_replicate_slash]
              have hsh : List.replicate (2 * ns) '\\' ++ ('\"' :: tail) =
                  List.replicate (2 * ns) '\\' ++ (List.replicate 1 '\"' ++ tail) := by
                simp
              rw [hsh, tokenize_sq_append (2 * ns) 1 tail le_rfl htq]
              simp
            · intro h hg
              have he := emits_sq (hg.2.2.2.1 ns)
              rwa [← hdec] at he
          | d :: ds =>
            have hd2 : isEscText d = true := by
              rw [hrest] at hrq hrsl
              simp only [headSat] at hrq hrsl
              have h1 : ¬ (d = '\\') := ne_slash_of hrsl
              have h2 : ¬ (d = '\"') := by
                intro hh
                rw [hh] at hrq
                simp [isQuote] at hrq
              simp [isEscText, h1, h2]
            have hsplit2 : (d :: ds.takeWhile isEscText) ++ ds.dropWhile isEscText
                = d :: ds := by
              rw [List.cons_append, List.takeWhile_append_dropWhile]
            have htall2 : (d :: ds.takeWhile isEscText).all isEscText = true := by
              simp only [List.all_cons, hd2, Bool.true_and]
              exact List.all_takeWhile
            have hesc2 : escape_quotes (d :: ds) =
                (d :: ds.takeWhile isEscText) ++ escape_quotes (ds.dropWhile isEscText) := by
              conv_lhs => rw [← hsplit2]
              exact escape_quotes_text_run d _ _ htall2 (headSat_dropWhile isEscText ds)
            have hrsl2 : headSat isSlash (d :: ds) = false := by
              rw [← hrest]; exact hrsl
            have hrq2 : headSat isQuote (d :: ds) = false := by
              rw [← hrest]; exact hrq
            have hescr : escape_quotes (c :: cs) = List.replicate ns '\\' ++
                escape_quotes (d :: ds) := by
              conv_lhs => rw [hdec, hrest]
              exact escape_quotes_slash_run ns (d :: ds) hns1 hrsl2 hrq2
            have hdtb : dtbPlain (escape_quotes (c :: cs)) =
                (List.replicate ns '\\' ++ (d :: ds.takeWhile isEscText)) ++
                  dtbPlain (escape_quotes (ds.dropWhile isEscText)) := by
              rw [hescr, hesc2, ← List.append_assoc]
              refine dtb_append_left ?_
              rw [List.reverse_append, headSat_append_left (by simp)]
              exact headSat_isSlash_reverse_of_escText htall2
            obtain ⟨runsST, hst1, hst2⟩ := slashes_text_runs ns d (ds.takeWhile isEscText)
              (dtbPlain (escape_quotes (ds.dropWhile isEscText)) ++ ('\x22' :: tail))
              hns1 htall2 (headSat_sq_dtb_tail tail (headSat_dropWhile isEscText ds))
            have hlenv : (ds.dropWhile isEscText).length ≤ n := by
              have h1 : (List.dropWhile isSlash (c :: cs)).length = 1 + ds.length := by
                rw [hrest]; simp; omega
              have h2 : (ds.dropWhile isEscText).length ≤ ds.length :=
                length_dropWhile_le _ _
              simp only [List.length_cons] at hlen2 hlen ⊢
              omega
            obtain ⟨runs', hrt, hre⟩ := ih (ds.dropWhile isEscText) tail hlenv htail
            refine ⟨runsST ++ runs', ?_, ?_⟩
            · rw [hdtb,
                List.append_assoc (List.replicate ns '\\' ++ (d :: ds.takeWhile isEscText)),
                List.append_assoc (List.replicate ns '\\'), hst1, hrt]
              simp
            · intro h hg
              have := emits_append (hst2 h) (hre h hg)
              have htext : (List.replicate ns '\\' ++ (d :: ds.takeWhile isEscText)) ++
                  ds.dropWhile isEscText = c :: cs := by
                rw [List.append_assoc, hsplit2, ← hrest, ← hdec]
              rwa [htext] at this


theorem tokenize_ne_nil {l : List Char} (hl : l ≠ []) : tokenize l ≠ [] := by
  match l, hl with
  | c :: cs, _ =>
    rw [tokenize_cons]
    split
    · simp
    · split <;> simp

theorem splitRunsF_nil (h : Bool → Nat → Nat → List Char × Bool) (fuel : Nat) :
    splitRunsF h fuel [] = [] := by
  cases fuel <;> rfl

theorem iterArg_snd_length (h : Bool → Nat → Nat → List Char × Bool) :
    ∀ (l : List Run) (qm : Bool), ((iterArg h qm l).2).length ≤ l.length := by
  intro l
  induction l with
  | nil => intro qm; simp [iterArg]
  | cons r rs ih =>
    intro qm
    match r with
    | Run.ws t =>
      simp only [iterArg]
      split
      · exact le_trans (ih qm) (by simp)
      · simp
    | Run.sq ns nq =>
      simp only [iterArg]
      exact le_trans (ih _) (by simp)
    | Run.txt t =>
      simp only [iterArg]
      exact le_trans (ih qm) (by simp)

theorem iterArg_cons_snd_length (h : Bool → Nat → Nat → List Char × Bool)
    (r : Run) (rs : List Run) (qm : Bool) :
    ((iterArg h qm (r :: rs)).2).length ≤ rs.length := by
  match r with
  | Run.ws t =>
    simp only [iterArg]
    split
    · exact iterArg_snd_length h rs qm
    · simp
  | Run.sq ns nq =>
    simp only [iterArg]
    exact iterArg_snd_length h rs _
  | Run.txt t =>
    simp only [iterArg]
    exact iterArg_snd_length h rs qm

theorem splitRunsF_fuel (h : Bool → Nat → Nat → List Char × Bool) :
    ∀ f g l, l.length ≤ f → l.length ≤ g → splitRunsF h f l = splitRunsF h g l := by
  intro f
  induction f with
  | zero =>
    intro g l hf _
    have : l = [] := List.length_eq_zero.mp (Nat.le_zero.mp hf)
    subst this
    simp [splitRunsF_nil]
  | succ f ih =>
    intro g l hf hg
    match l with
    | [] => simp [splitRunsF_nil]
    | r :: rs =>
      match g with
      | 0 => exact absurd hg (by simp)
      | g + 1 =>
        show splitRunsF h (f + 1) (r :: rs) = splitRunsF h (g + 1) (r :: rs)
        simp only [splitRunsF]
        have hlen := iterArg_cons_snd_length h r rs false
        rw [ih g _ (le_trans hlen (Nat.le_of_succ_le_succ hf))
          (le_trans hlen (Nat.le_of_succ_le_succ hg))]

theorem splitRunsF_cons_ne (h : Bool → Nat → Nat → List Char × Bool) (fuel : Nat)
    {l : List Run} (hl : l ≠ []) :
    splitRunsF h (fuel + 1) l =
      (iterArg h false l).1 :: splitRunsF h fuel (iterArg h false l).2 := by
  match l, hl with
  | r :: rs, _ => rfl

theorem escape_quotes_head_never_quote (w : List Char) :
    headSat isQuote (escape_quotes w) = false := by
  match w with
  | [] => rfl
  | d :: ds =>
    by_cases hd : isEscText d = true
    · have hrun := escape_quotes_text_run d (ds.takeWhile isEscText) (ds.dropWhile isEscText)
        (by simp only [List.all_cons, hd, Bool.true_and]; exact List.all_takeWhile)
        (headSat_dropWhile isEscText ds)
      rw [List.cons_append, List.takeWhile_append_dropWhile] at hrun
      rw [hrun]
      simp only [headSat, List.cons_append]
      simp only [isEscText, Bool.not_eq_true', Bool.or_eq_false_iff] at hd
      simpa [isQuote] using hd.2
    · have hsl := escape_quotes_head_slash (v := d :: ds) (by
        simpa [headSat] using not_escText_slash_or_quote (by simpa using hd))
      match he : escape_quotes (d :: ds), hsl with
      | e :: es, hsl =>
        have : e = '\\' := isSlash_eq e hsl
        subst this
        simp [headSat, isQuote]

theorem escape_quotes_head_nonspace {w : List Char}
    (hw : w.all (fun c => !(isSpace c)) = true) :
    headSat isSpace (escape_quotes w) = false := by
  match w with
  | [] => rfl
  | d :: ds =>
    by_cases hd : isEscText d = true
    · have hrun := escape_quotes_text_run d (ds.takeWhile isEscText) (ds.dropWhile isEscText)
        (by simp only [List.all_cons, hd, Bool.true_and]; exact List.all_takeWhile)
        (headSat_dropWhile isEscText ds)
      rw [List.cons_append, List.takeWhile_append_dropWhile] at hrun
      rw [hrun]
      simp only [headSat, List.cons_append]
      have := (all_cons_head hw).1
      simpa using this
    · have hsl := escape_quotes_head_slash (v := d :: ds) (by
        simpa [headSat] using not_escText_slash_or_quote (by simpa using hd))
      match he : escape_quotes (d :: ds), hsl with
      | e :: es, hsl =>
        have : e = '\\' := isSlash_eq e hsl
        subst this
        simp [headSat, isSpace]

theorem quote_false_nil : quote [] false = ['\"', '\"'] := rfl

theorem quote_false_no_ws {w : List Char} (hw0 : w ≠ [])
    (hws : w.all (fun c => !(isSpace c)) = true) :
    quote w false = escape_quotes w := by
  have hany : w.any isSpace = false := by
    rw [List.any_eq_false]
    intro a ha
    have := List.all_eq_true.mp hws a ha
    simpa using this
  simp [quote, hw0, hany]

theorem quote_false_ws {w : List Char} (hw0 : w ≠ [])
    (hws : ¬ (w.all (fun c => !(isSpace c)) = true)) :
    quote w false = wrap_in_quotes (escape_quotes w) := by
  have hany : w.any isSpace = true := by
    rw [List.all_eq_true] at hws
    push_neg at hws
    obtain ⟨a, ha, hna⟩ := hws
    rw [List.any_eq_true]
    exact ⟨a, ha, by simpa using hna⟩
  simp [quote, hw0, hany]

theorem quote_false_ne_nil (w : List Char) : quote w false ≠ [] := by
  by_cases hw0 : w = []
  · subst hw0
    rw [quote_false_nil]
    simp
  · by_cases hws : w.all (fun c => !(isSpace c)) = true
    · rw [quote_false_no_ws hw0 hws]
      exact escape_quotes_ne_nil hw0
    · rw [quote_false_ws hw0 hws]
      simp [wrap_in_quotes]

theorem quote_false_head_nonspace (w : List Char) :
    headSat isSpace (quote w false) = false := by
  by_cases hw0 : w = []
  · subst hw0
    rw [quote_false_nil]
    simp [headSat, isSpace]
  · by_cases hws : w.all (fun c => !(isSpace c)) = true
    · rw [quote_false_no_ws hw0 hws]
      exact escape_quotes_head_nonspace hws
    · rw [quote_false_ws hw0 hws]
      simp [wrap_in_quotes, headSat, isSpace]


theorem quote_word_runs (w tail : List Char)
    (htail : headSat (fun c => !(isSpace c)) tail = false)
    (hbw : endsSlashNl w = false) :
    ∃ runs, tokenize (quote w false ++ tail) = runs ++ tokenize tail ∧
      ∀ h, GoodSQ h → Emits h false runs w false := by
  obtain ⟨htq, htsl, htp⟩ := nonspace_head_facts htail
  by_cases hw0 : w = []
  · subst hw0
    refine ⟨[Run.sq 0 2], ?_, ?_⟩
    · rw [quote_false_nil]
      have : (['\"', '\"'] : List Char) ++ tail =
          List.replicate 0 '\\' ++ (List.replicate 2 '\"' ++ tail) := by simp
      rw [this, tokenize_sq_append 0 2 tail (by omega) htq]
      simp
    · intro h hg
      exact emits_sq hg.2.2.2.2.1
  · by_cases hws : w.all (fun c => !(isSpace c)) = true
    · rw [quote_false_no_ws hw0 hws]
      exact unquoted_word_runs w.length w tail le_rfl hws htail
    · rw [quote_false_ws hw0 hws]
      have hdq : doubleTrailingSlashes (escape_quotes w) = dtbPlain (escape_quotes w) :=
        dtb_eq_plain (endsSlashNl_escape_quotes hbw)
      have hY : headSat isQuote
          (dtbPlain (escape_quotes w) ++ ('\"' :: tail)) = false := by
        rw [dtbPlain, List.append_assoc,
          headSat_append_left (escape_quotes_ne_nil hw0)]
        exact escape_quotes_head_never_quote w
      have hshape : wrap_in_quotes (escape_quotes w) ++ tail =
          List.replicate 0 '\\' ++ (List.replicate 1 '\"' ++
            (dtbPlain (escape_quotes w) ++ ('\"' :: tail))) := by
        rw [wrap_in_quotes, hdq]
        simp
      obtain ⟨runsB, hrt, hre⟩ := quoted_body_runs w.length w tail le_rfl htail
      refine ⟨Run.sq 0 1 :: runsB, ?_, ?_⟩
      · rw [hshape, tokenize_sq_append 0 1 _ le_rfl hY, hrt]
        simp
      · intro h hg
        have e0 : Emits h false [Run.sq 0 1] [] true :=
          emits_sq (by have := hg.2.2.2.2.2.2 0; simpa using this)
        have := emits_append  e0 (hre h hg)
        simpa using this

theorem join_nil : join [] false = [] := rfl

theorem join_singleton (w : List Char) : join [w] false = quote w false := by
  simp [join, List.intercalate]

theorem join_cons_cons (w w2 : List Char) (W : List (List Char)) :
    join (w :: w2 :: W) false = quote w false ++ (' ' :: join (w2 :: W) false) := by
  simp only [join, List.intercalate, List.map_cons]
  rw [List.intersperse_cons_cons]
  simp

theorem join_head_nonspace (W : List (List Char)) :
    headSat isSpace (join W false) = false := by
  match W with
  | [] => rfl
  | w :: W' =>
    match W' with
    | [] =>
      rw [join_singleton]
      exact quote_false_head_nonspace w
    | w2 :: W'' =>
      rw [join_cons_cons]
      rw [headSat_append_left (quote_false_ne_nil w)]
      exact quote_false_head_nonspace w

theorem splitRuns_join (h : Bool → Nat → Nat → List Char × Bool) (hg : GoodSQ h) :
    ∀ (W : List (List Char)), (∀ u ∈ W, endsSlashNl u = false) →
      ∀ (fuel : Nat), (tokenize (join W false)).length ≤ fuel →
      splitRunsF h fuel (tokenize (join W false)) = W := by
  intro W
  induction W with
  | nil =>
    intro _ fuel _
    rw [join_nil, tokenize_nil, splitRunsF_nil]
  | cons w W' ih =>
    intro hW fuel hfuel
    match W' with
    | [] =>
      rw [join_singleton] at hfuel ⊢
      obtain ⟨runs, hrt, hre⟩ := quote_word_runs w [] rfl
        (hW w (List.mem_cons_self _ _))
      rw [List.append_nil, tokenize_nil, List.append_nil] at hrt
      have hrn : runs ≠ [] := by
        intro hh
        rw [hh] at hrt
        exact tokenize_ne_nil (quote_false_ne_nil w) hrt
      have hlen1 : 1 ≤ (tokenize (quote w false)).length := by
        rw [hrt]
        match runs, hrn with
        | r :: rs, _ => simp
      obtain ⟨f, rfl⟩ : ∃ f, fuel = f + 1 := ⟨fuel - 1, by omega⟩
      rw [hrt, splitRunsF_cons_ne h f hrn]
      have hit : iterArg h false runs = (w, []) := by
        have := hre h hg []
        rw [List.append_nil] at this
        simp only [iterArg] at this
        simpa using this
      rw [hit]
      rw [splitRunsF_nil]
    | w2 :: W'' =>
      rw [join_cons_cons] at hfuel ⊢
      obtain ⟨runs, hrt, hre⟩ := quote_word_runs w (' ' :: join (w2 :: W'') false)
        (by simp [headSat, isSpace]) (hW w (List.mem_cons_self _ _))
      have hws : tokenize (' ' :: join (w2 :: W'') false) =
          Run.ws [' '] :: tokenize (join (w2 :: W'') false) := by
        have := tokenize_ws_append ' ' [] (join (w2 :: W'') false)
          (by simp [isSpace]) (join_head_nonspace (w2 :: W''))
        simpa using this
      rw [hrt, hws] at hfuel ⊢
      have hlen1 : 1 ≤ (runs ++ Run.ws [' '] :: tokenize (join (w2 :: W'') false)).length := by
        simp
        omega
      obtain ⟨f, rfl⟩ : ∃ f, fuel = f + 1 := ⟨fuel - 1, by omega⟩
      rw [splitRunsF_cons_ne h f (by simp)]
      have hit : iterArg h false (runs ++ Run.ws [' '] :: tokenize (join (w2 :: W'') false)) =
          (w, tokenize (join (w2 :: W'') false)) := by
        have := hre h hg (Run.ws [' '] :: tokenize (join (w2 :: W'') false))
        rw [this]
        simp [iterArg]
      rw [hit]
      rw [ih (fun u hu => hW u (List.mem_cons_of_mem _ hu)) f (by simp at hfuel; omega)]

theorem split_msvcrt_join (W : List (List Char))
    (hW : ∀ u ∈ W, endsSlashNl u = false) : split_msvcrt (join W false) = W := by
  unfold split_msvcrt
  rw [lstrip, dropWhile_not_head (join_head_nonspace W)]
  exact splitRuns_join msvcrtSQ goodSQ_msvcrt W hW _ le_rfl

theorem split_ucrt_join (W : List (List Char))
    (hW : ∀ u ∈ W, endsSlashNl u = false) : split_ucrt (join W false) = W := by
  unfold split_ucrt
  rw [lstrip, dropWhile_not_head (join_head_nonspace W)]
  exact splitRuns_join ucrtSQ goodSQ_ucrt W hW _ le_rfl


/-- C1 counterexample: the argv-mode round trip fails on the single word
`"\<newline>"` (a backslash directly followed by a final newline): Python's
`$` in `_wrap_in_quotes` also matches just before the trailing newline, so
`quote` doubles the backslash and splitting the joined encoding returns
the word `"\\<newline>"` instead. -/
theorem claim_C1_counterexample :
    split (join [['\\', '\n']] false) false true none =
        Except.ok [['\\', '\\', '\n']] ∧
      [['\\', '\\', '\n']] ≠ [['\\', '\n']] := by
  constructor
  · decide
  · decide

/-- C1 (amended): for every list of words `W` none of which ends in a
backslash directly followed by a final newline, splitting the argv-mode
joined encoding round-trips: `split(join(W, for_cmd=False),
like_cmd=False)` (with `check` and `ucrt` left at their defaults `True`
and `None`) returns exactly `W`. -/
theorem claim_C1_roundtrip_argv (W : List (List Char))
    (hW : ∀ u ∈ W, endsSlashNl u = false) :
    split (join W false) false true none = Except.ok W := by
  simp [split, splitWorking, split_ucrt_join W hW, split_msvcrt_join W hW]

theorem claim_C1_roundtrip_argv_witness :
    (∀ u ∈ [['a', ' ', 'b'], ['\\']], endsSlashNl u = false) ∧
      split (join [['a', ' ', 'b'], ['\\']] false) false true none =
        Except.ok [['a', ' ', 'b'], ['\\']] :=
  ⟨by decide, claim_C1_roundtrip_argv [['a', ' ', 'b'], ['\\']] (by decide)⟩


theorem runsText_tokenize : ∀ n (l : List Char), l.length ≤ n →
    ((tokenize l).map runText).flatten = l := by
  intro n
  induction n with
  | zero =>
    intro l hl
    have : l = [] := List.length_eq_zero.mp (Nat.le_zero.mp hl)
    subst this
    simp [tokenize_nil]
  | succ n ih =>
    intro l hl
    match l with
    | [] => simp [tokenize_nil]
    | c :: cs =>
      rw [tokenize_cons]
      split
      · rename_i hsp
        simp only [List.map_cons, List.flatten_cons, runText]
        rw [ih _ (by
          rw [List.dropWhile_cons_of_pos hsp]
          exact le_trans (length_dropWhile_le _ _) (Nat.le_of_succ_le_succ hl))]
        exact List.takeWhile_append_dropWhile isSpace (c :: cs)
      · split
        · rename_i hqh
          simp only [List.map_cons, List.flatten_cons, runText]
          have hq1 := head_quote_takeWhile hqh
          have hrec : (((c :: cs).drop ((c :: cs).takeWhile isSlash).length).drop
              (((c :: cs).drop ((c :: cs).takeWhile isSlash).length).takeWhile
                isQuote).length).length ≤ n := by
            rw [List.length_drop, List.length_drop]
            simp only [List.length_cons] at hl ⊢
            omega
          rw [ih _ hrec]
          have h1 := takeWhile_append_drop_length isSlash (c :: cs)
          have h2 := takeWhile_all_eq_replicate isSlash_eq (c :: cs)
          have h3 := takeWhile_append_drop_length isQuote
            ((c :: cs).drop ((c :: cs).takeWhile isSlash).length)
          have h4 := takeWhile_all_eq_replicate isQuote_eq
            ((c :: cs).drop ((c :: cs).takeWhile isSlash).length)
          conv_rhs => rw [← h1]
          rw [h2]
          simp only [List.length_replicate, List.append_assoc]
          congr 1
          conv_rhs => rw [← h3]
          rw [h4]
          simp only [List.length_replicate]
        · simp only [List.map_cons, List.flatten_cons, runText]
          rw [ih _ (le_trans (length_dropWhile_le _ _) (Nat.le_of_succ_le_succ hl))]
          rw [List.cons_append, List.takeWhile_append_dropWhile]

/-- C9: the token scanner is lossless: after the single leading-whitespace
strip, the runs cover the input contiguously with no gaps and no overlap —
concatenating the source text of the runs of `tokenize` reproduces the
stripped input exactly. -/
theorem claim_C9_scanner_partition (s : List Char) :
    ((tokenize (lstrip s)).map runText).flatten = lstrip s :=
  runsText_tokenize (lstrip s).length (lstrip s) le_rfl


theorem mem_of_mem_dropWhile {p : Char → Bool} {l : List Char} {c : Char}
    (h : c ∈ l.dropWhile p) : c ∈ l := by
  induction l with
  | nil => simp at h
  | cons a t ih =>
    by_cases hp : p a = true
    · rw [List.dropWhile_cons_of_pos hp] at h
      exact List.mem_cons_of_mem _ (ih h)
    · rw [List.dropWhile_cons_of_neg hp] at h
      exact h

theorem mem_of_head?_eq {l : List Char} {c : Char} (h : l.head? = some c) : c ∈ l := by
  match l, h with
  | d :: ds, h =>
    have hd : d = c := by simpa using h
    exact hd ▸ List.mem_cons_self _ _

theorem tokenize_no_sq : ∀ n (l : List Char), l.length ≤ n →
    (∀ c ∈ l, isQuote c = false) →
    ∀ r ∈ tokenize l, ∀ ns nq, r ≠ Run.sq ns nq := by
  intro n
  induction n with
  | zero =>
    intro l hl _ r hr
    have : l = [] := List.length_eq_zero.mp (Nat.le_zero.mp hl)
    subst this
    simp [tokenize_nil] at hr
  | succ n ih =>
    intro l hl hq r hr
    match l with
    | [] => simp [tokenize_nil] at hr
    | c :: cs =>
      rw [tokenize_cons] at hr
      split at hr
      · rcases List.mem_cons.mp hr with h | h
        · subst h; intro ns nq hcon; exact Run.noConfusion hcon
        · refine ih _ ?_ ?_ r h
          · rename_i hsp
            rw [List.dropWhile_cons_of_pos hsp]
            exact le_trans (length_dropWhile_le _ _) (Nat.le_of_succ_le_succ hl)
          · intro d hd
            exact hq d (mem_of_mem_dropWhile hd)
      · split at hr
        · rename_i hhead
          exfalso
          have hmem : '\"' ∈ (c :: cs) :=
            List.drop_subset _ _ (mem_of_head?_eq hhead)
          have := hq _ hmem
          simp [isQuote] at this
        · rcases List.mem_cons.mp hr with h | h
          · subst h; intro ns nq hcon; exact Run.noConfusion hcon
          · refine ih _ ?_ ?_ r h
            · exact le_trans (length_dropWhile_le _ _) (Nat.le_of_succ_le_succ hl)
            · intro d hd
              exact hq d (List.mem_cons_of_mem _ (mem_of_mem_dropWhile hd))

theorem iterArg_snd_subset (h : Bool → Nat → Nat → List Char × Bool) :
    ∀ (runs : List Run) (qm : Bool) (r : Run), r ∈ (iterArg h qm runs).2 → r ∈ runs := by
  intro runs
  induction runs with
  | nil => intro qm r hr; simp [iterArg] at hr
  | cons a rs ih =>
    intro qm r hr
    match a with
    | Run.ws t =>
      simp only [iterArg] at hr
      split at hr
      · exact List.mem_cons_of_mem _ (ih _ _ hr)
      · exact List.mem_cons_of_mem _ hr
    | Run.sq ns nq =>
      simp only [iterArg] at hr
      exact List.mem_cons_of_mem _ (ih _ _ hr)
    | Run.txt t =>
      simp only [iterArg] at hr
      exact List.mem_cons_of_mem _ (ih _ _ hr)

theorem iterArg_eq_of_no_sq (h1 h2 : Bool → Nat → Nat → List Char × Bool) :
    ∀ (runs : List Run) (qm : Bool),
    (∀ r ∈ runs, ∀ ns nq, r ≠ Run.sq ns nq) →
    iterArg h1 qm runs = iterArg h2 qm runs := by
  intro runs
  induction runs with
  | nil => intro qm _; rfl
  | cons a rs ih =>
    intro qm hno
    match a with
    | Run.ws t =>
      simp only [iterArg]
      rw [ih qm (fun r hr => hno r (List.mem_cons_of_mem _ hr))]
    | Run.sq ns nq =>
      exact absurd rfl (hno _ (List.mem_cons_self _ _) ns nq)
    | Run.txt t =>
      simp only [iterArg]
      rw [ih qm (fun r hr => hno r (List.mem_cons_of_mem _ hr))]

theorem splitRunsF_eq_of_no_sq (h1 h2 : Bool → Nat → Nat → List Char × Bool) :
    ∀ (fuel : Nat) (runs : List Run),
    (∀ r ∈ runs, ∀ ns nq, r ≠ Run.sq ns nq) →
    splitRunsF h1 fuel runs = splitRunsF h2 fuel runs := by
  intro fuel
  induction fuel with
  | zero => intro runs _; rfl
  | succ n ih =>
    intro runs hno
    match runs with
    | [] => rfl
    | r :: rs =>
      simp only [splitRunsF]
      rw [iterArg_eq_of_no_sq h1 h2 (r :: rs) false hno]
      rw [ih _ (fun x hx => hno x (iterArg_snd_subset h2 _ _ _ hx))]

/-- C6: on any string that contains no quote character, the legacy and
modern splitters agree: `split_msvcrt s = split_ucrt s`.  (Quote-free
input produces no slash-quote runs, and the two splitters differ only in
their handling of slash-quote runs.) -/
theorem claim_C6_no_quote_agreement (s : List Char) (hq : '\"' ∉ s) :
    split_msvcrt s = split_ucrt s := by
  have hq' : ∀ c ∈ lstrip s, isQuote c = false := by
    intro c hc
    have hcs : c ∈ s := mem_of_mem_dropWhile hc
    have hne : ¬ (c = '\"') := fun h => hq (h ▸ hcs)
    simp [isQuote, hne]
  have hno := tokenize_no_sq (lstrip s).length (lstrip s) le_rfl hq'
  unfold split_msvcrt split_ucrt
  exact splitRunsF_eq_of_no_sq msvcrtSQ ucrtSQ _ _ hno

theorem claim_C6_no_quote_agreement_witness :
    ('\"' ∉ ['a', ' ', 'b', '\\']) ∧
      split_msvcrt ['a', ' ', 'b', '\\'] = split_ucrt ['a', ' ', 'b', '\\'] :=
  ⟨by decide, claim_C6_no_quote_agreement ['a', ' ', 'b', '\\'] (by decide)⟩

theorem M010_iter_arg_eq : ∀ (runs : List Run) (qm : Bool),
    M010.iter_arg qm runs = iterArg msvcrtSQ qm runs := by
  intro runs
  induction runs with
  | nil => intro qm; rfl
  | cons a rs ih =>
    intro qm
    match a with
    | Run.ws t => simp only [M010.iter_arg, iterArg, ih]
    | Run.sq ns nq => simp only [M010.iter_arg, iterArg, M010.iterArgSQ, msvcrtSQ, ih]
    | Run.txt t => simp only [M010.iter_arg, iterArg, ih]

theorem M010_iterArgsF_eq : ∀ (fuel : Nat) (runs : List Run),
    M010.iterArgsF fuel runs = splitRunsF msvcrtSQ fuel runs := by
  intro fuel
  induction fuel with
  | zero => intro runs; rfl
  | succ n ih =>
    intro runs
    match runs with
    | [] => rfl
    | r :: rs => simp only [M010.iterArgsF, splitRunsF, M010_iter_arg_eq, ih]

/-- C10: the old implementation `src/mslex.py` (version 0.1.0) computes,
on every input, exactly the same word list as `split_msvcrt` of the
current implementation: the two embeddings of the legacy splitter are
equal as functions. -/
theorem claim_C10_old_split_eq_msvcrt (s : List Char) :
    M010.split s = split_msvcrt s := by
  unfold M010.split split_msvcrt
  exact M010_iterArgsF_eq _ _


/-- C3 counterexample: at `n_slashes = 1`, `n_quotes = 0`, incoming quote
mode on — values inside the claimed range 0..12 — the closed-form `magic`
computation emits one quote character and clears quote mode, while the
naive one-quote-at-a-time recurrence has no quote to process, emits
nothing and stays in quote mode. -/
theorem claim_C3_counterexample :
    ¬ (msvcrtSQ true 1 0 = naiveSQ true 1 0) := by decide

/-- C3 (amended): for every slash count and quote count up to 12 with at
least one quote — a slash-quote run produced by the tokenizer always has
at least one quote — and every incoming quote mode, the legacy splitter's
closed-form `magic` computation produces exactly the same emitted text
and the same outgoing quote mode as the naive one-quote-at-a-time
recurrence. -/
theorem claim_C3_magic_identity :
    ∀ (ns nq : Fin 13) (qm : Bool), 1 ≤ (nq : Nat) →
      msvcrtSQ qm (ns : Nat) (nq : Nat) = naiveSQ qm (ns : Nat) (nq : Nat) := by
  decide

theorem claim_C3_magic_identity_witness :
    msvcrtSQ true 3 2 = naiveSQ true 3 2 :=
  claim_C3_magic_identity ⟨3, by decide⟩ ⟨2, by decide⟩ true (by decide)

/-- C2 counterexample to "carrying the input": on the input `^a\x22\x22\x22 x`
the ambiguity error carries the caret-stripped working string
`a\x22\x22\x22 x`, which differs from the original input. -/
theorem claim_C2_counterexample :
    split ['^', 'a', '\"', '\"', '\"', ' ', 'x'] true true none =
        .error (.ambiguity ['a', '\"', '\"', '\"', ' ', 'x']) ∧
      ['a', '\"', '\"', '\"', ' ', 'x'] ≠ ['^', 'a', '\"', '\"', '\"', ' ', 'x'] := by
  decide

/-- C2 (amended): for every input string whose working string (the
caret-stripped string when shell normalization applies, the raw string
otherwise) makes the legacy and modern splitters disagree, `split` with
the variant selector unspecified fails with the ambiguity error carrying
the caret-stripped working string — not the original input — while `split`
with a pinned variant does not check agreement and returns exactly the
pinned splitter's result. -/
theorem claim_C2_ambiguity_and_pinning (s w : List Char)
    (hw : splitWorking s true true = .ok w)
    (hd : split_ucrt w ≠ split_msvcrt w) :
    split s true true none = .error (.ambiguity w) ∧
      split s true true (some true) = .ok (split_ucrt w) ∧
      split s true true (some false) = .ok (split_msvcrt w) := by
  unfold split
  rw [hw]
  simp [hd]

theorem claim_C2_ambiguity_and_pinning_witness :
    split ['^', 'a', '\"', '\"', '\"', ' ', 'x'] true true none =
        .error (.ambiguity ['a', '\"', '\"', '\"', ' ', 'x']) ∧
      split ['^', 'a', '\"', '\"', '\"', ' ', 'x'] true true (some true) =
        .ok (split_ucrt ['a', '\"', '\"', '\"', ' ', 'x']) ∧
      split ['^', 'a', '\"', '\"', '\"', ' ', 'x'] true true (some false) =
        .ok (split_msvcrt ['a', '\"', '\"', '\"', ' ', 'x']) :=
  claim_C2_ambiguity_and_pinning _ _ (by decide) (by decide)


/-- C8: argv-only quoting (`for_cmd = false`): the empty word yields the
two-character empty-quote token; a nonempty word containing no whitespace
yields `escape_quotes w` with no surrounding quotes; a nonempty word
containing whitespace yields `wrap_in_quotes (escape_quotes w)`; and in
particular `quote` applied to `foo\` in argv mode returns `foo\` itself,
with no trailing-backslash doubling. -/
theorem claim_C8_argv_quoting (w : List Char) (hw0 : w ≠ []) :
    quote [] false = ['\"', '\"'] ∧
      (w.any isSpace = false → quote w false = escape_quotes w) ∧
      (w.any isSpace = true → quote w false = wrap_in_quotes (escape_quotes w)) ∧
      quote ['f', 'o', 'o', '\\'] false = ['f', 'o', 'o', '\\'] := by
  refine ⟨rfl, ?_, ?_, by decide⟩
  · intro hany
    simp [quote, hw0, hany]
  · intro hany
    simp [quote, hw0, hany]

theorem claim_C8_argv_quoting_witness :
    quote [] false = ['\"', '\"'] ∧
      (['a', '\"'].any isSpace = false →
        quote ['a', '\"'] false = escape_quotes ['a', '\"']) ∧
      (['a', '\"'].any isSpace = true →
        quote ['a', '\"'] false = wrap_in_quotes (escape_quotes ['a', '\"'])) ∧
      quote ['f', 'o', 'o', '\\'] false = ['f', 'o', 'o', '\\'] :=
  claim_C8_argv_quoting ['a', '\"'] (by decide)


/-- C7: in the caret normalizer, with quote mode off a caret is a true
escape — the caret is dropped and only the following (non-newline)
character is emitted — while with quote mode on the two-character escape
run is emitted verbatim (a `^\x22` run additionally closes quote mode, and
a checked `^!`/`^%` errors instead).  Consequently shell-aware strict
`split` maps `foo^bar` to `[foobar]` (caret consumed) and
`\x22foo^bar\x22` to `[foo^bar]` (caret inert inside quotes). -/
theorem claim_C7_caret_escape (s0 cs2 : List Char) (check : Bool) (f : Nat) (d : Char)
    (hd : ¬ (d = '\n')) :
    stripCaretsF s0 check (f + 1) false ('^' :: d :: cs2) =
        econs [d] (stripCaretsF s0 check f false cs2) ∧
      (¬ (check = true ∧ (d = '!' ∨ d = '%')) →
        stripCaretsF s0 check (f + 1) true ('^' :: d :: cs2) =
          econs ['^', d]
            (stripCaretsF s0 check f (if d = '\"' then false else true) cs2)) ∧
      split ['f', 'o', 'o', '^', 'b', 'a', 'r'] true true none =
        .ok [['f', 'o', 'o', 'b', 'a', 'r']] ∧
      split ['\"', 'f', 'o', 'o', '^', 'b', 'a', 'r', '\"'] true true none =
        .ok [['f', 'o', 'o', '^', 'b', 'a', 'r']] := by
  refine ⟨?_, ?_, by decide, by decide⟩
  · simp [stripCaretsF, hd]
  · intro hck
    by_cases hq : d = '\"'
    · subst hq
      simp [stripCaretsF]
    · have hcd : (check && (d = '!' || d = '%')) = false := by
        cases check with
        | false => rfl
        | true =>
          have hno : ¬ (d = '!' ∨ d = '%') := fun h => hck ⟨rfl, h⟩
          push_neg at hno
          simp [hno.1, hno.2]
      simp [stripCaretsF, hd, hq, hcd]

theorem claim_C7_caret_escape_witness :
    stripCaretsF ['z'] true (2 + 1) false ('^' :: 'b' :: ['a']) =
        econs ['b'] (stripCaretsF ['z'] true 2 false ['a']) ∧
      (¬ (true = true ∧ ('b' = '!' ∨ 'b' = '%')) →
        stripCaretsF ['z'] true (2 + 1) true ('^' :: 'b' :: ['a']) =
          econs ['^', 'b']
            (stripCaretsF ['z'] true 2 (if 'b' = '\"' then false else true) ['a'])) ∧
      split ['f', 'o', 'o', '^', 'b', 'a', 'r'] true true none =
        .ok [['f', 'o', 'o', 'b', 'a', 'r']] ∧
      split ['\"', 'f', 'o', 'o', '^', 'b', 'a', 'r', '\"'] true true none =
        .ok [['f', 'o', 'o', '^', 'b', 'a', 'r']] :=
  claim_C7_caret_escape ['z'] ['a'] true 2 'b' (by decide)


theorem cmdViolationF_nil (f : Nat) (qm : Bool) : cmdViolationF f qm [] = false := by
  cases f <;> rfl

theorem stripCaretsF_nil (s0 : List Char) (ch : Bool) (f : Nat) (qm : Bool) :
    stripCaretsF s0 ch f qm [] = .ok [] := by
  cases f <;> rfl

theorem stripCarets_error_iff_violation :
    ∀ (fuel : Nat) (qm : Bool) (l : List Char) (s0 : List Char),
    if cmdViolationF fuel qm l = true then
      stripCaretsF s0 true fuel qm l = .error (.metacharacter s0)
    else ∃ t, stripCaretsF s0 true fuel qm l = .ok t := by
  intro fuel
  induction fuel with
  | zero =>
    intro qm l s0
    rw [if_neg (by simp [show cmdViolationF 0 qm l = false from rfl])]
    exact ⟨[], rfl⟩
  | succ n ih =>
    intro qm l s0
    match l with
    | [] =>
      rw [if_neg (by simp [cmdViolationF_nil])]
      exact ⟨[], stripCaretsF_nil s0 true (n + 1) qm⟩
    | c :: cs =>
      by_cases hc : c = '^'
      · subst hc
        match cs with
        | [] =>
          rw [if_neg (by simp [cmdViolationF, cmdViolationF_nil])]
          cases qm
          · exact ⟨[], by simp [stripCaretsF, stripCaretsF_nil]⟩
          · exact ⟨['^'], by simp [stripCaretsF, stripCaretsF_nil, econs]⟩
        | d :: cs2 =>
          by_cases hdn : d = '\n'
          · subst hdn
            have hm := ih qm ('\n' :: cs2) s0
            have hunfV : cmdViolationF (n + 1) qm ('^' :: '\n' :: cs2) =
                cmdViolationF n qm ('\n' :: cs2) := by
              simp [cmdViolationF]
            have hunfS : stripCaretsF s0 true (n + 1) qm ('^' :: '\n' :: cs2) =
                if qm then econs ['^'] (stripCaretsF s0 true n qm ('\n' :: cs2))
                else stripCaretsF s0 true n qm ('\n' :: cs2) := by
              simp [stripCaretsF]
            rw [hunfV, hunfS]
            by_cases hv : cmdViolationF n qm ('\n' :: cs2) = true
            · rw [if_pos hv]
              rw [if_pos hv] at hm
              cases qm
              · simpa using hm
              · simp [hm, econs]
            · rw [if_neg hv]
              rw [if_neg hv] at hm
              obtain ⟨t, ht⟩ := hm
              cases qm
              · exact ⟨t, by simpa using ht⟩
              · exact ⟨'^' :: t, by simp [ht, econs]⟩
          · cases qm with
            | false =>
              have hunfV : cmdViolationF (n + 1) false ('^' :: d :: cs2) =
                  cmdViolationF n false cs2 := by
                simp [cmdViolationF, hdn]
              have hunfS : stripCaretsF s0 true (n + 1) false ('^' :: d :: cs2) =
                  econs [d] (stripCaretsF s0 true n false cs2) := by
                simp [stripCaretsF, hdn]
              rw [hunfV, hunfS]
              have hm := ih false cs2 s0
              by_cases hv : cmdViolationF n false cs2 = true
              · rw [if_pos hv]
                rw [if_pos hv] at hm
                simp [hm, econs]
              · rw [if_neg hv]
                rw [if_neg hv] at hm
                obtain ⟨t, ht⟩ := hm
                exact ⟨d :: t, by simp [ht, econs]⟩
            | true =>
              by_cases hdq : d = '\"'
              · subst hdq
                have hunfV : cmdViolationF (n + 1) true ('^' :: '\"' :: cs2) =
                    cmdViolationF n false cs2 := by
                  simp [cmdViolationF, hdn]
                have hunfS : stripCaretsF s0 true (n + 1) true ('^' :: '\"' :: cs2) =
                    econs ['^', '\"'] (stripCaretsF s0 true n false cs2) := by
                  simp [stripCaretsF, hdn]
                rw [hunfV, hunfS]
                have hm := ih false cs2 s0
                by_cases hv : cmdViolationF n false cs2 = true
                · rw [if_pos hv]
                  rw [if_pos hv] at hm
                  simp [hm, econs]
                · rw [if_neg hv]
                  rw [if_neg hv] at hm
                  obtain ⟨t, ht⟩ := hm
                  exact ⟨'^' :: '\"' :: t, by simp [ht, econs]⟩
              · by_cases hdm : d = '!' ∨ d = '%'
                · have hbool : (d = '!' || d = '%') = true := by
                    rcases hdm with h | h <;> simp [h]
                  have hunfV : cmdViolationF (n + 1) true ('^' :: d :: cs2) = true := by
                    simp [cmdViolationF, hdn, hdq, hbool]
                  have hunfS : stripCaretsF s0 true (n + 1) true ('^' :: d :: cs2) =
                      .error (.metacharacter s0) := by
                    simp [stripCaretsF, hdn, hdq, hbool]
                  rw [hunfV, if_pos rfl]
                  exact hunfS
                · have hbool : (d = '!' || d = '%') = false := by
                    push_neg at hdm
                    simp [hdm.1, hdm.2]
                  have hunfV : cmdViolationF (n + 1) true ('^' :: d :: cs2) =
                      cmdViolationF n true cs2 := by
                    simp [cmdViolationF, hdn, hdq, hbool]
                  have hunfS : stripCaretsF s0 true (n + 1) true ('^' :: d :: cs2) =
                      econs ['^', d] (stripCaretsF s0 true n true cs2) := by
                    simp [stripCaretsF, hdn, hdq, hbool]
                  rw [hunfV, hunfS]
                  have hm := ih true cs2 s0
                  by_cases hv : cmdViolationF n true cs2 = true
                  · rw [if_pos hv]
                    rw [if_pos hv] at hm
                    simp [hm, econs]
                  · rw [if_neg hv]
                    rw [if_neg hv] at hm
                    obtain ⟨t, ht⟩ := hm
                    exact ⟨'^' :: d :: t, by simp [ht, econs]⟩
      · by_cases hcq : c = '\"'
        · subst hcq
          have hunfV : cmdViolationF (n + 1) qm ('\"' :: cs) =
              cmdViolationF n (!qm) cs := by
            simp [cmdViolationF]
          have hunfS : stripCaretsF s0 true (n + 1) qm ('\"' :: cs) =
              econs ['\"'] (stripCaretsF s0 true n (!qm) cs) := by
            simp [stripCaretsF]
          rw [hunfV, hunfS]
          have hm := ih (!qm) cs s0
          by_cases hv : cmdViolationF n (!qm) cs = true
          · rw [if_pos hv]
            rw [if_pos hv] at hm
            simp [hm, econs]
          · rw [if_neg hv]
            rw [if_neg hv] at hm
            obtain ⟨t, ht⟩ := hm
            exact ⟨'\"' :: t, by simp [ht, econs]⟩
        · by_cases hA : ((c :: cs).takeWhile isCaretText).any
              (fun x => if qm then isCmdMetaInsideQuotes x else isCmdMeta x) = true
          · have hunfV : cmdViolationF (n + 1) qm (c :: cs) = true := by
              simp [cmdViolationF, hc, hcq, hA]
            have hunfS : stripCaretsF s0 true (n + 1) qm (c :: cs) =
                .error (.metacharacter s0) := by
              simp [stripCaretsF, hc, hcq, hA]
            rw [hunfV, if_pos rfl]
            exact hunfS
          · have hunfV : cmdViolationF (n + 1) qm (c :: cs) =
                cmdViolationF n qm ((c :: cs).dropWhile isCaretText) := by
              simp [cmdViolationF, hc, hcq, hA]
            have hunfS : stripCaretsF s0 true (n + 1) qm (c :: cs) =
                econs ((c :: cs).takeWhile isCaretText)
                  (stripCaretsF s0 true n qm ((c :: cs).dropWhile isCaretText)) := by
              simp [stripCaretsF, hc, hcq, hA]
            rw [hunfV, hunfS]
            have hm := ih qm ((c :: cs).dropWhile isCaretText) s0
            by_cases hv : cmdViolationF n qm ((c :: cs).dropWhile isCaretText) = true
            · rw [if_pos hv]
              rw [if_pos hv] at hm
              simp [hm, econs]
            · rw [if_neg hv]
              rw [if_neg hv] at hm
              obtain ⟨t, ht⟩ := hm
              exact ⟨(c :: cs).takeWhile isCaretText ++ t, by simp [ht, econs]⟩

/-- C5 counterexample: a plain-text run containing a space while quote
mode is off does not error — whitespace is not in the `cmd_meta` class,
contrary to the claimed forbidden set containing the space character. -/
theorem claim_C5_counterexample :
    strip_carets_like_cmd ['a', ' ', 'b'] true = .ok ['a', ' ', 'b'] := by decide

/-- C5 (amended): the caret normalizer with check enabled fails — always
with the metacharacter error carrying the input — exactly when the scan
meets a checked violation: a text run containing a forbidden character,
where the forbidden set while quote mode is off is the `cmd_meta` class
(quote, caret, ampersand, pipe, angle brackets, parentheses, percent,
bang — whitespace is not forbidden), and while quote mode is on is quote,
percent and bang only; or a two-character escape run `^%` or `^!` while
quote mode is on.  In particular shell-aware strict `split` of `&whoami`
raises the metacharacter error. -/
theorem claim_C5_metachar_errors (s : List Char) :
    (strip_carets_like_cmd s true = .error (.metacharacter s) ↔ cmdViolation s = true) ∧
      split ['&', 'w', 'h', 'o', 'a', 'm', 'i'] true true none =
        .error (.metacharacter ['&', 'w', 'h', 'o', 'a', 'm', 'i']) := by
  constructor
  · have hm := stripCarets_error_iff_violation s.length false s s
    unfold strip_carets_like_cmd cmdViolation
    by_cases hv : cmdViolationF s.length false s = true
    · rw [if_pos hv] at hm
      exact ⟨fun _ => hv, fun _ => hm⟩
    · rw [if_neg hv] at hm
      obtain ⟨t, ht⟩ := hm
      constructor
      · intro h
        rw [ht] at h
        exact absurd h (by simp)
      · intro h
        exact absurd h hv
  · decide


theorem econs_nil (r : Except MSLexError (List Char)) : econs [] r = r := by
  cases r <;> simp [econs]

theorem econs_econs (a b : List Char) (r : Except MSLexError (List Char)) :
    econs a (econs b r) = econs (a ++ b) r := by
  cases r <;> simp [econs]

theorem econs_ite_err (ch A B : Bool) (u tl : List Char) (e : MSLexError)
    (r : Except MSLexError (List Char)) :
    (if (ch && (A || B)) = true then Except.error e else econs (u ++ tl) r) =
    (if (ch && A) = true then Except.error e
     else econs u (if (ch && B) = true then Except.error e else econs tl r)) := by
  cases ch <;> cases A <;> cases B <;> cases r <;> simp [econs]

theorem stripCaretsF_fuel :
    ∀ (f1 f2 : Nat) (qm : Bool) (l : List Char) (s0 : List Char) (check : Bool),
    l.length ≤ f1 → l.length ≤ f2 →
    stripCaretsF s0 check f1 qm l = stripCaretsF s0 check f2 qm l := by
  intro f1
  induction f1 with
  | zero =>
    intro f2 qm l s0 check h1 _
    have : l = [] := List.length_eq_zero.mp (Nat.le_zero.mp h1)
    subst this
    rw [stripCaretsF_nil, stripCaretsF_nil]
  | succ f1 ih =>
    intro f2 qm l s0 check h1 h2
    match f2 with
    | 0 =>
      have : l = [] := List.length_eq_zero.mp (Nat.le_zero.mp h2)
      subst this
      rw [stripCaretsF_nil, stripCaretsF_nil]
    | f2 + 1 =>
      match l with
      | [] => rw [stripCaretsF_nil, stripCaretsF_nil]
      | c :: cs =>
        simp only [List.length_cons, Nat.add_le_add_iff_right] at h1 h2
        by_cases hc : c = '^'
        · subst hc
          match cs with
          | [] => cases qm <;> simp [stripCaretsF, stripCaretsF_nil]
          | d :: cs2 =>
            simp only [List.length_cons] at h1 h2
            have hb1 : cs2.length + 1 ≤ f1 := h1
            have hb2 : cs2.length + 1 ≤ f2 := h2
            by_cases hdn : d = '\n'
            · subst hdn
              have he := ih f2 qm ('\n' :: cs2) s0 check (by simpa using hb1)
                (by simpa using hb2)
              simp [stripCaretsF, he]
            · cases qm with
              | false =>
                have he := ih f2 false cs2 s0 check (by omega) (by omega)
                simp [stripCaretsF, hdn, he]
              | true =>
                by_cases hdq : d = '\"'
                · subst hdq
                  have he := ih f2 false cs2 s0 check (by omega) (by omega)
                  simp [stripCaretsF, he]
                · by_cases hck : (check && (d = '!' || d = '%')) = true
                  · simp [stripCaretsF, hdn, hdq, hck]
                  · have hck' : (check && (d = '!' || d = '%')) = false := by
                      simpa using hck
                    have he := ih f2 true cs2 s0 check (by omega) (by omega)
                    simp [stripCaretsF, hdn, hdq, hck', he]
        · by_cases hcq : c = '\"'
          · subst hcq
            have he := ih f2 (!qm) cs s0 check h1 h2
            simp [stripCaretsF, he]
          · have hct : isCaretText c = true := by
              simp [isCaretText, hc, hcq]
            have hdrop : ((c :: cs).dropWhile isCaretText).length ≤ cs.length := by
              rw [List.dropWhile_cons_of_pos hct]
              exact length_dropWhile_le _ _
            have he := ih f2 qm ((c :: cs).dropWhile isCaretText) s0 check
              (by omega) (by omega)
            simp only [stripCaretsF, if_neg hc, if_neg hcq]
            by_cases hck : (check && ((c :: cs).takeWhile isCaretText).any
                (fun x => if qm then isCmdMetaInsideQuotes x else isCmdMeta x)) = true
            · rw [if_pos hck, if_pos hck]
            · rw [if_neg hck, if_neg hck, he]

theorem stripFrom_eq_fuel {f : Nat} {l : List Char} (s0 : List Char) (check qm : Bool)
    (h : l.length ≤ f) : stripCaretsF s0 check f qm l = stripFrom s0 check qm l :=
  stripCaretsF_fuel f l.length qm l s0 check h le_rfl

theorem stripFrom_nil (s0 : List Char) (check qm : Bool) :
    stripFrom s0 check qm [] = .ok [] := rfl

theorem stripFrom_escF (s0 : List Char) (check : Bool) {c : Char} (X : List Char)
    (hc : ¬ (c = '\n')) :
    stripFrom s0 check false ('^' :: c :: X) = econs [c] (stripFrom s0 check false X) := by
  show stripCaretsF s0 check (X.length + 2) false ('^' :: c :: X) = _
  simp only [stripCaretsF, if_pos rfl, if_neg hc]
  rw [stripFrom_eq_fuel s0 check false (by omega)]
  simp

theorem stripFrom_escT (s0 : List Char) (check : Bool) {c : Char} (X : List Char)
    (hc : ¬ (c = '\n')) (hq : ¬ (c = '\"'))
    (hck : (check && (c = '!' || c = '%')) = false) :
    stripFrom s0 check true ('^' :: c :: X) =
      econs ['^', c] (stripFrom s0 check true X) := by
  show stripCaretsF s0 check (X.length + 2) true ('^' :: c :: X) = _
  simp only [stripCaretsF, if_pos rfl, if_neg hc, if_neg hq, hck]
  rw [stripFrom_eq_fuel s0 check true (by omega)]
  simp

theorem stripFrom_escTQ (s0 : List Char) (check : Bool) (X : List Char) :
    stripFrom s0 check true ('^' :: '\"' :: X) =
      econs ['^', '\"'] (stripFrom s0 check false X) := by
  show stripCaretsF s0 check (X.length + 2) true ('^' :: '\"' :: X) = _
  simp only [stripCaretsF]
  rw [stripFrom_eq_fuel s0 check false (by omega)]
  simp

theorem stripFrom_escNl (s0 : List Char) (check qm : Bool) (X : List Char) :
    stripFrom s0 check qm ('^' :: '\n' :: X) =
      if qm then econs ['^'] (stripFrom s0 check qm ('\n' :: X))
      else stripFrom s0 check qm ('\n' :: X) := by
  have hstep : stripCaretsF s0 check (X.length + 2) qm ('^' :: '\n' :: X) =
      if qm then econs ['^'] (stripCaretsF s0 check (X.length + 1) qm ('\n' :: X))
      else stripCaretsF s0 check (X.length + 1) qm ('\n' :: X) := rfl
  show stripCaretsF s0 check (X.length + 2) qm ('^' :: '\n' :: X) = _
  rw [hstep, stripFrom_eq_fuel s0 check qm (by simp)]

theorem stripFrom_quo (s0 : List Char) (check qm : Bool) (X : List Char) :
    stripFrom s0 check qm ('\"' :: X) = econs ['\"'] (stripFrom s0 check (!qm) X) := by
  show stripCaretsF s0 check (X.length + 1) qm ('\"' :: X) = _
  simp only [stripCaretsF, if_neg (by decide : ¬ ('\"' = '^')), if_pos rfl]
  rw [stripFrom_eq_fuel s0 check (!qm) (by omega)]
  simp


theorem stripFrom_txt_step (s0 : List Char) (check qm : Bool) (c : Char) (cs : List Char)
    (hc : isCaretText c = true) :
    stripFrom s0 check qm (c :: cs) =
      if (check && ((c :: cs).takeWhile isCaretText).any
          (fun x => if qm then isCmdMetaInsideQuotes x else isCmdMeta x)) = true then
        .error (.metacharacter s0)
      else
        econs ((c :: cs).takeWhile isCaretText)
          (stripFrom s0 check qm ((c :: cs).dropWhile isCaretText)) := by
  have hcq : ¬ (c = '^') := by intro h; subst h; simp [isCaretText] at hc
  have hcq2 : ¬ (c = '\"') := by intro h; subst h; simp [isCaretText] at hc
  show stripCaretsF s0 check (cs.length + 1) qm (c :: cs) = _
  simp only [stripCaretsF, if_neg hcq, if_neg hcq2]
  rw [stripFrom_eq_fuel s0 check qm (by
    rw [List.dropWhile_cons_of_pos hc]
    exact length_dropWhile_le _ _)]

theorem headSat_of_takeWhile_ne {p : Char → Bool} {L : List Char}
    (h : ¬ (L.takeWhile p = [])) : headSat p L = true := by
  match L with
  | [] => exact absurd rfl h
  | d :: ds =>
    by_cases hd : p d = true
    · simpa [headSat] using hd
    · exact absurd (List.takeWhile_cons_of_neg (by simp [hd])) h

theorem stripFrom_txt_run (s0 : List Char) (check qm : Bool) (L : List Char)
    (hL : headSat isCaretText L = true) :
    stripFrom s0 check qm L =
      if (check && (L.takeWhile isCaretText).any
          (fun x => if qm then isCmdMetaInsideQuotes x else isCmdMeta x)) = true then
        .error (.metacharacter s0)
      else
        econs (L.takeWhile isCaretText)
          (stripFrom s0 check qm (L.dropWhile isCaretText)) := by
  match L, hL with
  | d :: ds, hL => exact stripFrom_txt_step s0 check qm d ds (by simpa [headSat] using hL)

theorem strip_text_chunk (s0 : List Char) (check qm : Bool) (u L : List Char)
    (hne : u ≠ []) (hall : u.all isCaretText = true) :
    stripFrom s0 check qm (u ++ L) =
      if (check && u.any
          (fun x => if qm then isCmdMetaInsideQuotes x else isCmdMeta x)) = true then
        .error (.metacharacter s0)
      else econs u (stripFrom s0 check qm L) := by
  match u, hne with
  | c :: t, _ =>
    obtain ⟨hc, ht⟩ := all_cons_head hall
    rw [List.cons_append, stripFrom_txt_step s0 check qm c (t ++ L) hc]
    have hmem : ∀ a ∈ c :: t, isCaretText a = true := List.all_eq_true.mp hall
    have htw : (c :: (t ++ L)).takeWhile isCaretText =
        (c :: t) ++ L.takeWhile isCaretText := by
      show ((c :: t) ++ L).takeWhile isCaretText = _
      rw [List.takeWhile_append_of_pos hmem]
    have hdw : (c :: (t ++ L)).dropWhile isCaretText = L.dropWhile isCaretText := by
      show ((c :: t) ++ L).dropWhile isCaretText = _
      rw [List.dropWhile_append_of_pos hmem]
    rw [htw, hdw]
    by_cases hheadL : headSat isCaretText L = true
    · rw [stripFrom_txt_run s0 check qm L hheadL]
      have hany : ((c :: t) ++ L.takeWhile isCaretText).any
            (fun x => if qm then isCmdMetaInsideQuotes x else isCmdMeta x)
          = ((c :: t).any (fun x => if qm then isCmdMetaInsideQuotes x else isCmdMeta x)
            || (L.takeWhile isCaretText).any
              (fun x => if qm then isCmdMetaInsideQuotes x else isCmdMeta x)) := by
        simp [List.any_cons, List.any_append, Bool.or_assoc]
      rw [hany]
      exact econs_ite_err check _ _ (c :: t) _ _ _
    · have hTL : L.takeWhile isCaretText = [] := by
        by_contra hcon
        exact absurd (headSat_of_takeWhile_ne hcon) hheadL
      have hDL : L.dropWhile isCaretText = L := dropWhile_not_head (by
        simpa using hheadL)
      rw [hTL, hDL, List.append_nil]

theorem strip_append (s0 : List Char) {qm : Bool} {x out : List Char} {qm' : Bool}
    (h : StripOK qm x out qm') :
    ∀ X, stripFrom s0 true qm (x ++ X) = econs out (stripFrom s0 true qm' X) := by
  induction h with
  | nil => intro X; simp [econs_nil]
  | escF hc _ ih =>
    intro X
    simp only [List.cons_append]
    rw [stripFrom_escF s0 true _ hc, ih X, econs_econs]
    simp
  | escT hc hq hb hp _ ih =>
    intro X
    simp only [List.cons_append]
    rw [stripFrom_escT s0 true _ hc hq (by simp [hb, hp]), ih X, econs_econs]
    simp
  | escTQ _ ih =>
    intro X
    simp only [List.cons_append]
    rw [stripFrom_escTQ, ih X, econs_econs]
    simp
  | escNl _ ih =>
    intro X
    simp only [List.cons_append]
    rw [stripFrom_escNl]
    have := ih X
    simp only [List.cons_append] at this
    rename_i qm1 x1 out1 qm1' hrec
    cases qm1 with
    | false => simp only [if_neg (by simp : ¬ (false = true))]; rw [this]; simp [econs_nil]
    | true =>
      simp only [if_pos rfl]
      rw [this, econs_econs]
      simp
  | quo _ ih =>
    intro X
    simp only [List.cons_append]
    rw [stripFrom_quo, ih X, econs_econs]
    simp
  | txt c t hct hchk _ ih =>
    intro X
    rw [List.append_assoc]
    rw [strip_text_chunk s0 true _ (c :: t) _ (by simp) hct]
    rw [if_neg (by simp [hchk])]
    rw [ih X, econs_econs]

theorem stripOK_append {qm : Bool} {x out : List Char} {qm' : Bool}
    {y out2 : List Char} {qm'' : Bool} (h1 : StripOK qm x out qm') :
    StripOK qm' y out2 qm'' → StripOK qm (x ++ y) (out ++ out2) qm'' := by
  induction h1 with
  | nil => intro h2; simpa using h2
  | escF hc _ ih =>
    intro h2
    simp only [List.cons_append]
    exact StripOK.escF hc (ih h2)
  | escT hc hq hb hp _ ih =>
    intro h2
    simp only [List.cons_append]
    exact StripOK.escT hc hq hb hp (ih h2)
  | escTQ _ ih =>
    intro h2
    simp only [List.cons_append]
    exact StripOK.escTQ (ih h2)
  | escNl _ ih =>
    intro h2
    have := StripOK.escNl (x := _) (by simpa using ih h2)
    simp only [List.cons_append, List.append_assoc]
    simpa using this
  | quo _ ih =>
    intro h2
    simp only [List.cons_append]
    exact StripOK.quo (ih h2)
  | txt c t hct hchk _ ih =>
    intro h2
    simp only [List.append_assoc]
    exact StripOK.txt c t hct hchk (ih h2)

theorem stripFrom_of_StripOK (s0 : List Char) {qm : Bool} {x out : List Char} {qm' : Bool}
    (h : StripOK qm x out qm') : stripFrom s0 true qm x = .ok out := by
  have hx := strip_append s0 h []
  rw [List.append_nil] at hx
  rw [hx, stripFrom_nil]
  simp [econs]


theorem stripOK_txt_all (qm : Bool) (u : List Char) (hall : u.all isCaretText = true)
    (hchk : u.any (fun a => if qm then isCmdMetaInsideQuotes a else isCmdMeta a) = false) :
    StripOK qm u u qm := by
  match u with
  | [] => exact StripOK.nil qm
  | c :: t =>
    have := StripOK.txt c t hall hchk (StripOK.nil qm)
    simpa using this

theorem isQuotable_not_quote {c : Char} (h : isQuotable c = true) : ¬ (c = '\"') := by
  intro he
  subst he
  simp [isQuotable] at h

theorem isQuotable_not_inside_quotes {c : Char} (h : isQuotable c = true) :
    isCmdMetaInsideQuotes c = false := by
  simp only [isQuotable, Bool.not_eq_true', Bool.or_eq_false_iff] at h
  obtain ⟨⟨h1, h2⟩, h3⟩ := h
  simp only [decide_eq_false_iff_not] at h1 h2 h3
  simp [isCmdMetaInsideQuotes, h1, h2, h3]

theorem not_meta_caretText {c : Char} (h : isCmdMeta c = false) : isCaretText c = true := by
  have h1 : ¬ (c = '\"') := by intro he; subst he; simp [isCmdMeta] at h
  have h2 : ¬ (c = '^') := by intro he; subst he; simp [isCmdMeta] at h
  simp [isCaretText, h1, h2]

theorem stripOK_interior : ∀ (n : Nat) (u : List Char), u.length ≤ n →
    u.all isQuotable = true → StripOK true (u ++ ['\"']) (u ++ ['\"']) false := by
  intro n
  induction n with
  | zero =>
    intro u hlen _
    have : u = [] := List.length_eq_zero.mp (Nat.le_zero.mp hlen)
    subst this
    exact StripOK.quo (StripOK.nil false)
  | succ n ih =>
    intro u hlen hall
    match u with
    | [] => exact StripOK.quo (StripOK.nil false)
    | c :: t =>
      obtain ⟨hc, ht⟩ := all_cons_head hall
      simp only [List.length_cons, Nat.add_le_add_iff_right] at hlen
      by_cases hcar : c = '^'
      · subst hcar
        match t with
        | [] => exact StripOK.escTQ (StripOK.nil false)
        | d :: t2 =>
          obtain ⟨hd, ht2⟩ := all_cons_head ht
          by_cases hdn : d = '\n'
          · subst hdn
            have hrec := ih ('\n' :: t2) (by simpa using hlen) (by simp [ht])
            have := @StripOK.escNl true _ _ _ hrec
            simpa using this
          · have hrec := ih t2 (by simp at hlen; omega) ht2
            exact StripOK.escT hdn (isQuotable_not_quote hd)
              (by intro he; subst he; simp [isQuotable] at hd)
              (by intro he; subst he; simp [isQuotable] at hd) hrec
      · have hct : isCaretText c = true := by
          simp [isCaretText, hcar, isQuotable_not_quote hc]
        have hchk : isCmdMetaInsideQuotes c = false := isQuotable_not_inside_quotes hc
        have hrec := ih t hlen ht
        have := @StripOK.txt true _ _ _ c [] (by simp [hct]) (by simp [hchk]) hrec
        simpa using this

theorem stripOK_caretEscapeAll (w : List Char) :
    StripOK false (caretEscapeAll w) w false := by
  induction w with
  | nil =>
    have : caretEscapeAll [] = [] := rfl
    rw [this]
    exact StripOK.nil false
  | cons c cs ih =>
    have hunf : caretEscapeAll (c :: cs) =
        (if isCmdMeta c then ['^', c] else [c]) ++ caretEscapeAll cs := by
      simp [caretEscapeAll]
    rw [hunf]
    by_cases hm : isCmdMeta c = true
    · rw [if_pos hm]
      have hcn : ¬ (c = '\n') := by
        intro he
        subst he
        simp [isCmdMeta] at hm
      exact StripOK.escF hcn ih
    · rw [if_neg hm]
      have hm' : isCmdMeta c = false := by simpa using hm
      have hct : isCaretText c = true := not_meta_caretText hm'
      have := @StripOK.txt false _ _ _ c [] (by simp [hct]) (by simp [hm']) ih
      simpa using this

theorem all_isQuotable_dtbPlain {q : List Char} (hq : q.all isQuotable = true) :
    (dtbPlain q).all isQuotable = true := by
  unfold dtbPlain
  rw [List.all_append, hq, Bool.true_and, List.all_eq_true]
  intro a ha
  rw [List.eq_of_mem_replicate ha]
  decide

theorem all_isQuotable_dtb {q : List Char} (hq : q.all isQuotable = true) :
    (doubleTrailingSlashes q).all isQuotable = true := by
  unfold doubleTrailingSlashes
  split
  · rw [List.all_append]
    have hdl : q.dropLast.all isQuotable = true := by
      rw [List.all_eq_true]
      intro a ha
      exact List.all_eq_true.mp hq a ((List.dropLast_prefix q).sublist.subset ha)
    rw [all_isQuotable_dtbPlain hdl]
    decide
  · exact all_isQuotable_dtbPlain hq

theorem stripOK_quoteForCmd : ∀ (f : Nat) (l : List Char),
    StripOK false (quoteForCmdF f l) (strippedQFCF f l) false := by
  intro f
  induction f with
  | zero => intro l; exact StripOK.nil false
  | succ f ih =>
    intro l
    match l with
    | [] => exact StripOK.nil false
    | c :: cs =>
      by_cases hm : (c = '%' || c = '!') = true
      · have hcn : ¬ (c = '\n') := by
          rcases Bool.or_eq_true_iff.mp hm with h | h <;>
            (rw [decide_eq_true_iff] at h; subst h; decide)
        simp only [quoteForCmdF, strippedQFCF, if_pos hm]
        exact StripOK.escF hcn (ih cs)
      · by_cases hq : c = '\"'
        · subst hq
          simp only [quoteForCmdF, strippedQFCF,
            if_neg (by decide : ¬ (('\"' = '%' || '\"' = '!') = true)), if_pos rfl]
          have h1 : StripOK false ('^' :: '\"' :: quoteForCmdF f cs)
              ('\"' :: strippedQFCF f cs) false :=
            StripOK.escF (by decide) (ih cs)
          have h2 := @StripOK.txt false _ _ _ '\\' [] (by decide) (by decide) h1
          simpa using h2
        · simp only [quoteForCmdF, strippedQFCF, if_neg hm, if_neg hq]
          have hqall : ((c :: cs).takeWhile isQuotable).all isQuotable :=
            List.all_takeWhile
          unfold quotablePiece
          by_cases hwrap : (((c :: cs).takeWhile isQuotable).any isCmdMetaOrSpace ||
              decide (((c :: cs).takeWhile isQuotable).reverse.head? = some '\\')) = true
          · rw [if_pos hwrap]
            have hint := stripOK_interior
              (doubleTrailingSlashes ((c :: cs).takeWhile isQuotable)).length _ le_rfl
              (all_isQuotable_dtb hqall)
            have hw : StripOK false
                (wrap_in_quotes ((c :: cs).takeWhile isQuotable))
                (wrap_in_quotes ((c :: cs).takeWhile isQuotable)) false := by
              unfold wrap_in_quotes
              have := @StripOK.quo false _ _ _ (by simpa using hint)
              simpa using this
            exact stripOK_append hw (ih _)
          · rw [if_neg hwrap]
            have hAB := Bool.or_eq_false_iff.mp (Bool.eq_false_iff.mpr hwrap)
            have hnometa : ((c :: cs).takeWhile isQuotable).any isCmdMetaOrSpace = false :=
              hAB.1
            have hmeta1 : ∀ a ∈ (c :: cs).takeWhile isQuotable, isCmdMeta a = false := by
              intro a ha
              have h1 := List.any_eq_false.mp hnometa a ha
              have h2 : isCmdMetaOrSpace a = false := by simpa using h1
              exact (Bool.or_eq_false_iff.mp (by simpa [isCmdMetaOrSpace] using h2)).2
            have hallct : ((c :: cs).takeWhile isQuotable).all isCaretText = true := by
              rw [List.all_eq_true]
              intro a ha
              exact not_meta_caretText (hmeta1 a ha)
            have hchk : ((c :: cs).takeWhile isQuotable).any
                (fun a => if false then isCmdMetaInsideQuotes a else isCmdMeta a)
                = false := by
              rw [List.any_eq_false]
              intro a ha
              simp [hmeta1 a ha]
            exact stripOK_append
              (stripOK_txt_all false ((c :: cs).takeWhile isQuotable) hallct hchk)
              (ih _)


theorem escape_quotes_eq_self : ∀ (n : Nat) (w : List Char), w.length ≤ n →
    (∀ c ∈ w, isQuote c = false) → escape_quotes w = w := by
  intro n
  induction n with
  | zero =>
    intro w hlen _
    have : w = [] := List.length_eq_zero.mp (Nat.le_zero.mp hlen)
    subst this
    exact escape_quotes_nil
  | succ n ih =>
    intro w hlen hq
    match w with
    | [] => exact escape_quotes_nil
    | c :: cs =>
      rw [escape_quotes_cons]
      rw [if_neg (by
        intro hh
        have hmem : '\"' ∈ (c :: cs) := List.drop_subset _ _ (mem_of_head?_eq hh)
        have := hq _ hmem
        simp [isQuote] at this)]
      by_cases hns : 0 < ((c :: cs).takeWhile isSlash).length
      · rw [if_pos hns]
        have h1 := takeWhile_append_drop_length isSlash (c :: cs)
        have h2 := takeWhile_all_eq_replicate isSlash_eq (c :: cs)
        rw [ih ((c :: cs).drop ((c :: cs).takeWhile isSlash).length)
          (by
            rw [List.length_drop]
            simp only [List.length_cons] at hlen ⊢
            omega)
          (fun a ha => hq a (List.drop_subset _ _ ha))]
        conv_rhs => rw [← h1]
        rw [h2]
        simp only [List.length_replicate]
      · rw [if_neg hns]
        have hc : isEscText c = true := by
          have hsl : isSlash c = false := by
            by_contra hcc
            rw [Bool.not_eq_false] at hcc
            rw [List.takeWhile_cons_of_pos hcc] at hns
            simp at hns
          have h1 : ¬ (c = '\\') := ne_slash_of hsl
          have h2 : ¬ (c = '\"') := by
            intro hh
            have := hq c (List.mem_cons_self _ _)
            subst hh
            simp [isQuote] at this
          simp [isEscText, h1, h2]
        rw [ih ((c :: cs).dropWhile isEscText)
          (by
            rw [List.dropWhile_cons_of_pos hc]
            simp only [List.length_cons] at hlen
            exact le_trans (length_dropWhile_le _ _) (by omega))
          (fun a ha => hq a (mem_of_mem_dropWhile ha))]
        exact List.takeWhile_append_dropWhile isEscText (c :: cs)

theorem isQuotable_of_branches {c : Char} (hm : ¬ ((c = '%' || c = '!') = true))
    (hq : ¬ (c = '\"')) : isQuotable c = true := by
  have hm2 : (c = '%' || c = '!') = false := by simpa using hm
  rcases Bool.or_eq_false_iff.mp hm2 with ⟨ha, hb⟩
  simp only [decide_eq_false_iff_not] at ha hb
  simp [isQuotable, ha, hb, hq]

theorem strippedQFCF_nil (f : Nat) : strippedQFCF f [] = [] := by cases f <;> rfl

theorem strippedQFCF_fuel :
    ∀ (f1 f2 : Nat) (l : List Char), l.length ≤ f1 → l.length ≤ f2 →
    strippedQFCF f1 l = strippedQFCF f2 l := by
  intro f1
  induction f1 with
  | zero =>
    intro f2 l h1 _
    have : l = [] := List.length_eq_zero.mp (Nat.le_zero.mp h1)
    subst this
    rw [strippedQFCF_nil, strippedQFCF_nil]
  | succ f1 ih =>
    intro f2 l h1 h2
    match f2 with
    | 0 =>
      have : l = [] := List.length_eq_zero.mp (Nat.le_zero.mp h2)
      subst this
      rw [strippedQFCF_nil, strippedQFCF_nil]
    | f2 + 1 =>
      match l with
      | [] => rw [strippedQFCF_nil, strippedQFCF_nil]
      | c :: cs =>
        simp only [List.length_cons, Nat.add_le_add_iff_right] at h1 h2
        by_cases hm : (c = '%' || c = '!') = true
        · simp only [strippedQFCF, if_pos hm]
          rw [ih f2 cs h1 h2]
        · by_cases hq : c = '\"'
          · simp only [strippedQFCF, if_neg hm, if_pos hq]
            rw [ih f2 cs h1 h2]
          · have hcq : isQuotable c = true := isQuotable_of_branches hm hq
            have hlen : ((c :: cs).dropWhile isQuotable).length ≤ cs.length := by
              rw [List.dropWhile_cons_of_pos hcq]
              exact length_dropWhile_le _ _
            simp only [strippedQFCF, if_neg hm, if_neg hq]
            rw [ih f2 ((c :: cs).dropWhile isQuotable) (by omega) (by omega)]

theorem strippedQFC_eq_fuel {f : Nat} {l : List Char} (h : l.length ≤ f) :
    strippedQFCF f l = strippedQFC l :=
  strippedQFCF_fuel f l.length l h le_rfl

theorem strippedQFC_cons (c : Char) (cs : List Char) :
    strippedQFC (c :: cs) =
      if (c = '%' || c = '!') = true then c :: strippedQFC cs
      else if c = '\"' then '\\' :: '\"' :: strippedQFC cs
      else quotablePiece ((c :: cs).takeWhile isQuotable) ++
        strippedQFC ((c :: cs).dropWhile isQuotable) := by
  show strippedQFCF (cs.length + 1) (c :: cs) = _
  by_cases hm : (c = '%' || c = '!') = true
  · simp only [strippedQFCF, if_pos hm]
    rfl
  · by_cases hq : c = '\"'
    · simp only [strippedQFCF, if_neg hm, if_pos hq]
      rfl
    · have hcq : isQuotable c = true := isQuotable_of_branches hm hq
      simp only [strippedQFCF, if_neg hm, if_neg hq]
      rw [strippedQFC_eq_fuel (by
        rw [List.dropWhile_cons_of_pos hcq]
        exact length_dropWhile_le _ _)]

theorem goodPiecesF_nil (f : Nat) : goodPiecesF f [] = true := by cases f <;> rfl

theorem goodPiecesF_fuel :
    ∀ (f1 f2 : Nat) (l : List Char), l.length ≤ f1 → l.length ≤ f2 →
    goodPiecesF f1 l = goodPiecesF f2 l := by
  intro f1
  induction f1 with
  | zero =>
    intro f2 l h1 _
    have : l = [] := List.length_eq_zero.mp (Nat.le_zero.mp h1)
    subst this
    rw [goodPiecesF_nil, goodPiecesF_nil]
  | succ f1 ih =>
    intro f2 l h1 h2
    match f2 with
    | 0 =>
      have : l = [] := List.length_eq_zero.mp (Nat.le_zero.mp h2)
      subst this
      rw [goodPiecesF_nil, goodPiecesF_nil]
    | f2 + 1 =>
      match l with
      | [] => rw [goodPiecesF_nil, goodPiecesF_nil]
      | c :: cs =>
        simp only [List.length_cons, Nat.add_le_add_iff_right] at h1 h2
        by_cases hm : (c = '%' || c = '!') = true
        · simp only [goodPiecesF, if_pos hm]
          rw [ih f2 cs h1 h2]
        · by_cases hq : c = '\"'
          · simp only [goodPiecesF, if_neg hm, if_pos hq]
            rw [ih f2 cs h1 h2]
          · have hcq : isQuotable c = true := isQuotable_of_branches hm hq
            have hlen : ((c :: cs).dropWhile isQuotable).length ≤ cs.length := by
              rw [List.dropWhile_cons_of_pos hcq]
              exact length_dropWhile_le _ _
            simp only [goodPiecesF, if_neg hm, if_neg hq]
            rw [ih f2 ((c :: cs).dropWhile isQuotable) (by omega) (by omega)]

theorem goodPieces_eq_fuel {f : Nat} {l : List Char} (h : l.length ≤ f) :
    goodPiecesF f l = goodPieces l :=
  goodPiecesF_fuel f l.length l h le_rfl

theorem goodPieces_cons (c : Char) (cs : List Char) :
    goodPieces (c :: cs) =
      if (c = '%' || c = '!') = true then goodPieces cs
      else if c = '\"' then goodPieces cs
      else !(endsSlashNl ((c :: cs).takeWhile isQuotable)) &&
        goodPieces ((c :: cs).dropWhile isQuotable) := by
  show goodPiecesF (cs.length + 1) (c :: cs) = _
  by_cases hm : (c = '%' || c = '!') = true
  · simp only [goodPiecesF, if_pos hm]
    rfl
  · by_cases hq : c = '\"'
    · simp only [goodPiecesF, if_neg hm, if_pos hq]
      rfl
    · have hcq : isQuotable c = true := isQuotable_of_branches hm hq
      simp only [goodPiecesF, if_neg hm, if_neg hq]
      rw [goodPieces_eq_fuel (by
        rw [List.dropWhile_cons_of_pos hcq]
        exact length_dropWhile_le _ _)]


theorem txtslash_seg_runs :
    ∀ (n : Nat) (seg X : List Char), seg.length ≤ n →
    seg.all (fun c => isPlain c || isSlash c) = true →
    headSat isPlain X = false →
    (headSat isSlash seg.reverse = false ∨
      (headSat isSlash X = false ∧ headSat isQuote X = false)) →
    ∃ runs, tokenize (seg ++ X) = runs ++ tokenize X ∧
      ∀ (h : Bool → Nat → Nat → List Char × Bool) (qm : Bool), Emits h qm runs seg qm := by
  intro n
  induction n with
  | zero =>
    intro seg X hlen _ _ _
    have : seg = [] := List.length_eq_zero.mp (Nat.le_zero.mp hlen)
    subst this
    exact ⟨[], by simp, fun h qm => emits_nil h qm⟩
  | succ n ih =>
    intro seg X hlen hall hXp hOK
    match seg with
    | [] => exact ⟨[], by simp, fun h qm => emits_nil h qm⟩
    | c :: cs =>
      obtain ⟨hc, hcs⟩ := all_cons_head hall
      simp only [List.length_cons, Nat.add_le_add_iff_right] at hlen
      by_cases hcp : isPlain c = true
      · -- leading plain-text run
        have hsplit : (c :: cs.takeWhile isPlain) ++ cs.dropWhile isPlain = c :: cs := by
          rw [List.cons_append, List.takeWhile_append_dropWhile isPlain cs]
        have hhead : headSat isPlain (cs.dropWhile isPlain ++ X) = false := by
          match hd : cs.dropWhile isPlain with
          | [] => simpa using hXp
          | d :: ds =>
            have := headSat_dropWhile isPlain cs
            rw [hd] at this
            simpa [headSat] using this
        have hallp : (c :: cs.takeWhile isPlain).all isPlain = true := by
          simp only [List.all_cons, hcp, Bool.true_and]
          exact List.all_takeWhile
        have hOK' : headSat isSlash (cs.dropWhile isPlain).reverse = false ∨
            (headSat isSlash X = false ∧ headSat isQuote X = false) := by
          rcases hOK with h | h
          · left
            by_cases hre : cs.dropWhile isPlain = []
            · rw [hre]; rfl
            · have hrev : (c :: cs).reverse =
                  (cs.dropWhile isPlain).reverse ++ (c :: cs.takeWhile isPlain).reverse := by
                rw [← hsplit, List.reverse_append]
              rw [hrev, headSat_append_left (by simpa using hre)] at h
              exact h
          · right; exact h
        obtain ⟨runs', hrt, hre⟩ := ih (cs.dropWhile isPlain) X
          (le_trans (length_dropWhile_le _ _) hlen)
          (all_of_sublist (List.dropWhile_sublist _) hcs) hXp hOK'
        refine ⟨Run.txt (c :: cs.takeWhile isPlain) :: runs', ?_, ?_⟩
        · calc tokenize ((c :: cs) ++ X)
              = tokenize ((c :: cs.takeWhile isPlain) ++ (cs.dropWhile isPlain ++ X)) := by
                rw [← List.append_assoc, hsplit]
            _ = Run.txt (c :: cs.takeWhile isPlain) :: tokenize (cs.dropWhile isPlain ++ X) :=
                tokenize_txt_append _ _ _ hallp hhead
            _ = Run.txt (c :: cs.takeWhile isPlain) :: (runs' ++ tokenize X) := by rw [hrt]
        · intro h qm
          have := emits_append  (emits_txt h qm (c :: cs.takeWhile isPlain)) (hre h qm)
          rwa [hsplit] at this
      · -- leading backslash run
        have hcsl : isSlash c = true := by
          rcases Bool.or_eq_true_iff.mp hc with h | h
          · exact absurd h hcp
          · exact h
        have hsl : headSat isSlash (c :: cs) = true := by simpa [headSat] using hcsl
        obtain ⟨ns, hdec, hns1, hlen2⟩ := slashrun_decomp (c :: cs) hsl
        by_cases hre : (c :: cs).dropWhile isSlash = []
        · -- the whole segment is backslashes
          rw [hre, List.append_nil] at hdec
          obtain ⟨hXs, hXq⟩ : headSat isSlash X = false ∧ headSat isQuote X = false := by
            rcases hOK with h | h
            · exfalso
              have hmem : ∀ a ∈ (c :: cs).reverse, isSlash a = true := by
                intro a ha
                rw [hdec] at ha
                rw [List.eq_of_mem_replicate (List.mem_reverse.mp ha)]
                simp [isSlash]
              match hrv : (c :: cs).reverse with
              | [] => exact absurd (congrArg List.length hrv) (by simp)
              | d :: ds =>
                rw [hrv] at h
                have := hmem d (by rw [hrv]; exact List.mem_cons_self _ _)
                simp [headSat, this] at h
            · exact h
          refine ⟨List.replicate ns (Run.txt ['\\']), ?_, ?_⟩
          · rw [hdec, tokenize_slashes_append ns X hXs hXq hXp]
          · intro h qm
            rw [hdec]
            exact emits_replicate_slash h qm ns
        · match hd : (c :: cs).dropWhile isSlash, hre with
          | d :: rest', _ =>
            rw [hd] at hdec hlen2
            have hdns : isSlash d = false := by
              have := headSat_dropWhile isSlash (c :: cs)
              rw [hd] at this
              simpa [headSat] using this
            have hdp : isPlain d = true := by
              have hdm : d ∈ c :: cs := by
                have : d ∈ (c :: cs).dropWhile isSlash := by
                  rw [hd]; exact List.mem_cons_self _ _
                exact (List.dropWhile_sublist _).subset this
              rcases Bool.or_eq_true_iff.mp (List.all_eq_true.mp hall d hdm) with h | h
              · exact h
              · exact absurd h (by simp [hdns])
            have hallrest : (d :: rest').all (fun c => isPlain c || isSlash c) = true := by
              have := all_of_sublist (List.dropWhile_sublist isSlash) hall
              rwa [hd] at this
            have hallp : (d :: rest'.takeWhile isPlain).all isPlain = true := by
              simp only [List.all_cons, hdp, Bool.true_and]
              exact List.all_takeWhile
            have hsplit2 : (d :: rest'.takeWhile isPlain) ++ rest'.dropWhile isPlain
                = d :: rest' := by
              rw [List.cons_append, List.takeWhile_append_dropWhile isPlain rest']
            have hhead2 : headSat isPlain (rest'.dropWhile isPlain ++ X) = false := by
              match hd2 : rest'.dropWhile isPlain with
              | [] => simpa using hXp
              | e :: es =>
                have := headSat_dropWhile isPlain rest'
                rw [hd2] at this
                simpa [headSat] using this
            have hOK' : headSat isSlash (rest'.dropWhile isPlain).reverse = false ∨
                (headSat isSlash X = false ∧ headSat isQuote X = false) := by
              rcases hOK with h | h
              · left
                by_cases hre2 : rest'.dropWhile isPlain = []
                · rw [hre2]; rfl
                · have hrev : (c :: cs).reverse = (rest'.dropWhile isPlain).reverse ++
                      (List.replicate ns '\\' ++ (d :: rest'.takeWhile isPlain)).reverse := by
                    rw [← List.reverse_append]
                    congr 1
                    rw [hdec, List.append_assoc]
                    congr 1
                    exact hsplit2.symm
                  rw [hrev, headSat_append_left (by simpa using hre2)] at h
                  exact h
              · right; exact h
            have hlenr : (rest'.dropWhile isPlain).length ≤ n := by
              have h1 : (rest'.dropWhile isPlain).length ≤ rest'.length :=
                length_dropWhile_le _ _
              simp only [List.length_cons] at hlen2
              omega
            obtain ⟨runs', hrt, hre3⟩ := ih (rest'.dropWhile isPlain) X hlenr
              (all_of_sublist (List.dropWhile_sublist _) (all_cons_head hallrest).2)
              hXp hOK'
            match hnsm : ns, hns1 with
            | m + 1, _ =>
              refine ⟨List.replicate m (Run.txt ['\\']) ++
                (Run.txt ('\\' :: d :: rest'.takeWhile isPlain) :: runs'), ?_, ?_⟩
              · have hre4 : rest' = rest'.takeWhile isPlain ++ rest'.dropWhile isPlain :=
                  (List.takeWhile_append_dropWhile isPlain rest').symm
                calc tokenize ((c :: cs) ++ X)
                    = tokenize (List.replicate (m + 1) '\\' ++
                        ((d :: rest'.takeWhile isPlain) ++
                          (rest'.dropWhile isPlain ++ X))) := by
                      rw [hdec]
                      simp only [List.cons_append, List.append_assoc]
                      rw [← List.append_assoc, ← hre4]
                  _ = List.replicate m (Run.txt ['\\']) ++
                        Run.txt ('\\' :: d :: rest'.takeWhile isPlain) ::
                          tokenize (rest'.dropWhile isPlain ++ X) :=
                      tokenize_slashes_txt_append m d (rest'.takeWhile isPlain) _ hallp hhead2
                  _ = (List.replicate m (Run.txt ['\\']) ++
                        (Run.txt ('\\' :: d :: rest'.takeWhile isPlain) :: runs')) ++
                          tokenize X := by
                      rw [hrt]
                      simp
              · intro h qm
                have e1 := emits_replicate_slash h qm m
                have e2 := emits_txt h qm ('\\' :: d :: rest'.takeWhile isPlain)
                have e3 := hre3 h qm
                have e23 := emits_append  e2 e3
                have := emits_append e1 e23
                have hout : List.replicate m '\\' ++
                    (('\\' :: d :: rest'.takeWhile isPlain) ++ rest'.dropWhile isPlain)
                    = c :: cs := by
                  rw [show ('\\' :: d :: rest'.takeWhile isPlain) ++ rest'.dropWhile isPlain
                      = '\\' :: ((d :: rest'.takeWhile isPlain) ++ rest'.dropWhile isPlain)
                    from rfl]
                  rw [replicate_append_cons, hsplit2]
                  exact hdec.symm
                rwa [hout] at this


theorem dtb_ne_nil {r : List Char} (h : r ≠ []) : dtbPlain r ≠ [] := by
  unfold dtbPlain
  simp [List.append_eq_nil, h]

theorem headSat_isSlash_reverse_false_of_all {p : Char → Bool}
    (hpq : ∀ a, p a = true → isSlash a = false) {l : List Char} (hl : l.all p = true) :
    headSat isSlash l.reverse = false := by
  match hr : l.reverse with
  | [] => rfl
  | d :: ds =>
    have hdm : d ∈ l := List.mem_reverse.mp (by rw [hr]; exact List.mem_cons_self _ _)
    have := hpq d (List.all_eq_true.mp hl d hdm)
    simp [headSat, this]

theorem takeWhile_append_not_all {p : Char → Bool} {a b : List Char} {x : Char}
    (hx : x ∈ a) (hpx : p x = false) : (a ++ b).takeWhile p = a.takeWhile p := by
  rw [List.takeWhile_append]
  split
  · rename_i h
    have ha : a.takeWhile p = a :=
      List.IsPrefix.eq_of_length (List.takeWhile_prefix p) h
    have := List.takeWhile_eq_self_iff.mp ha x hx
    rw [hpx] at this
    cases this
  · rfl

theorem dtb_append_mid {x r : List Char} {d : Char} (hd : d ∈ r)
    (hds : isSlash d = false) :
    dtbPlain (x ++ r) = x ++ dtbPlain r := by
  unfold dtbPlain
  rw [List.reverse_append, takeWhile_append_not_all (List.mem_reverse.mpr hd) hds,
    List.append_assoc]

theorem headSat_dtb_append {p : Char → Bool} {r : List Char} (hr : r ≠ [])
    (Y : List Char) :
    headSat p (dtbPlain r ++ Y) = headSat p r := by
  rw [headSat_append_left (dtb_ne_nil hr)]
  unfold dtbPlain
  rw [headSat_append_left hr]

theorem tokenize_close_quote (tail : List Char) (htail : headSat isQuote tail = false) :
    tokenize ('\"' :: tail) = Run.sq 0 1 :: tokenize tail := by
  have := tokenize_sq_append 0 1 tail le_rfl htail
  simpa using this

theorem emits_close_quote {h : Bool → Nat → Nat → List Char × Bool} (hg : GoodSQ h) :
    Emits h true [Run.sq 0 1] [] false :=
  emits_sq (by have := hg.2.2.2.1 0; simpa using this)

theorem wrapped_body_runs :
    ∀ (n : Nat) (q tail : List Char), q.length ≤ n → q ≠ [] →
    q.all (fun c => !(isQuote c)) = true →
    headSat isQuote tail = false →
    ∃ runs, tokenize (dtbPlain q ++ '\"' :: tail) = runs ++ tokenize tail ∧
      ∀ h, GoodSQ h → Emits h true runs q false := by
  intro n
  induction n with
  | zero =>
    intro q tail hlen hne _ _
    exact absurd (List.length_eq_zero.mp (Nat.le_zero.mp hlen)) hne
  | succ n ih =>
    intro q tail hlen hne hqf htail
    match q, hne with
    | c :: cs, _ =>
      obtain ⟨hcq, hcsq⟩ := all_cons_head hqf
      simp only [List.length_cons, Nat.add_le_add_iff_right] at hlen
      by_cases hsp : isSpace c = true
      · -- leading whitespace run of the body
        have htw : (c :: cs).takeWhile isSpace = c :: cs.takeWhile isSpace :=
          List.takeWhile_cons_of_pos hsp
        have hsplit : (c :: cs).takeWhile isSpace ++ (c :: cs).dropWhile isSpace = c :: cs :=
          List.takeWhile_append_dropWhile isSpace (c :: cs)
        have htall : (c :: cs.takeWhile isSpace).all isSpace = true := by
          rw [← htw]
          exact List.all_takeWhile
        have hlast : headSat isSlash ((c :: cs).takeWhile isSpace).reverse = false :=
          headSat_isSlash_reverse_false_of_all
            (fun a ha => by
              have : ¬ (a = '\\') := by
                intro he; subst he; simp [isSpace] at ha
              simp [isSlash, this]) List.all_takeWhile
        by_cases hrnil : (c :: cs).dropWhile isSpace = []
        · have hq_eq : (c :: cs : List Char) = c :: cs.takeWhile isSpace := by
            rw [← htw]
            conv_lhs => rw [← hsplit]
            rw [hrnil, List.append_nil]
          have hdts : dtbPlain (c :: cs) = c :: cs :=
            dtb_no_trailing (by rw [hq_eq, ← htw]; exact hlast)
          refine ⟨[Run.ws (c :: cs.takeWhile isSpace), Run.sq 0 1], ?_, ?_⟩
          · rw [hdts]
            conv_lhs => rw [hq_eq]
            rw [show (c :: cs.takeWhile isSpace) ++ '\"' :: tail
                = (c :: cs.takeWhile isSpace) ++ ('\"' :: tail) from rfl]
            rw [tokenize_ws_append c (cs.takeWhile isSpace) ('\"' :: tail) htall
              (by simp [headSat, isSpace])]
            rw [tokenize_close_quote tail htail]
            simp
          · intro h hg
            have e1 := emits_ws_true h (c :: cs.takeWhile isSpace)
            have e2 := emits_close_quote hg
            have := emits_append  e1 e2
            rw [List.append_nil] at this
            rw [hq_eq]
            exact this
        · have hdts : dtbPlain (c :: cs) =
              (c :: cs).takeWhile isSpace ++
                dtbPlain ((c :: cs).dropWhile isSpace) := by
            conv_lhs => rw [← hsplit]
            exact dtb_append_left hlast
          obtain ⟨runs', hrt, hre⟩ := ih ((c :: cs).dropWhile isSpace) tail
            (by
              rw [List.dropWhile_cons_of_pos hsp]
              exact le_trans (length_dropWhile_le _ _) hlen)
            hrnil (all_of_sublist (List.dropWhile_sublist _) hqf) htail
          refine ⟨Run.ws (c :: cs.takeWhile isSpace) :: runs', ?_, ?_⟩
          · rw [hdts, ← htw, List.append_assoc, htw]
            rw [tokenize_ws_append c (cs.takeWhile isSpace) _ htall
              (by
                rw [headSat_dtb_append hrnil]
                exact headSat_dropWhile isSpace (c :: cs))]
            rw [hrt]
            simp
          · intro h hg
            have e1 := emits_ws_true h (c :: cs.takeWhile isSpace)
            have := emits_append  e1 (hre h hg)
            have h2 : (c :: cs.takeWhile isSpace) ++ (c :: cs).dropWhile isSpace = c :: cs := by
              rw [← htw]
              exact hsplit
            rw [h2] at this
            simpa using this
      · by_cases hcsl : isSlash c = true
        · -- leading backslash run of the body
          have hsl : headSat isSlash (c :: cs) = true := by simpa [headSat] using hcsl
          obtain ⟨ns, hdec, hns1, hlen2⟩ := slashrun_decomp (c :: cs) hsl
          by_cases hrnil : (c :: cs).dropWhile isSlash = []
          · -- the whole body is backslashes
            rw [hrnil, List.append_nil] at hdec
            have hdts : dtbPlain (c :: cs) = List.replicate (2 * ns) '\\' := by
              rw [hdec, dtb_replicate_slash]
            refine ⟨[Run.sq (2 * ns) 1], ?_, ?_⟩
            · rw [hdts]
              have hshape : List.replicate (2 * ns) '\\' ++ '\"' :: tail
                  = List.replicate (2 * ns) '\\' ++ (List.replicate 1 '\"' ++ tail) := by
                simp
              rw [hshape, tokenize_sq_append (2 * ns) 1 tail le_rfl htail]
              rfl
            · intro h hg
              have hsq : h true (2 * ns) 1 = (List.replicate ns '\\', false) :=
                hg.2.2.2.1 ns
              have := emits_sq hsq
              rwa [← hdec] at this
          · match hd : (c :: cs).dropWhile isSlash, hrnil with
            | d :: rest', _ =>
              rw [hd] at hdec hlen2
              have hdns : isSlash d = false := by
                have := headSat_dropWhile isSlash (c :: cs)
                rw [hd] at this
                simpa [headSat] using this
              have hdmem : d ∈ c :: cs := by
                have : d ∈ (c :: cs).dropWhile isSlash := by
                  rw [hd]; exact List.mem_cons_self _ _
                exact (List.dropWhile_sublist _).subset this
              have hdq : ¬ (d = '\"') := by
                have := List.all_eq_true.mp hqf d hdmem
                intro he
                subst he
                simp [isQuote] at this
              have hrq : (d :: rest').all (fun c => !(isQuote c)) = true := by
                have := all_of_sublist (List.dropWhile_sublist isSlash) hqf
                rwa [hd] at this
              have hrlen : (d :: rest').length ≤ n := by
                simp only [List.length_cons] at hlen2 ⊢
                omega
              by_cases hdsp : isSpace d = true
              · -- backslashes then whitespace: the slashes are literal text
                have hdts : dtbPlain (c :: cs) =
                    List.replicate ns '\\' ++ dtbPlain (d :: rest') := by
                  rw [hdec]
                  exact dtb_append_mid (List.mem_cons_self _ _) hdns
                obtain ⟨runs', hrt, hre⟩ := ih (d :: rest') tail hrlen (by simp)
                  hrq htail
                refine ⟨List.replicate ns (Run.txt ['\\']) ++ runs', ?_, ?_⟩
                · rw [hdts, List.append_assoc]
                  rw [tokenize_slashes_append ns _
                    (by rw [headSat_dtb_append (by simp)]; simp [headSat, hdns])
                    (by rw [headSat_dtb_append (by simp)]; simp [headSat, isQuote, hdq])
                    (by rw [headSat_dtb_append (by simp)]; simp [headSat, isPlain, hdsp])]
                  rw [hrt]
                  simp
                · intro h hg
                  have e1 := emits_replicate_slash h true ns
                  have := emits_append e1 (hre h hg)
                  rwa [← hdec] at this
              · -- backslashes then plain text: slash-text merge
                have hdpl : isPlain d = true := by
                  simp [isPlain, hdsp, hdns, isQuote, hdq]
                have hsplit2 : (d :: rest'.takeWhile isPlain) ++ rest'.dropWhile isPlain
                    = d :: rest' := by
                  rw [List.cons_append, List.takeWhile_append_dropWhile isPlain rest']
                have hallp : (d :: rest'.takeWhile isPlain).all isPlain = true := by
                  simp only [List.all_cons, hdpl, Bool.true_and]
                  exact List.all_takeWhile
                have hlastp : headSat isSlash (d :: rest'.takeWhile isPlain).reverse = false :=
                  headSat_isSlash_reverse_false_of_all
                    (fun a ha => by
                      rcases isPlain_parts ha with ⟨_, h2, _⟩
                      exact h2) hallp
                by_cases hr2nil : rest'.dropWhile isPlain = []
                · -- the body ends with this plain run
                  have hq_eq : (c :: cs : List Char) =
                      List.replicate ns '\\' ++ (d :: rest'.takeWhile isPlain) := by
                    rw [hdec]
                    congr 1
                    rw [← hsplit2, hr2nil, List.append_nil]
                  have hdts : dtbPlain (c :: cs) = c :: cs := by
                    apply dtb_no_trailing
                    rw [hq_eq, List.reverse_append,
                      headSat_append_left (by simp)]
                    exact hlastp
                  match hnsm : ns, hns1 with
                  | m + 1, _ =>
                    refine ⟨List.replicate m (Run.txt ['\\']) ++
                      (Run.txt ('\\' :: d :: rest'.takeWhile isPlain) ::
                        [Run.sq 0 1]), ?_, ?_⟩
                    · rw [hdts]
                      conv_lhs => rw [hq_eq]
                      rw [List.append_assoc]
                      rw [tokenize_slashes_txt_append m d (rest'.takeWhile isPlain) _ hallp
                        (by simp [headSat, isPlain, isQuote])]
                      rw [tokenize_close_quote tail htail]
                      simp
                    · intro h hg
                      have e1 := emits_replicate_slash h true m
                      have e2 := emits_txt h true ('\\' :: d :: rest'.takeWhile isPlain)
                      have e3 := emits_close_quote hg
                      have e23 := emits_append
                         e2 e3
                      have := emits_append e1 e23
                      rw [List.append_nil] at this
                      have hout : List.replicate m '\\' ++
                          ('\\' :: d :: rest'.takeWhile isPlain) = c :: cs := by
                        rw [show ('\\' :: d :: rest'.takeWhile isPlain : List Char)
                            = '\\' :: (d :: rest'.takeWhile isPlain) from rfl]
                        rw [replicate_append_cons]
                        exact hq_eq.symm
                      rwa [hout] at this
                · -- the plain run is interior
                  have hdts : dtbPlain (c :: cs) =
                      (List.replicate ns '\\' ++ (d :: rest'.takeWhile isPlain)) ++
                        dtbPlain (rest'.dropWhile isPlain) := by
                    have hq_eq : (c :: cs : List Char) =
                        (List.replicate ns '\\' ++ (d :: rest'.takeWhile isPlain)) ++
                          rest'.dropWhile isPlain := by
                      rw [hdec, List.append_assoc, hsplit2]
                    rw [hq_eq]
                    apply dtb_append_left
                    rw [List.reverse_append, headSat_append_left (by simp)]
                    exact hlastp
                  obtain ⟨runs', hrt, hre⟩ := ih (rest'.dropWhile isPlain) tail
                    (by
                      have := length_dropWhile_le isPlain rest'
                      simp only [List.length_cons] at hrlen
                      omega)
                    hr2nil
                    (all_of_sublist (List.dropWhile_sublist _) (all_cons_head hrq).2)
                    htail
                  have hhd2 : headSat isPlain
                      (dtbPlain (rest'.dropWhile isPlain) ++ '\"' :: tail)
                      = false := by
                    rw [headSat_dtb_append hr2nil]
                    exact headSat_dropWhile isPlain rest'
                  match hnsm : ns, hns1 with
                  | m + 1, _ =>
                    refine ⟨List.replicate m (Run.txt ['\\']) ++
                      (Run.txt ('\\' :: d :: rest'.takeWhile isPlain) :: runs'), ?_, ?_⟩
                    · rw [hdts]
                      rw [List.append_assoc, List.append_assoc]
                      rw [tokenize_slashes_txt_append m d (rest'.takeWhile isPlain) _ hallp
                        hhd2]
                      rw [hrt]
                      simp
                    · intro h hg
                      have e1 := emits_replicate_slash h true m
                      have e2 := emits_txt h true ('\\' :: d :: rest'.takeWhile isPlain)
                      have e23 := emits_append
                         e2
                        (hre h hg)
                      have := emits_append e1 e23
                      have hout : List.replicate m '\\' ++
                          (('\\' :: d :: rest'.takeWhile isPlain) ++
                            rest'.dropWhile isPlain) = c :: cs := by
                        rw [show ('\\' :: d :: rest'.takeWhile isPlain : List Char)
                            = '\\' :: (d :: rest'.takeWhile isPlain) from rfl]
                        rw [show ('\\' :: (d :: rest'.takeWhile isPlain)) ++
                            rest'.dropWhile isPlain
                            = '\\' :: ((d :: rest'.takeWhile isPlain) ++
                              rest'.dropWhile isPlain) from rfl]
                        rw [replicate_append_cons, hsplit2]
                        exact hdec.symm
                      rwa [hout] at this
        · -- leading plain-text run of the body
          have hcpl : isPlain c = true := by
            simp [isPlain, hsp, hcsl, isQuote]
            intro he
            subst he
            simp [isQuote] at hcq
          have hsplit : (c :: cs.takeWhile isPlain) ++ cs.dropWhile isPlain = c :: cs := by
            rw [List.cons_append, List.takeWhile_append_dropWhile isPlain cs]
          have hallp : (c :: cs.takeWhile isPlain).all isPlain = true := by
            simp only [List.all_cons, hcpl, Bool.true_and]
            exact List.all_takeWhile
          have hlast : headSat isSlash (c :: cs.takeWhile isPlain).reverse = false :=
            headSat_isSlash_reverse_false_of_all
              (fun a ha => by
                rcases isPlain_parts ha with ⟨_, h2, _⟩
                exact h2) hallp
          by_cases hrnil : cs.dropWhile isPlain = []
          · have hq_eq : (c :: cs : List Char) = c :: cs.takeWhile isPlain := by
              conv_lhs => rw [← hsplit]
              rw [hrnil, List.append_nil]
            have hdts : dtbPlain (c :: cs) = c :: cs := by
              apply dtb_no_trailing
              rw [hq_eq]
              exact hlast
            refine ⟨[Run.txt (c :: cs.takeWhile isPlain), Run.sq 0 1], ?_, ?_⟩
            · rw [hdts]
              conv_lhs => rw [hq_eq]
              rw [show (c :: cs.takeWhile isPlain) ++ '\"' :: tail
                  = (c :: cs.takeWhile isPlain) ++ ('\"' :: tail) from rfl]
              rw [tokenize_txt_append c (cs.takeWhile isPlain) ('\"' :: tail) hallp
                (by simp [headSat, isPlain, isQuote])]
              rw [tokenize_close_quote tail htail]
              simp
            · intro h hg
              have e1 := emits_txt h true (c :: cs.takeWhile isPlain)
              have e2 := emits_close_quote hg
              have := emits_append  e1 e2
              rw [List.append_nil] at this
              rw [hq_eq]
              exact this
          · have hdts : dtbPlain (c :: cs) =
                (c :: cs.takeWhile isPlain) ++ dtbPlain (cs.dropWhile isPlain) := by
              conv_lhs => rw [← hsplit]
              exact dtb_append_left hlast
            obtain ⟨runs', hrt, hre⟩ := ih (cs.dropWhile isPlain) tail
              (le_trans (length_dropWhile_le _ _) hlen) hrnil
              (all_of_sublist (List.Sublist.trans (List.dropWhile_sublist _)
                (List.sublist_cons_self c cs)) hqf) htail
            refine ⟨Run.txt (c :: cs.takeWhile isPlain) :: runs', ?_, ?_⟩
            · rw [hdts, List.append_assoc]
              rw [tokenize_txt_append c (cs.takeWhile isPlain) _ hallp
                (by
                  rw [headSat_dtb_append hrnil]
                  exact headSat_dropWhile isPlain cs)]
              rw [hrt]
              simp
            · intro h hg
              have e1 := emits_txt h true (c :: cs.takeWhile isPlain)
              have := emits_append  e1 (hre h hg)
              rwa [hsplit] at this


theorem plain_or_slash_of_not_metaOrSpace {a : Char} (h : isCmdMetaOrSpace a = false) :
    (isPlain a || isSlash a) = true := by
  rcases Bool.or_eq_false_iff.mp (by simpa [isCmdMetaOrSpace] using h) with ⟨hs, hmm⟩
  by_cases hsl : isSlash a = true
  · simp [hsl]
  · have hq : ¬ (a = '\"') := by
      intro he
      subst he
      simp [isCmdMeta] at hmm
    simp [isPlain, hs, hsl, isQuote, hq]

theorem headSat_isSlash_of_not_head? {l : List Char} (h : ¬ (l.head? = some '\\')) :
    headSat isSlash l = false := by
  match l with
  | [] => rfl
  | x :: xs =>
    simp only [List.head?_cons] at h
    have : ¬ (x = '\\') := by
      intro he
      exact h (by rw [he])
    simp [headSat, isSlash, this]

theorem all_not_quote_of_all_quotable {q : List Char} (h : q.all isQuotable = true) :
    q.all (fun c => !(isQuote c)) = true := by
  rw [List.all_eq_true] at h ⊢
  intro a ha
  have := isQuotable_not_quote (h a ha)
  simp [isQuote, this]

theorem strippedQFC_head_not_quote {l : List Char} (h : headSat isQuotable l = false) :
    headSat isQuote (strippedQFC l) = false := by
  match l with
  | [] => rfl
  | d :: ds =>
    have hdq : isQuotable d = false := by simpa [headSat] using h
    rw [strippedQFC_cons]
    by_cases hdm : (d = '%' || d = '!') = true
    · rw [if_pos hdm]
      rcases Bool.or_eq_true_iff.mp hdm with h1 | h1 <;>
        (rw [decide_eq_true_iff] at h1; subst h1; rfl)
    · by_cases hdq2 : d = '\"'
      · rw [if_neg hdm, if_pos hdq2]
        rfl
      · exact absurd (isQuotable_of_branches hdm hdq2) (by simp [hdq])

theorem encConsSeg {e v : List Char} (u : List Char) (hne : u ≠ [])
    (hall : u.all (fun c => isPlain c || isSlash c) = true)
    (hlast : headSat isSlash u.reverse = false)
    (henc : Enc e v) : Enc (u ++ e) (u ++ v) := by
  cases henc with
  | nil => exact Enc.seg u hne hall hlast rfl Enc.nil
  | seg u' hne' hall' hlast' hhead' henc' =>
    rename_i e0 v0
    have hcomb := Enc.seg (u ++ u') (by simp [hne])
      (by rw [List.all_append, hall, hall']; rfl)
      (by
        rw [List.reverse_append, headSat_append_left (by simp [hne'])]
        exact hlast')
      hhead' henc'
    simpa [List.append_assoc] using hcomb
  | sq1 hhead' henc' =>
    exact Enc.seg u hne hall hlast (by simp [headSat]; decide) (Enc.sq1 hhead' henc')
  | wrapb q hq hqf hhead' henc' =>
    exact Enc.seg u hne hall hlast (by simp [headSat]; decide)
      (Enc.wrapb q hq hqf hhead' henc')
  | sq1wrap q hq hqf hhead' henc' =>
    exact Enc.seg u hne hall hlast (by simp [headSat]; decide)
      (Enc.sq1wrap q hq hqf hhead' henc')

theorem enc_strippedQFC : ∀ (n : Nat) (l : List Char), l.length ≤ n →
    goodPieces l = true → Enc (strippedQFC l) l := by
  intro n
  induction n with
  | zero =>
    intro l hlen _
    have : l = [] := List.length_eq_zero.mp (Nat.le_zero.mp hlen)
    subst this
    exact Enc.nil
  | succ n ih =>
    intro l hlen hg
    match l with
    | [] => exact Enc.nil
    | c :: cs =>
      simp only [List.length_cons, Nat.add_le_add_iff_right] at hlen
      rw [strippedQFC_cons]
      by_cases hm : (c = '%' || c = '!') = true
      · rw [if_pos hm]
        have hg' : goodPieces cs = true := by
          rw [goodPieces_cons, if_pos hm] at hg
          exact hg
        have hpl : isPlain c = true := by
          rcases Bool.or_eq_true_iff.mp hm with h1 | h1 <;>
            (rw [decide_eq_true_iff] at h1; subst h1; decide)
        have hns : ¬ (c = '\\') := by
          rcases Bool.or_eq_true_iff.mp hm with h1 | h1 <;>
            (rw [decide_eq_true_iff] at h1; subst h1; decide)
        have := encConsSeg [c] (by simp) (by simp [hpl])
          (by simp [headSat, isSlash, hns]) (ih cs hlen hg')
        simpa using this
      · by_cases hq : c = '\"'
        · subst hq
          rw [if_neg hm, if_pos rfl]
          have hg0 : goodPieces cs = true := by
            rw [goodPieces_cons, if_neg hm, if_pos rfl] at hg
            exact hg
          match cs, hg0 with
          | [], _ => exact Enc.sq1 rfl Enc.nil
          | d :: ds, hg0 =>
            by_cases hdm : (d = '%' || d = '!') = true
            · refine Enc.sq1 ?_ (ih (d :: ds) hlen hg0)
              rw [strippedQFC_cons, if_pos hdm]
              rcases Bool.or_eq_true_iff.mp hdm with h1 | h1 <;>
                (rw [decide_eq_true_iff] at h1; subst h1; rfl)
            · by_cases hdq : d = '\"'
              · refine Enc.sq1 ?_ (ih (d :: ds) hlen hg0)
                rw [strippedQFC_cons, if_neg hdm, if_pos hdq]
                rfl
              · have hdcq : isQuotable d = true := isQuotable_of_branches hdm hdq
                have hgd := hg0
                rw [goodPieces_cons, if_neg hdm, if_neg hdq] at hgd
                simp only [Bool.and_eq_true, Bool.not_eq_true'] at hgd
                obtain ⟨hben2, hgrest2⟩ := hgd
                have hqne : (d :: ds).takeWhile isQuotable ≠ [] := by
                  rw [List.takeWhile_cons_of_pos hdcq]
                  simp
                have hqall : ((d :: ds).takeWhile isQuotable).all isQuotable :=
                  List.all_takeWhile
                have hrest : headSat isQuote
                    (strippedQFC ((d :: ds).dropWhile isQuotable)) = false :=
                  strippedQFC_head_not_quote (headSat_dropWhile isQuotable (d :: ds))
                have hrlen : ((d :: ds).dropWhile isQuotable).length ≤ n := by
                  rw [List.dropWhile_cons_of_pos hdcq]
                  simp only [List.length_cons] at hlen
                  exact le_trans (length_dropWhile_le _ _) (by omega)
                have hih := ih ((d :: ds).dropWhile isQuotable) hrlen hgrest2
                rw [strippedQFC_cons, if_neg hdm, if_neg hdq]
                unfold quotablePiece
                by_cases hwrap : (((d :: ds).takeWhile isQuotable).any isCmdMetaOrSpace ||
                    decide (((d :: ds).takeWhile isQuotable).reverse.head? = some '\\'))
                    = true
                · rw [if_pos hwrap]
                  have := Enc.sq1wrap ((d :: ds).takeWhile isQuotable) hqne
                    (all_not_quote_of_all_quotable hqall) hrest hih
                  have hsplit : (d :: ds).takeWhile isQuotable ++
                      (d :: ds).dropWhile isQuotable = d :: ds :=
                    List.takeWhile_append_dropWhile isQuotable (d :: ds)
                  rw [hsplit] at this
                  unfold wrap_in_quotes
                  rw [dtb_eq_plain hben2]
                  simpa [List.append_assoc] using this
                · rw [if_neg hwrap]
                  have hih2 : Enc (List.takeWhile isQuotable (d :: ds) ++
                      strippedQFC (List.dropWhile isQuotable (d :: ds))) (d :: ds) := by
                    have h0 := ih (d :: ds) hlen hg0
                    rw [strippedQFC_cons, if_neg hdm, if_neg hdq] at h0
                    unfold quotablePiece at h0
                    rw [if_neg hwrap] at h0
                    exact h0
                  refine Enc.sq1 ?_ hih2
                  rw [headSat_append_left hqne, List.takeWhile_cons_of_pos hdcq]
                  simp [headSat, isQuote, hdq]
        · rw [if_neg hm, if_neg hq]
          have hcq : isQuotable c = true := isQuotable_of_branches hm hq
          rw [goodPieces_cons, if_neg hm, if_neg hq] at hg
          simp only [Bool.and_eq_true, Bool.not_eq_true'] at hg
          obtain ⟨hben, hgrest⟩ := hg
          have hqne : (c :: cs).takeWhile isQuotable ≠ [] := by
            rw [List.takeWhile_cons_of_pos hcq]
            simp
          have hqall : ((c :: cs).takeWhile isQuotable).all isQuotable :=
            List.all_takeWhile
          have hrlen : ((c :: cs).dropWhile isQuotable).length ≤ n := by
            rw [List.dropWhile_cons_of_pos hcq]
            exact le_trans (length_dropWhile_le _ _) hlen
          have hih := ih ((c :: cs).dropWhile isQuotable) hrlen hgrest
          have hsplit : (c :: cs).takeWhile isQuotable ++
              (c :: cs).dropWhile isQuotable = c :: cs :=
            List.takeWhile_append_dropWhile isQuotable (c :: cs)
          unfold quotablePiece
          by_cases hwrap : (((c :: cs).takeWhile isQuotable).any isCmdMetaOrSpace ||
              decide (((c :: cs).takeWhile isQuotable).reverse.head? = some '\\')) = true
          · rw [if_pos hwrap]
            have hrest : headSat isQuote
                (strippedQFC ((c :: cs).dropWhile isQuotable)) = false :=
              strippedQFC_head_not_quote (headSat_dropWhile isQuotable (c :: cs))
            have := Enc.wrapb ((c :: cs).takeWhile isQuotable) hqne
              (all_not_quote_of_all_quotable hqall) hrest hih
            rw [hsplit] at this
            unfold wrap_in_quotes
            rw [dtb_eq_plain hben]
            simpa [List.append_assoc] using this
          · rw [if_neg hwrap]
            rcases Bool.or_eq_false_iff.mp (Bool.eq_false_iff.mpr hwrap) with ⟨hA, hB⟩
            have hall2 : ((c :: cs).takeWhile isQuotable).all
                (fun a => isPlain a || isSlash a) = true := by
              rw [List.all_eq_true]
              intro a ha
              exact plain_or_slash_of_not_metaOrSpace
                (by simpa using List.any_eq_false.mp hA a ha)
            have hlast2 : headSat isSlash ((c :: cs).takeWhile isQuotable).reverse = false :=
              headSat_isSlash_of_not_head? (by simpa using hB)
            have := encConsSeg ((c :: cs).takeWhile isQuotable) hqne hall2 hlast2 hih
            rwa [hsplit] at this


theorem headSat_isQuote_of_quote_free {q : List Char} (hq : q ≠ [])
    (hqf : q.all (fun c => !(isQuote c)) = true) : headSat isQuote q = false := by
  match q, hq with
  | x :: xs, _ => simpa [headSat] using (all_cons_head hqf).1

theorem encRuns {e v : List Char} (henc : Enc e v) :
    ∀ tail, headSat (fun c => !(isSpace c)) tail = false →
    ∃ runs, tokenize (e ++ tail) = runs ++ tokenize tail ∧
      ∀ h, GoodSQ h → Emits h false runs v false := by
  induction henc with
  | nil =>
    intro tail _
    exact ⟨[], by simp, fun h _ => emits_nil h false⟩
  | seg u hne hall hlast hhead henc' ih =>
    rename_i e0 v0
    intro tail htail
    obtain ⟨runs', hrt, hre⟩ := ih tail htail
    obtain ⟨htq, htsl, htp⟩ := nonspace_head_facts htail
    have hXp : headSat isPlain (e0 ++ tail) = false := by
      by_cases he : e0 = []
      · subst he; simpa using htp
      · rw [headSat_append_left he]; exact hhead
    obtain ⟨runs1, hrt1, hre1⟩ := txtslash_seg_runs u.length u (e0 ++ tail) le_rfl
      hall hXp (Or.inl hlast)
    refine ⟨runs1 ++ runs', ?_, ?_⟩
    · rw [List.append_assoc, hrt1, hrt, List.append_assoc]
    · intro h hg
      exact emits_append (hre1 h false) (hre h hg)
  | sq1 hhead henc' ih =>
    rename_i e0 v0
    intro tail htail
    obtain ⟨runs', hrt, hre⟩ := ih tail htail
    obtain ⟨htq, _, _⟩ := nonspace_head_facts htail
    have hXq : headSat isQuote (e0 ++ tail) = false := by
      by_cases he : e0 = []
      · subst he; simpa using htq
      · rw [headSat_append_left he]; exact hhead
    refine ⟨Run.sq 1 1 :: runs', ?_, ?_⟩
    · have hshape : (('\\' :: '\"' :: e0) ++ tail : List Char)
          = List.replicate 1 '\\' ++ (List.replicate 1 '\"' ++ (e0 ++ tail)) := by
        simp
      rw [hshape, tokenize_sq_append 1 1 _ le_rfl hXq, hrt]
      rfl
    · intro h hg
      have h11 : h false 1 1 = (['\"'], false) := by
        have := hg.1 0
        simpa using this
      have := emits_append  (emits_sq h11) (hre h hg)
      simpa using this
  | wrapb q hq hqf hhead henc' ih =>
    rename_i e0 v0
    intro tail htail
    obtain ⟨runs', hrt, hre⟩ := ih tail htail
    obtain ⟨htq, _, _⟩ := nonspace_head_facts htail
    have hXq0 : headSat isQuote (e0 ++ tail) = false := by
      by_cases he : e0 = []
      · subst he; simpa using htq
      · rw [headSat_append_left he]; exact hhead
    obtain ⟨runsB, hrtB, hreB⟩ := wrapped_body_runs q.length q (e0 ++ tail) le_rfl
      hq hqf hXq0
    have hbody : headSat isQuote
        (dtbPlain q ++ '\"' :: (e0 ++ tail)) = false := by
      rw [headSat_dtb_append hq]
      exact headSat_isQuote_of_quote_free hq hqf
    refine ⟨Run.sq 0 1 :: (runsB ++ runs'), ?_, ?_⟩
    · have hshape : (('\"' :: (dtbPlain q ++ '\"' :: e0)) ++ tail : List Char)
          = List.replicate 0 '\\' ++ (List.replicate 1 '\"' ++
            (dtbPlain q ++ '\"' :: (e0 ++ tail))) := by
        simp
      rw [hshape, tokenize_sq_append 0 1 _ le_rfl hbody, hrtB, hrt]
      simp
    · intro h hg
      have h01 : h false 0 1 = ([], true) := by
        have := hg.2.2.2.2.2.2 0
        simpa using this
      have e1 := emits_sq (h := h) h01
      have e2 := emits_append (hreB h hg) (hre h hg)
      have := emits_append  e1 e2
      simpa using this
  | sq1wrap q hq hqf hhead henc' ih =>
    rename_i e0 v0
    intro tail htail
    obtain ⟨runs', hrt, hre⟩ := ih tail htail
    obtain ⟨htq, _, _⟩ := nonspace_head_facts htail
    have hXq0 : headSat isQuote (e0 ++ tail) = false := by
      by_cases he : e0 = []
      · subst he; simpa using htq
      · rw [headSat_append_left he]; exact hhead
    obtain ⟨runsB, hrtB, hreB⟩ := wrapped_body_runs q.length q (e0 ++ tail) le_rfl
      hq hqf hXq0
    have hbody : headSat isQuote
        (dtbPlain q ++ '\"' :: (e0 ++ tail)) = false := by
      rw [headSat_dtb_append hq]
      exact headSat_isQuote_of_quote_free hq hqf
    refine ⟨Run.sq 1 2 :: (runsB ++ runs'), ?_, ?_⟩
    · have hshape : (('\\' :: '\"' :: '\"' :: (dtbPlain q ++ '\"' :: e0))
            ++ tail : List Char)
          = List.replicate 1 '\\' ++ (List.replicate 2 '\"' ++
            (dtbPlain q ++ '\"' :: (e0 ++ tail))) := by
        simp [List.replicate_succ]
      rw [hshape, tokenize_sq_append 1 2 _ (by omega) hbody, hrtB, hrt]
      simp
    · intro h hg
      have h12 : h false 1 2 = (['\"'], true) := by
        have := hg.2.2.2.2.2.1 0
        simpa using this
      have e1 := emits_sq (h := h) h12
      have e2 := emits_append (hreB h hg) (hre h hg)
      have := emits_append  e1 e2
      simpa using this


theorem pair_split (E1 w : List Char) (hne : E1 ≠ [])
    (hhd : headSat isSpace E1 = false)
    (hE : ∀ tail, headSat (fun c => !(isSpace c)) tail = false →
      ∃ runs, tokenize (E1 ++ tail) = runs ++ tokenize tail ∧
        ∀ h, GoodSQ h → Emits h false runs w false) :
    ∀ (h : Bool → Nat → Nat → List Char × Bool), GoodSQ h →
    splitRunsF h (tokenize (lstrip (E1 ++ ' ' :: E1))).length
      (tokenize (lstrip (E1 ++ ' ' :: E1))) = [w, w] := by
  intro h hg
  have hls : lstrip (E1 ++ ' ' :: E1) = E1 ++ ' ' :: E1 := by
    unfold lstrip
    exact dropWhile_not_head (by rw [headSat_append_left hne]; exact hhd)
  rw [hls]
  obtain ⟨runs1, hrt1, hre1⟩ := hE (' ' :: E1) (by simp [headSat, isSpace])
  obtain ⟨runs2, hrt2, hre2⟩ := hE [] (by rfl)
  rw [List.append_nil, tokenize_nil, List.append_nil] at hrt2
  have hrn2 : runs2 ≠ [] := by
    intro hh
    rw [hh] at hrt2
    exact tokenize_ne_nil hne hrt2
  have hws : tokenize (' ' :: E1) = Run.ws [' '] :: tokenize E1 := by
    have := tokenize_ws_append ' ' [] E1 (by simp [isSpace]) hhd
    simpa using this
  rw [hrt1, hws, hrt2]
  have hlen2 : 1 ≤ runs2.length := by
    match runs2, hrn2 with
    | r :: rs, _ => simp
  have hlen1 : 1 ≤ (runs1 ++ Run.ws [' '] :: runs2).length := by
    simp only [List.length_append, List.length_cons]
    omega
  obtain ⟨f, hf⟩ : ∃ f, (runs1 ++ Run.ws [' '] :: runs2).length = f + 1 :=
    ⟨(runs1 ++ Run.ws [' '] :: runs2).length - 1, by omega⟩
  rw [hf, splitRunsF_cons_ne h f (by simp)]
  have hit1 : iterArg h false (runs1 ++ Run.ws [' '] :: runs2) = (w, runs2) := by
    have := hre1 h hg (Run.ws [' '] :: runs2)
    rw [this]
    simp [iterArg]
  rw [hit1]
  have hit2 : iterArg h false runs2 = (w, []) := by
    have := hre2 h hg []
    rw [List.append_nil] at this
    rw [this]
    simp [iterArg]
  obtain ⟨g, hgf⟩ : ∃ g, f = g + 1 := by
    refine ⟨f - 1, ?_⟩
    have hfe : runs1.length + (runs2.length + 1) = f + 1 := by
      simpa using hf
    omega
  rw [hgf, splitRunsF_cons_ne h g hrn2, hit2, splitRunsF_nil]

theorem strip_id_of_no_meta {s : List Char} (h : hasCmdMeta s = false) :
    strip_carets_like_cmd s true = .ok s := by
  have hmem : ∀ a ∈ s, isCmdMeta a = false := by
    intro a ha
    have := List.any_eq_false.mp (by simpa [hasCmdMeta] using h) a ha
    simpa using this
  have htr : StripOK false s s false := by
    match s with
    | [] => exact StripOK.nil false
    | c :: cs =>
      exact stripOK_txt_all false (c :: cs)
        (by
          rw [List.all_eq_true]
          intro a ha
          exact not_meta_caretText (hmem a ha))
        (by
          rw [List.any_eq_false]
          intro a ha
          simp [hmem a ha])
  exact stripFrom_of_StripOK _ htr

theorem split_pair_of_good (s1 E1 w : List Char)
    (hstrip : StripOK false s1 E1 false)
    (hne : E1 ≠ [])
    (hhd : headSat isSpace E1 = false)
    (hE : ∀ tail, headSat (fun c => !(isSpace c)) tail = false →
      ∃ runs, tokenize (E1 ++ tail) = runs ++ tokenize tail ∧
        ∀ h, GoodSQ h → Emits h false runs w false) :
    split (s1 ++ ' ' :: s1) true true none = .ok [w, w] := by
  have hOK : StripOK false (s1 ++ ' ' :: s1) (E1 ++ ' ' :: E1) false := by
    have hsp := @StripOK.txt false _ _ _ ' ' [] (by decide) (by decide) hstrip
    have := stripOK_append hstrip hsp
    simpa using this
  have hstripped : strip_carets_like_cmd (s1 ++ ' ' :: s1) true = .ok (E1 ++ ' ' :: E1) :=
    stripFrom_of_StripOK _ hOK
  have hworking : splitWorking (s1 ++ ' ' :: s1) true true = .ok (E1 ++ ' ' :: E1) := by
    unfold splitWorking
    by_cases hmeta : hasCmdMeta (s1 ++ ' ' :: s1) = true
    · rw [if_pos (by simp [hmeta])]
      exact hstripped
    · rw [if_neg (by simp; simpa using hmeta)]
      have hid : strip_carets_like_cmd (s1 ++ ' ' :: s1) true = .ok (s1 ++ ' ' :: s1) :=
        strip_id_of_no_meta (by simpa using hmeta)
      have heq : (s1 ++ ' ' :: s1 : List Char) = E1 ++ ' ' :: E1 :=
        Except.ok.inj (hid.symm.trans hstripped)
      rw [heq]
  have hm : split_msvcrt (E1 ++ ' ' :: E1) = [w, w] := by
    unfold split_msvcrt
    exact pair_split E1 w hne hhd hE msvcrtSQ goodSQ_msvcrt
  have hu : split_ucrt (E1 ++ ' ' :: E1) = [w, w] := by
    unfold split_ucrt
    exact pair_split E1 w hne hhd hE ucrtSQ goodSQ_ucrt
  unfold split
  rw [hworking]
  simp [hm, hu]

theorem seg_hE {w : List Char} (hall : w.all (fun c => isPlain c || isSlash c) = true) :
    ∀ tail, headSat (fun c => !(isSpace c)) tail = false →
    ∃ runs, tokenize (w ++ tail) = runs ++ tokenize tail ∧
      ∀ h, GoodSQ h → Emits h false runs w false := by
  intro tail htail
  obtain ⟨htq, htsl, htp⟩ := nonspace_head_facts htail
  obtain ⟨runs, hrt, hre⟩ := txtslash_seg_runs w.length w tail le_rfl hall htp
    (Or.inr ⟨htsl, htq⟩)
  exact ⟨runs, hrt, fun h _ => hre h false⟩

theorem all_plain_or_slash_of_no_sq {w : List Char}
    (h : ∀ a ∈ w, isSpace a = false ∧ isQuote a = false) :
    w.all (fun c => isPlain c || isSlash c) = true := by
  rw [List.all_eq_true]
  intro a ha
  obtain ⟨h1, h2⟩ := h a ha
  by_cases hsl : isSlash a = true
  · simp [hsl]
  · simp [isPlain, h1, h2, hsl]

theorem quotablePiece_ne_nil {q : List Char} (h : q ≠ []) : quotablePiece q ≠ [] := by
  unfold quotablePiece
  split
  · unfold wrap_in_quotes
    simp
  · exact h

theorem strippedQFC_ne_nil {l : List Char} (h : l ≠ []) : strippedQFC l ≠ [] := by
  match l, h with
  | c :: cs, _ =>
    rw [strippedQFC_cons]
    by_cases hm : (c = '%' || c = '!') = true
    · rw [if_pos hm]
      simp
    · by_cases hq : c = '\"'
      · rw [if_neg hm, if_pos hq]
        simp
      · rw [if_neg hm, if_neg hq]
        have hcq := isQuotable_of_branches hm hq
        have hqp := quotablePiece_ne_nil (q := (c :: cs).takeWhile isQuotable)
          (by rw [List.takeWhile_cons_of_pos hcq]; simp)
        intro hcon
        exact hqp (List.append_eq_nil.mp hcon).1

theorem strippedQFC_head_nonspace (l : List Char) :
    headSat isSpace (strippedQFC l) = false := by
  match l with
  | [] => rfl
  | c :: cs =>
    rw [strippedQFC_cons]
    by_cases hm : (c = '%' || c = '!') = true
    · rw [if_pos hm]
      rcases Bool.or_eq_true_iff.mp hm with h1 | h1 <;>
        (rw [decide_eq_true_iff] at h1; subst h1; rfl)
    · by_cases hq : c = '\"'
      · rw [if_neg hm, if_pos hq]
        rfl
      · rw [if_neg hm, if_neg hq]
        have hcq := isQuotable_of_branches hm hq
        have hqne : (c :: cs).takeWhile isQuotable ≠ [] := by
          rw [List.takeWhile_cons_of_pos hcq]
          simp
        rw [headSat_append_left (quotablePiece_ne_nil hqne)]
        unfold quotablePiece
        split
        · unfold wrap_in_quotes
          rfl
        · rename_i hcond
          have hA := (Bool.or_eq_false_iff.mp (Bool.eq_false_iff.mpr hcond)).1
          rw [List.takeWhile_cons_of_pos hcq] at hA ⊢
          have hc0 : isCmdMetaOrSpace c = false := by
            have := List.any_eq_false.mp hA c (List.mem_cons_self _ _)
            simpa using this
          have := (Bool.or_eq_false_iff.mp (by simpa [isCmdMetaOrSpace] using hc0)).1
          simp [headSat, this]

/-- C4 counterexample: the shell-mode quoted-pair round trip fails on the
word `"\<newline>"`: its single quotable run ends in a backslash directly
before a final newline, so the wrapped piece's `re.sub(r"(\\+)$", r"\1\1")`
(whose `$` also matches just before the trailing newline) doubles the
backslash, and the pair splits to two copies of `"\\<newline>"`. -/
theorem claim_C4_counterexample :
    split (quote ['\\', '\n'] true ++ ' ' :: quote ['\\', '\n'] true) true true none =
        Except.ok [['\\', '\\', '\n'], ['\\', '\\', '\n']] ∧
      [['\\', '\\', '\n'], ['\\', '\\', '\n']] ≠ [['\\', '\n'], ['\\', '\n']] := by
  constructor
  · decide
  · decide

/-- C4 (amended): for every word `w` none of whose maximal quotable runs
(maximal runs free of `%`, `!` and `"`) ends in a backslash directly
followed by a newline that closes the run, the shell-mode quoted pair
round-trips: `split(quote(w) + " " + quote(w))`, with all of `split`'s
arguments at their defaults (shell-aware, strict checking, runtime variant
unspecified), returns exactly the two-element list `[w, w]`. -/
theorem claim_C4_roundtrip_pair (w : List Char) (hgp : goodPieces w = true) :
    split (quote w true ++ ' ' :: quote w true) true true none = Except.ok [w, w] := by
  by_cases hw0 : w = []
  · subst hw0
    decide
  · by_cases hb : w.any isCmdMetaOrSpace = true
    · by_cases hsq : w.any (fun c => isSpace c || isQuote c) = true
      · have hquote : quote w true = quote_for_cmd w := by
          simp [quote, hw0, hb, hsq]
        rw [hquote]
        exact split_pair_of_good _ _ _ (stripOK_quoteForCmd w.length w)
          (strippedQFC_ne_nil hw0) (strippedQFC_head_nonspace w)
          (encRuns (enc_strippedQFC w.length w le_rfl hgp))
      · have hsq' : w.any (fun c => isSpace c || isQuote c) = false := by
          simpa using hsq
        have hmemsq : ∀ a ∈ w, isSpace a = false ∧ isQuote a = false := by
          intro a ha
          have := List.any_eq_false.mp hsq' a ha
          constructor
          · exact (Bool.or_eq_false_iff.mp (by simpa using this)).1
          · exact (Bool.or_eq_false_iff.mp (by simpa using this)).2
        have hhd : headSat isSpace w = false := by
          match w, hw0 with
          | c :: cs, _ =>
            have := (hmemsq c (List.mem_cons_self _ _)).1
            simpa [headSat] using this
        by_cases halt : (caretEscapeAll w).length < (quote_for_cmd w).length
        · have hquote : quote w true = caretEscapeAll w := by
            simp [quote, hw0, hb, hsq, halt]
          rw [hquote]
          exact split_pair_of_good _ _ _ (stripOK_caretEscapeAll w) hw0 hhd
            (seg_hE (all_plain_or_slash_of_no_sq hmemsq))
        · have hquote : quote w true = quote_for_cmd w := by
            simp [quote, hw0, hb, hsq, halt]
          rw [hquote]
          exact split_pair_of_good _ _ _ (stripOK_quoteForCmd w.length w)
            (strippedQFC_ne_nil hw0) (strippedQFC_head_nonspace w)
            (encRuns (enc_strippedQFC w.length w le_rfl hgp))
    · have hb' : w.any isCmdMetaOrSpace = false := by simpa using hb
      have hmem : ∀ a ∈ w, isCmdMetaOrSpace a = false := by
        intro a ha
        have := List.any_eq_false.mp hb' a ha
        simpa using this
      have hquote : quote w true = w := by
        simp [quote, hw0, hb']
      rw [hquote]
      have hmemsq : ∀ a ∈ w, isSpace a = false ∧ isQuote a = false := by
        intro a ha
        obtain ⟨h1, h2⟩ := Bool.or_eq_false_iff.mp (by
          simpa [isCmdMetaOrSpace] using hmem a ha)
        refine ⟨h1, ?_⟩
        have hq : ¬ (a = '\"') := by
          intro he
          subst he
          simp [isCmdMeta] at h2
        simp [isQuote, hq]
      have hhd : headSat isSpace w = false := by
        match w, hw0 with
        | c :: cs, _ =>
          have := (hmemsq c (List.mem_cons_self _ _)).1
          simpa [headSat] using this
      have hmeta : ∀ a ∈ w, isCmdMeta a = false := fun a ha =>
        (Bool.or_eq_false_iff.mp (by simpa [isCmdMetaOrSpace] using hmem a ha)).2
      have htr : StripOK false w w false := by
        match w, hw0 with
        | c :: cs, _ =>
          exact stripOK_txt_all false (c :: cs)
            (by
              rw [List.all_eq_true]
              intro a ha
              exact not_meta_caretText (hmeta a ha))
            (by
              rw [List.any_eq_false]
              intro a ha
              simp [hmeta a ha])
      exact split_pair_of_good _ _ _ htr hw0 hhd
        (seg_hE (all_plain_or_slash_of_no_sq hmemsq))

theorem claim_C4_roundtrip_pair_witness :
    goodPieces ['a', ' ', 'b'] = true ∧
      split (quote ['a', ' ', 'b'] true ++ ' ' :: quote ['a', ' ', 'b'] true)
          true true none = Except.ok [['a', ' ', 'b'], ['a', ' ', 'b']] :=
  ⟨by decide, claim_C4_roundtrip_pair ['a', ' ', 'b'] (by decide)⟩

end Mslex
